import Mathlib

/-!
# Verification of the netgen `ngcore` archive engine (`src/libsrc/core/archive.hpp`)

This file gives a shallow embedding of the object-graph serialization engine:

* the abstract `Archive` contract is modelled as a stream of logical tokens
  (`Tok`): each pure-virtual primitive (`operator& (int&)`, `(bool&)`,
  `(std::string&)`, `(size_t&)`) is one token kind;
* the pointer paths `Archive::operator&(std::shared_ptr<T>&)` (archive.hpp
  lines 229-325) and `Archive::operator&(T*&)` (lines 328-421) are transcribed
  as the fuel-indexed state machines `wrun` (output direction) and `rrun`
  (input direction);
* a C++ object is an entry of a `Heap`; a C++ pointer value (`void*`) is a
  pair `(object id, byte offset of the base subobject)`, so that the pointer
  comparisons `reg_ptr != static_cast<void*>(p)` of the source become
  decidable pair comparisons, and the registry's `downcaster` returns the
  most-derived address `(a, 0)`;
* the process-wide type information (`std::is_constructible<T>`, the default
  constructed fields, and the registered base-subobject offsets computed by
  `Archive::Caster`) is a map `Ctx.tenv`; the archive registry membership
  (`Archive::IsRegistered`) is the list `Ctx.reg`.  The registry's backing
  store (`archive.cpp`) only holds this map; `Demangle` is the identity on
  our abstract type names.
* `DoArchive` is virtual in the user classes of this library
  (`libsrc/meshing/basegeom.hpp` line 25), so a body transfer
  `(*this) & (*p)` serializes the fields of the most-derived object; a body
  is the field list of the heap object.

The binary encoder's coalescing buffer (`BinaryOutArchive::Write`,
`FlushBuffer`, lines 525-605), the text encoder's bool reader
(`TextInArchive::operator&(bool&)`, line 762) and the version header
(`BinaryOutArchive`/`BinaryInArchive` constructors and `GetVersion`) are
modelled separately below.
-/

namespace NgArchive

/-- A logical token of the abstract archive contract: one pure-virtual
primitive transfer.  `ti` = `int`/`long` values (also the sentinel ids),
`tb` = `bool`, `ts` = `std::string`, `tn` = `size_t` (container lengths). -/
inductive Tok where
  | ti (n : Int)
  | tb (b : Bool)
  | ts (s : String)
  | tn (n : Nat)
deriving DecidableEq, Repr

/-- Errors surfaced by the engine (all thrown as `std::runtime_error` in the
source): unregistered polymorphic type, missing default constructor,
failed up/down cast, a malformed token on the stream, an out-of-range
access (C++ undefined behaviour on a bad stream), and fuel exhaustion of
the embedding. -/
inductive AErr where
  | unregistered
  | notConstructible
  | castFail
  | fmt
  | oob
  | fuel
deriving DecidableEq, Repr

instance instDecEqExcept {e a : Type} [DecidableEq e] [DecidableEq a] :
    DecidableEq (Except e a) := fun x y =>
  match x, y with
  | .ok u, .ok v =>
    if h : u = v then .isTrue (by rw [h]) else .isFalse (by intro hc; cases hc; exact h rfl)
  | .error u, .error v =>
    if h : u = v then .isTrue (by rw [h]) else .isFalse (by intro hc; cases hc; exact h rfl)
  | .ok _, .error _ => .isFalse (by intro hc; cases hc)
  | .error _, .ok _ => .isFalse (by intro hc; cases hc)

/-- A C++ pointer value: the heap object it points into and the byte offset
of the base subobject it designates (`0` = the most-derived object). -/
abbrev VPtr := Nat × Nat

/-- One member field of a user object, as traversed by its `DoArchive`:
a primitive, a `std::string`, a `std::vector<int>` (container), a
`std::shared_ptr<S>` member or a raw `S*` member.  The static type `sty`
of a pointer member is the `T` of the template instantiation. -/
inductive Fld where
  | fInt (i : Int)
  | fStr (s : String)
  | fVec (v : List Int)
  | fSh (sty : String) (v : Option VPtr)
  | fPt (sty : String) (v : Option VPtr)
deriving DecidableEq, Repr

/-- The compile-time shape of a field (what drives overload resolution in
`DoArchive`); two objects of the same class have equal shapes. -/
inductive Shp where
  | sInt
  | sStr
  | sVec
  | sSh (sty : String)
  | sPt (sty : String)
deriving DecidableEq, Repr

def Fld.shape : Fld → Shp
  | .fInt _ => .sInt
  | .fStr _ => .sStr
  | .fVec _ => .sVec
  | .fSh sty _ => .sSh sty
  | .fPt sty _ => .sPt sty

/-- A live C++ object: its dynamic (most-derived) type name and the member
fields its (virtual) `DoArchive` transfers, in order. -/
structure Obj where
  dyn : String
  flds : List Fld
deriving DecidableEq, Repr

/-- The writer's address space: object ids are list indices. -/
abbrev Heap := List Obj

/-- Static per-class information: `std::is_constructible<T>::value`, the
fields of a default-constructed instance, and the byte offsets of the
registered base subobjects (what the `Caster` chains of
`RegisterClassForArchive` compute when the hierarchy is fully
registered). -/
structure TypeInfo where
  constructible : Bool
  defaults : List Fld
  baseOff : List (String × Nat)

/-- The ambient process state: the static class table and the set of type
names registered through `RegisterClassForArchive` (i.e. for which
`Archive::IsRegistered` holds). -/
structure Ctx where
  tenv : String → TypeInfo
  reg : List String

/-- `offsetOf c d s`: the offset of the `s` base subobject inside an object
of dynamic type `d` (`0` when `s = d`). -/
def offsetOf (c : Ctx) (d s : String) : Option Nat :=
  if s = d then some 0 else ((c.tenv d).baseOff).lookup s

/-- The registry `downcaster` of the class registered under name `d`,
applied at base `typeid` `sty`: takes the address of a base subobject and
returns the most-derived address (archive.hpp lines 515-516, 484-497).
Fails (`CastFailure`) when `sty` is not a registered base of `d`. -/
def dcast (c : Ctx) (d sty : String) (p : VPtr) : Except AErr VPtr :=
  if sty = d then .ok p
  else
    match ((c.tenv d).baseOff).lookup sty with
    | some _ => .ok (p.1, 0)
    | none => .error .castFail

/-- The registry `upcaster` of the class registered under `d`, applied at
base `typeid` `sty`: takes the most-derived address and returns the address
of the `sty` base subobject (archive.hpp lines 513-514, 475-481). -/
def ucast (c : Ctx) (d sty : String) (p : VPtr) : Except AErr VPtr :=
  if sty = d then .ok p
  else
    match ((c.tenv d).baseOff).lookup sty with
    | some k => .ok (p.1, k)
    | none => .error .castFail

/-- `detail::constructIfPossible<T>` (archive.hpp lines 33-41): allocates a
default-constructed `t` at a fresh address, or throws when `t` has no
default constructor. -/
def constructIP (c : Ctx) (t : String) (h : Heap) : Except AErr (Heap × Nat) :=
  if (c.tenv t).constructible then
    .ok (h ++ [⟨t, (c.tenv t).defaults⟩], h.length)
  else .error .notConstructible

/-- Association-list lookup for the identity maps `shared_ptr2nr` /
`ptr2nr` (`std::map<void*, int>::find`). -/
def alook : List (VPtr × Nat) → VPtr → Option Nat
  | [], _ => none
  | (k, v) :: r, x => if x = k then some v else alook r x

/-- Association-list store (`std::map<void*, int>::operator[] =`). -/
def aset : List (VPtr × Nat) → VPtr → Nat → List (VPtr × Nat)
  | [], x, v => [(x, v)]
  | (k, w) :: r, x, v => if x = k then (x, v) :: r else (k, w) :: aset r x v

/-- The identity-key normalization of the shared-pointer write path
(archive.hpp lines 238-251): `reg_ptr` starts as `ptr.get()`; when the
dynamic type differs from the static one the registered downcaster
rebases it to the most-derived address, and `neededDowncast` records
whether that moved the pointer. -/
def wnormSh (c : Ctx) (dyn sty : String) (pv : VPtr) : Except AErr (VPtr × Bool) :=
  if sty = dyn then .ok (pv, false)
  else if dyn ∈ c.reg then
    match dcast c dyn sty pv with
    | .ok rp => .ok (rp, decide (rp ≠ pv))
    | .error e => .error e
  else .error .unregistered

/-- The identity-key normalization of the raw-pointer write path
(archive.hpp lines 336-344). -/
def wnormPt (c : Ctx) (dyn sty : String) (pv : VPtr) : Except AErr VPtr :=
  if sty = dyn then .ok pv
  else if dyn ∈ c.reg then dcast c dyn sty pv
  else .error .unregistered

/-- The mutable identity state of an output `Archive` (archive.hpp lines
93-100, write direction): the two `void* -> id` maps and the two monotone
counters.  The emitted tokens are returned by `wrun` rather than stored. -/
structure WSt where
  sharedMap : List (VPtr × Nat)
  ptrMap : List (VPtr × Nat)
  sharedCount : Nat
  ptrCount : Nat
deriving DecidableEq, Repr

def WSt.init : WSt := ⟨[], [], 0, 0⟩

/-- A pending transfer on the write side: a `shared_ptr<sty>` with value
`v`, a raw `sty*` with value `v`, or the body of object `a` from field
index `i` on (the tail of its `DoArchive`). -/
inductive WTask where
  | sh (sty : String) (v : Option VPtr)
  | pt (sty : String) (v : Option VPtr)
  | body (a i : Nat)
deriving DecidableEq, Repr

/-- The output direction of `Archive::operator&` on pointers and on object
bodies, transcribed from archive.hpp lines 229-269 (`shared_ptr<T>&`,
output branch), 328-377 (`T*&`, output branch) and 222-226 (`DoArchive`
dispatch).  Returns the updated identity state and the emitted tokens.
The fuel argument decreases on every recursive call. -/
def wrun (c : Ctx) (H : Heap) : Nat → WTask → WSt → Except AErr (WSt × List Tok)
  | 0, _, _ => .error .fuel
  | n + 1, .sh sty v, w =>
    match v with
    | none => .ok (w, [.ti (-2)])
    | some pv =>
      match H.get? pv.1 with
      | none => .error .oob
      | some o =>
        -- lines 238-251: compute reg_ptr and neededDowncast
        let dyn := o.dyn
        match wnormSh c dyn sty pv with
        | .error e => .error e
        | .ok (regp, needed) =>
          match alook w.sharedMap regp with
          | none =>
            -- lines 254-264: store -1, neededDowncast, the raw pointer,
            -- optionally the type name; record the id afterwards
            match wrun c H n (.pt sty (some pv)) w with
            | .error e => .error e
            | .ok (w1, d) =>
              .ok ({ w1 with
                       sharedMap := aset w1.sharedMap regp w1.sharedCount,
                       sharedCount := w1.sharedCount + 1 },
                   [.ti (-1), .tb needed] ++ d ++
                     (if needed then [.ts dyn] else []))
          | some id =>
            -- lines 266-268: store the position, the flag, optionally the name
            .ok (w, [.ti ((id : Int)), .tb needed] ++
                    (if needed then [.ts dyn] else []))
  | n + 1, .pt sty v, w =>
    match v with
    | none => .ok (w, [.ti (-2)])
    | some pv =>
      match H.get? pv.1 with
      | none => .error .oob
      | some o =>
        -- lines 336-344: compute reg_ptr
        let dyn := o.dyn
        match wnormPt c dyn sty pv with
        | .error e => .error e
        | .ok regp =>
          match alook w.ptrMap regp with
          | none =>
            -- line 349: record the id before anything else
            let w1 : WSt := { w with ptrMap := aset w.ptrMap regp w.ptrCount,
                                     ptrCount := w.ptrCount + 1 }
            if dyn = sty then
              if (c.tenv sty).constructible then
                -- line 353: << -1 & (*p)
                match wrun c H n (.body pv.1 0) w1 with
                | .error e => .error e
                | .ok (w2, d) => .ok (w2, .ti (-1) :: d)
              else .error .notConstructible
            else
              if dyn ∈ c.reg then
                -- line 368: << -3 << name & (*p)
                match wrun c H n (.body pv.1 0) w1 with
                | .error e => .error e
                | .ok (w2, d) => .ok (w2, .ti (-3) :: .ts dyn :: d)
              else .error .unregistered
          | some id =>
            -- lines 371-377: id, downcasted flag, and always the name
            .ok (w, [.ti ((id : Int)), .tb (decide (regp ≠ pv)), .ts dyn])
  | n + 1, .body a i, w =>
    match H.get? a with
    | none => .error .oob
    | some o =>
      match o.flds.get? i with
      | none => .ok (w, [])
      | some f =>
        let step : Except AErr (WSt × List Tok) :=
          match f with
          | .fInt x => .ok (w, [.ti x])
          | .fStr s => .ok (w, [.ts s])
          | .fVec l => .ok (w, .tn l.length :: l.map Tok.ti)
          | .fSh sty v => wrun c H n (.sh sty v) w
          | .fPt sty v => wrun c H n (.pt sty v) w
        match step with
        | .error e => .error e
        | .ok (w1, d) =>
          match wrun c H n (.body a (i + 1)) w1 with
          | .error e => .error e
          | .ok (w2, d2) => .ok (w2, d ++ d2)

/-- The state of an input `Archive` (archive.hpp lines 93-100, read
direction): the reconstructed heap, the two `id -> pointer` vectors
(`nr2shared_ptr` stores the addresses held by the `shared_ptr<void>`
entries), and the remaining input tokens. -/
structure RSt where
  heap : Heap
  nr2shared : List (Option VPtr)
  nr2ptr : List VPtr
  inp : List Tok
deriving DecidableEq, Repr

/-- Read one `int` token (a pure-virtual `operator&(int&)` call). -/
def rdInt (r : RSt) : Except AErr (RSt × Int) :=
  match r.inp with
  | .ti x :: rest => .ok ({ r with inp := rest }, x)
  | _ => .error .fmt

/-- Read one `bool` token. -/
def rdBool (r : RSt) : Except AErr (RSt × Bool) :=
  match r.inp with
  | .tb x :: rest => .ok ({ r with inp := rest }, x)
  | _ => .error .fmt

/-- Read one `std::string` token. -/
def rdStr (r : RSt) : Except AErr (RSt × String) :=
  match r.inp with
  | .ts x :: rest => .ok ({ r with inp := rest }, x)
  | _ => .error .fmt

/-- Read one `size_t` token. -/
def rdNat (r : RSt) : Except AErr (RSt × Nat) :=
  match r.inp with
  | .tn x :: rest => .ok ({ r with inp := rest }, x)
  | _ => .error .fmt

/-- Read `n` `int` tokens (the element loop of `Archive::Do(int*, size_t)`). -/
def rdInts : Nat → RSt → Except AErr (RSt × List Int)
  | 0, r => .ok (r, [])
  | n + 1, r =>
    match rdInt r with
    | .error e => .error e
    | .ok (r1, x) =>
      match rdInts n r1 with
      | .error e => .error e
      | .ok (r2, l) => .ok (r2, x :: l)

/-- Apply a cast to a possibly null `void*` (`dynamic_cast` chains map a
null pointer to a null pointer). -/
def optCast (f : VPtr → Except AErr VPtr) : Option VPtr → Except AErr (Option VPtr)
  | none => .ok none
  | some p =>
    match f p with
    | .ok q => .ok (some q)
    | .error e => .error e

/-- Overwrite field `i` of object `a` of the reader heap. -/
def hset (h : Heap) (a i : Nat) (f : Fld) : Heap :=
  match h.get? a with
  | none => h
  | some o => h.set a ⟨o.dyn, o.flds.set i f⟩

/-- A pending transfer on the read side (destination static types mirror
`WTask`; the values to fill come from the stream). -/
inductive RTask where
  | sh (sty : String)
  | pt (sty : String)
  | body (a i : Nat)
deriving DecidableEq, Repr

/-- The input direction of `Archive::operator&` on pointers and bodies,
transcribed from archive.hpp lines 270-323 (`shared_ptr<T>&`, input
branch), 379-419 (`T*&`, input branch) and the `DoArchive` dispatch.
Returns the new state and the pointer value stored into the destination
(`none` both for a restored null pointer and for a finished body). -/
def rrun (c : Ctx) : Nat → RTask → RSt → Except AErr (RSt × Option VPtr)
  | 0, _, _ => .error .fuel
  | n + 1, .sh sty, r =>
    match rdInt r with
    | .error e => .error e
    | .ok (r, nr) =>
      if nr = -2 then .ok (r, none)
      else if nr = -1 then
        -- lines 281-301
        match rdBool r with
        | .error e => .error e
        | .ok (r, needed) =>
          match rrun c n (.pt sty) r with
          | .error e => .error e
          | .ok (r, p) =>
            if needed then
              match rdStr r with
              | .error e => .error e
              | .ok (r, name) =>
                if name ∈ c.reg then
                  match optCast (dcast c name sty) p with
                  | .error e => .error e
                  | .ok q =>
                    .ok ({ r with nr2shared := r.nr2shared ++ [q] }, p)
                else .error .unregistered
            else .ok ({ r with nr2shared := r.nr2shared ++ [p] }, p)
      else if nr < 0 then .error .oob
      else
        -- lines 302-322
        match r.nr2shared.get? nr.toNat with
        | none => .error .oob
        | some other =>
          match rdBool r with
          | .error e => .error e
          | .ok (r, needed) =>
            if needed then
              match rdStr r with
              | .error e => .error e
              | .ok (r, name) =>
                if name ∈ c.reg then
                  match optCast (ucast c name sty) other with
                  | .error e => .error e
                  | .ok q => .ok (r, q)
                else .error .unregistered
            else .ok (r, other)
  | n + 1, .pt sty, r =>
    match rdInt r with
    | .error e => .error e
    | .ok (r, nr) =>
      if nr = -2 then .ok (r, none)
      else if nr = -1 then
        -- lines 385-390: constructIfPossible<T>, record, read the body
        if (c.tenv sty).constructible then
          let a := r.heap.length
          let r := { r with heap := r.heap ++ [(⟨sty, (c.tenv sty).defaults⟩ : Obj)],
                            nr2ptr := r.nr2ptr ++ [(a, 0)] }
          match rrun c n (.body a 0) r with
          | .error e => .error e
          | .ok (r, _) => .ok (r, some (a, 0))
        else .error .notConstructible
      else if nr = -3 then
        -- lines 391-404: creator, record the downcasted pointer, read body
        match rdStr r with
        | .error e => .error e
        | .ok (r, name) =>
          if name ∈ c.reg then
            if (c.tenv name).constructible then
              let a := r.heap.length
              let r := { r with heap := r.heap ++ [(⟨name, (c.tenv name).defaults⟩ : Obj)] }
              match ucast c name sty (a, 0) with
              | .error e => .error e
              | .ok p =>
                match dcast c name sty p with
                | .error e => .error e
                | .ok q =>
                  let r := { r with nr2ptr := r.nr2ptr ++ [q] }
                  match rrun c n (.body a 0) r with
                  | .error e => .error e
                  | .ok (r, _) => .ok (r, some p)
            else .error .notConstructible
          else .error .unregistered
      else if nr < 0 then .error .oob
      else
        -- lines 405-418: back-reference; flag and name always consumed
        match r.nr2ptr.get? nr.toNat with
        | none => .error .oob
        | some q =>
          match rdBool r with
          | .error e => .error e
          | .ok (r, down) =>
            match rdStr r with
            | .error e => .error e
            | .ok (r, name) =>
              if down then
                if name ∈ c.reg then
                  match ucast c name sty q with
                  | .error e => .error e
                  | .ok p => .ok (r, some p)
                else .error .unregistered
              else .ok (r, some q)
  | n + 1, .body a i, r =>
    match r.heap.get? a with
    | none => .error .oob
    | some o =>
      match o.flds.get? i with
      | none => .ok (r, none)
      | some f =>
        let step : Except AErr RSt :=
          match f with
          | .fInt _ =>
            match rdInt r with
            | .error e => .error e
            | .ok (r, x) => .ok { r with heap := hset r.heap a i (.fInt x) }
          | .fStr _ =>
            match rdStr r with
            | .error e => .error e
            | .ok (r, s) => .ok { r with heap := hset r.heap a i (.fStr s) }
          | .fVec _ =>
            match rdNat r with
            | .error e => .error e
            | .ok (r, len) =>
              match rdInts len r with
              | .error e => .error e
              | .ok (r, l) => .ok { r with heap := hset r.heap a i (.fVec l) }
          | .fSh sty _ =>
            match rrun c n (.sh sty) r with
            | .error e => .error e
            | .ok (r, v) => .ok { r with heap := hset r.heap a i (.fSh sty v) }
          | .fPt sty _ =>
            match rrun c n (.pt sty) r with
            | .error e => .error e
            | .ok (r, v) => .ok { r with heap := hset r.heap a i (.fPt sty v) }
        match step with
        | .error e => .error e
        | .ok r => rrun c n (.body a (i + 1)) r

/-! ## Library-version header

`version.hpp` is not under `src/`.  Modelled from the spec: a version is a
tuple "transferred as its decimal string form" (`Archive::operator&
(VersionInfo&)`, archive.hpp lines 130-141, writes `version.to_string()`
and reads back `VersionInfo(s)`); we keep a version abstractly as its
string form, with the default-constructed version the empty string. -/
structure VersionInfo where
  vrepr : String
deriving DecidableEq, Repr

/-- Modelled from the spec: `VersionInfo()` (default constructor of the
missing `version.hpp`) — the empty version. -/
def VersionInfo.defaultV : VersionInfo := ⟨""⟩

/-- `std::map<std::string, VersionInfo>` lookup (`find`-like view). -/
def vlook : List (String × VersionInfo) → String → Option VersionInfo
  | [], _ => none
  | (k, v) :: r, x => if x = k then some v else vlook r x

/-- `std::map<std::string, VersionInfo>::operator[] =` store. -/
def vset : List (String × VersionInfo) → String → VersionInfo →
    List (String × VersionInfo)
  | [], x, v => [(x, v)]
  | (k, w) :: r, x, v => if x = k then (x, v) :: r else (k, w) :: vset r x v

/-- The output direction of `Archive::operator&(std::map<T1,T2>&)`
(archive.hpp lines 174-179) at `T1 = std::string`, `T2 = VersionInfo`:
`size_t` size, then per entry the key string and the version string
(through `operator&(VersionInfo&)`).  This is what both output archive
constructors emit first. -/
def serVerMap (t : List (String × VersionInfo)) : List Tok :=
  .tn t.length :: (t.map fun e => [Tok.ts e.1, Tok.ts e.2.vrepr]).flatten

/-- The entry loop of the input direction of the map transfer (archive.hpp
lines 182-190): read `size` entries, storing each with `map[key] = val`. -/
def rdVerEntries : Nat → List (String × VersionInfo) → RSt →
    Except AErr (RSt × List (String × VersionInfo))
  | 0, acc, r => .ok (r, acc)
  | n + 1, acc, r =>
    match rdStr r with
    | .error e => .error e
    | .ok (r, k) =>
      match rdStr r with
      | .error e => .error e
      | .ok (r, s) => rdVerEntries n (vset acc k ⟨s⟩) r

/-- The input direction of the map transfer: what the input archive
constructors run first (`(*this) & vinfo`). -/
def rdVerMap (r : RSt) : Except AErr (RSt × List (String × VersionInfo)) :=
  match rdNat r with
  | .error e => .error e
  | .ok (r, n) => rdVerEntries n [] r

/-- `BinaryInArchive::GetVersion` / `TextInArchive::GetVersion`
(archive.hpp lines 622-623 and 746-747): `return vinfo[library]`, i.e.
`std::map::operator[]`, which default-constructs and inserts a missing
entry.  Returns the answer and the map after the call. -/
def getVersionIn (m : List (String × VersionInfo)) (lib : String) :
    VersionInfo × List (String × VersionInfo) :=
  match vlook m lib with
  | some v => (v, m)
  | none => (VersionInfo.defaultV, vset m lib VersionInfo.defaultV)

/-! ## Whole-archive save and load -/

/-- Write a sequence of root references through one output archive. -/
def wroots (c : Ctx) (H : Heap) : Nat → List WTask → WSt →
    Except AErr (WSt × List Tok)
  | _, [], w => .ok (w, [])
  | n, t :: ts, w =>
    match wrun c H n t w with
    | .error e => .error e
    | .ok (w1, d) =>
      match wroots c H n ts w1 with
      | .error e => .error e
      | .ok (w2, d2) => .ok (w2, d ++ d2)

/-- Read a sequence of root references through one input archive,
collecting the pointer values stored into the destinations. -/
def rroots (c : Ctx) : Nat → List RTask → RSt →
    Except AErr (RSt × List (Option VPtr))
  | _, [], r => .ok (r, [])
  | n, t :: ts, r =>
    match rrun c n t r with
    | .error e => .error e
    | .ok (r1, v) =>
      match rroots c n ts r1 with
      | .error e => .error e
      | .ok (r2, vs) => .ok (r2, v :: vs)

/-- A full save: the output archive constructor first transfers the
process version table (`(*this) & GetLibraryVersions()`, archive.hpp line
537), then the user roots are written.  Yields the complete token
stream. -/
def saveAll (c : Ctx) (H : Heap) (table : List (String × VersionInfo))
    (n : Nat) (roots : List WTask) : Except AErr (List Tok) :=
  match wroots c H n roots WSt.init with
  | .error e => .error e
  | .ok (_, d) => .ok (serVerMap table ++ d)

/-- A full load over a token stream: the input archive constructor first
reads the version table (`(*this) & vinfo`, archive.hpp line 617), then
the user roots are read.  Yields the final reader state, the version
table and the root values. -/
def loadAll (c : Ctx) (n : Nat) (roots : List RTask) (stream : List Tok) :
    Except AErr (RSt × List (String × VersionInfo) × List (Option VPtr)) :=
  match rdVerMap ⟨[], [], [], stream⟩ with
  | .error e => .error e
  | .ok (r, vm) =>
    match rroots c n roots r with
    | .error e => .error e
    | .ok (r2, vs) => .ok (r2, vm, vs)

/-! ## Binary encoder buffer (`BinaryOutArchive`, archive.hpp lines 523-606)

The 1024-byte coalescing buffer.  We model a byte as a `Nat` and the
buffer contents `buffer[0..ptr)` as the list `buf` (so `ptr = buf.length`);
`out` is the byte sequence already handed to the underlying `std::ostream`. -/

/-- The write-side buffer state of `BinaryOutArchive`. -/
structure BinBuf where
  out : List Nat
  buf : List Nat
deriving DecidableEq, Repr

def BinBuf.init : BinBuf := ⟨[], []⟩

/-- `BinaryOutArchive::Write<T>` (lines 592-605) on the byte image `x` of
the value (`x.length = sizeof(T)`): if `ptr > BUFFERSIZE - sizeof(T)` the
buffer is written to the stream and the new value placed at offset 0;
otherwise the value is appended at `ptr`. -/
def bwrite (x : List Nat) (s : BinBuf) : BinBuf :=
  if 1024 - x.length < s.buf.length then ⟨s.out ++ s.buf, x⟩
  else ⟨s.out, s.buf ++ x⟩

/-- `BinaryOutArchive::FlushBuffer` (lines 582-589). -/
def bflush (s : BinBuf) : BinBuf :=
  if 0 < s.buf.length then ⟨s.out ++ s.buf, []⟩ else s

/-- One call on the binary writer: a primitive of byte image `x`
(`Write<T>`), or a string transfer (lines 564-572): the length through
`Write<int>` (byte image `lb`), then `FlushBuffer`, then the payload bytes
written directly to the stream. -/
inductive BinOp where
  | prim (x : List Nat)
  | strop (lb payload : List Nat)
deriving DecidableEq, Repr

/-- Run one `BinOp` on the buffered writer. -/
def runOp (s : BinBuf) : BinOp → BinBuf
  | .prim x => bwrite x s
  | .strop lb payload =>
    let s1 := bflush (bwrite lb s)
    ⟨s1.out ++ payload, s1.buf⟩

/-- The bytes an unbuffered writer would emit for one `BinOp`. -/
def flatOp : BinOp → List Nat
  | .prim x => x
  | .strop lb payload => lb ++ payload

/-- Run a whole transfer sequence on the buffered writer. -/
def runOps (s : BinBuf) : List BinOp → BinBuf
  | [] => s
  | o :: os => runOps (runOp s o) os

/-! ## Text encoder bool input (`TextInArchive::operator&(bool&)`, line 762) -/

/-- The whitespace set skipped by formatted `char` extraction
(`*fin >> c`). -/
def isWs (ch : Char) : Bool :=
  ch = ' ' ∨ ch = '\t' ∨ ch = '\n' ∨ ch = '\x0b' ∨ ch = '\x0c' ∨ ch = '\r'

/-- `TextInArchive::operator&(bool&)`: `char c; *fin >> c; b = (c=='t')` —
skip whitespace, take one character, compare with `'t'`.  `none` only when
the stream has no character left (stream failure, not a format error). -/
def textInBool (s : List Char) : Option (Bool × List Char) :=
  match s.dropWhile isWs with
  | [] => none
  | ch :: r => some (ch = 't', r)

/-! ## Buffer lemmas and the encoder claims -/

theorem bflush_buf (s : BinBuf) : (bflush s).buf = [] := by
  unfold bflush
  split
  · rfl
  · next h =>
      have : s.buf = [] := by
        cases hb : s.buf with
        | nil => rfl
        | cons x t => exact absurd (by simp [hb]) h
      simp [this]

theorem bflush_out (s : BinBuf) : (bflush s).out = s.out ++ s.buf := by
  unfold bflush
  split
  · rfl
  · next h =>
      have : s.buf = [] := by
        cases hb : s.buf with
        | nil => rfl
        | cons x t => exact absurd (by simp [hb]) h
      simp [this]

theorem bwrite_glue (x : List Nat) (s : BinBuf) :
    (bwrite x s).out ++ (bwrite x s).buf = s.out ++ s.buf ++ x := by
  unfold bwrite
  split <;> simp

theorem runOp_glue (s : BinBuf) (o : BinOp) :
    (runOp s o).out ++ (runOp s o).buf = s.out ++ s.buf ++ flatOp o := by
  cases o with
  | prim x => simpa [runOp, flatOp] using bwrite_glue x s
  | strop lb payload =>
      simp only [runOp, flatOp, bflush_buf, List.append_nil, bflush_out]
      have := bwrite_glue lb s
      simp [this]

theorem runOps_glue (ops : List BinOp) : ∀ s : BinBuf,
    (runOps s ops).out ++ (runOps s ops).buf =
      s.out ++ s.buf ++ (ops.map flatOp).flatten := by
  induction ops with
  | nil => intro s; simp [runOps]
  | cons o os ih =>
      intro s
      simp only [runOps, List.map_cons, List.flatten_cons]
      rw [ih (runOp s o), runOp_glue]
      simp

/-- **C5.** The bytes that reach the `std::ostream` of a `BinaryOutArchive`
after its destructor has flushed the buffer are exactly the concatenation,
in transfer order, of the native byte images of every primitive written
(`Write<T>`) and of every length-prefixed string transfer
(`operator&(std::string&)`): the overflow flush of `Write`, the forced
flush before each string payload and the destructor flush neither drop,
duplicate nor reorder any byte relative to an unbuffered writer. -/
theorem binaryOut_buffer_faithful (ops : List BinOp) :
    (bflush (runOps BinBuf.init ops)).out = (ops.map flatOp).flatten := by
  rw [bflush_out, runOps_glue ops BinBuf.init]
  simp [BinBuf.init]

/-- **C8.** `BinaryOutArchive` keeps `0 ≤ ptr ≤ BUFFERSIZE = 1024` on its
buffer offset (here `ptr = buf.length`, which is `≥ 0` by construction):
the invariant holds after construction, is preserved by every
`Write<T>` with `sizeof(T) ≤ 1024`, and by every `FlushBuffer`; hence no
primitive write stores bytes past the end of the 1024-byte buffer. -/
theorem binaryOut_ptr_invariant :
    BinBuf.init.buf.length ≤ 1024 ∧
    (∀ (x : List Nat) (s : BinBuf), s.buf.length ≤ 1024 → x.length ≤ 1024 →
      (bwrite x s).buf.length ≤ 1024) ∧
    (∀ s : BinBuf, (bflush s).buf.length ≤ 1024) := by
  refine ⟨by simp [BinBuf.init], ?_, ?_⟩
  · intro x s hs hx
    unfold bwrite
    split
    · simpa using hx
    · next h => simp only [List.length_append]; omega
  · intro s
    simp [bflush_buf]

/-- Closed witness for C8: the invariant theorem applied at a concrete
buffer state and a concrete 2-byte write. -/
theorem binaryOut_ptr_invariant_w :
    (bwrite [7, 7] ⟨[], [1, 2, 3]⟩).buf.length ≤ 1024 :=
  binaryOut_ptr_invariant.2.1 [7, 7] ⟨[], [1, 2, 3]⟩ (by decide) (by decide)

/-- **C9.** `TextInArchive::operator&(bool&)` performs no format check:
whenever any character remains, it consumes exactly one non-whitespace
character `ch` (skipping whitespace) and succeeds, storing `true` exactly
when `ch = 't'`; every character other than `'t'` — not only `'f'` —
yields `false`. -/
theorem textIn_bool_total (s : List Char) (ch : Char) (r : List Char)
    (h : s.dropWhile isWs = ch :: r) :
    textInBool s = some (decide (ch = 't'), r) := by
  unfold textInBool
  rw [h]

/-- Closed witness for C9: the character `'z'` (neither `'t'` nor `'f'`)
is accepted and yields `false`. -/
theorem textIn_bool_total_w :
    textInBool (' ' :: 'z' :: '\n' :: []) = some (false, ['\n']) := by
  have := textIn_bool_total (' ' :: 'z' :: '\n' :: []) 'z' ['\n'] (by decide)
  simpa using this

theorem vlook_vset (m : List (String × VersionInfo)) (k : String)
    (v : VersionInfo) : vlook (vset m k v) k = some v := by
  induction m with
  | nil => simp [vset, vlook]
  | cons e t ih =>
      by_cases h : k = e.1
      · simp [vset, vlook, h]
      · simp [vset, vlook, h, ih]

/-- **C10.** `GetVersion` on an input archive (`BinaryInArchive` line 622,
`TextInArchive` line 746) with a library name absent from the stream
header does not fail: `vinfo[library]` default-constructs the entry,
returns it, and leaves the default entry inserted in the archive's
version map. -/
theorem getVersion_missing_default (m : List (String × VersionInfo))
    (lib : String) (h : vlook m lib = none) :
    getVersionIn m lib = (VersionInfo.defaultV, vset m lib VersionInfo.defaultV) ∧
    vlook (getVersionIn m lib).2 lib = some VersionInfo.defaultV := by
  unfold getVersionIn
  rw [h]
  exact ⟨rfl, vlook_vset m lib VersionInfo.defaultV⟩

/-- Closed witness for C10 at a concrete one-entry map and missing key. -/
theorem getVersion_missing_default_w :
    getVersionIn [("ngcore", ⟨"6.2"⟩)] "mylib" =
      (VersionInfo.defaultV, [("ngcore", ⟨"6.2"⟩), ("mylib", VersionInfo.defaultV)]) :=
  (getVersion_missing_default [("ngcore", ⟨"6.2"⟩)] "mylib" (by decide)).1

/-! ## Version header round trip (C7) -/

/-- The entry part of the serialized version map. -/
def entryToks (t : List (String × VersionInfo)) : List Tok :=
  (t.map fun e => [Tok.ts e.1, Tok.ts e.2.vrepr]).flatten

theorem vset_append (m : List (String × VersionInfo)) (k : String)
    (v : VersionInfo) (h : k ∉ m.map Prod.fst) : vset m k v = m ++ [(k, v)] := by
  induction m with
  | nil => rfl
  | cons e t ih =>
      simp only [List.map_cons, List.mem_cons] at h
      push_neg at h
      simp [vset, h.1, ih h.2]

theorem rdVerEntries_ser (t : List (String × VersionInfo)) :
    ∀ (acc : List (String × VersionInfo)) (r : RSt) (rest : List Tok),
    r.inp = entryToks t ++ rest →
    ((acc.map Prod.fst) ++ (t.map Prod.fst)).Nodup →
    rdVerEntries t.length acc r = .ok ({ r with inp := rest }, acc ++ t) := by
  induction t with
  | nil =>
      intro acc r rest hinp _
      simp only [entryToks, List.map_nil, List.flatten_nil, List.nil_append] at hinp
      simp [rdVerEntries, ← hinp]
  | cons e t ih =>
      intro acc r rest hinp hnd
      have hk : e.1 ∉ acc.map Prod.fst := by
        intro hmem
        have := (List.nodup_append.mp hnd).2.2
        exact this hmem (by simp)
      have heta : (⟨e.2.vrepr⟩ : VersionInfo) = e.2 := rfl
      simp only [entryToks, List.map_cons, List.flatten_cons, List.append_assoc,
        List.cons_append] at hinp
      have hnd2 : (((acc ++ [(e.1, e.2)]).map Prod.fst) ++ (t.map Prod.fst)).Nodup := by
        simpa [List.append_assoc] using hnd
      have hih := ih (acc ++ [(e.1, e.2)])
        { r with inp := entryToks t ++ rest } rest rfl hnd2
      simp only [List.length_cons, rdVerEntries, rdStr, hinp]
      rw [vset_append acc e.1 ⟨e.2.vrepr⟩ hk, heta]
      simp only [entryToks] at hih
      simpa using hih

/-- **C7.** The library-version header: for any payload `rest`, an input
archive constructed over `serVerMap table ++ rest` (what the output
archive constructor emitted, followed by the user payload) consumes
exactly the header before any user payload, reconstructs the writer's
table verbatim, and then `GetVersion(L)` answers exactly the version the
writer's process table held at save time for every library `L` present in
it.  (`table` is a `std::map` iteration, hence the `Nodup` key
hypothesis.) -/
theorem version_header_roundtrip (table : List (String × VersionInfo))
    (r : RSt) (rest : List Tok) (L : String) (v : VersionInfo)
    (hnd : (table.map Prod.fst).Nodup)
    (hinp : r.inp = serVerMap table ++ rest)
    (hL : vlook table L = some v) :
    rdVerMap r = .ok ({ r with inp := rest }, table) ∧
    (getVersionIn table L).1 = v := by
  constructor
  · unfold rdVerMap
    rw [show rdNat r = .ok ({ r with inp := entryToks table ++ rest }, table.length) by
          simp [rdNat, hinp, serVerMap, entryToks]]
    have := rdVerEntries_ser table [] { r with inp := entryToks table ++ rest } rest rfl
      (by simpa using hnd)
    simpa using this
  · unfold getVersionIn
    rw [hL]

/-- Closed witness for C7 at a concrete one-entry table and payload. -/
theorem version_header_roundtrip_w :
    rdVerMap ⟨[], [], [], serVerMap [("ngcore", ⟨"6.2-dev"⟩)] ++ [Tok.ti 5]⟩ =
      .ok (⟨[], [], [], [Tok.ti 5]⟩, [("ngcore", ⟨"6.2-dev"⟩)]) ∧
    (getVersionIn [("ngcore", ⟨"6.2-dev"⟩)] "ngcore").1 = ⟨"6.2-dev"⟩ :=
  version_header_roundtrip [("ngcore", ⟨"6.2-dev"⟩)] ⟨[], [], [], _⟩ [Tok.ti 5]
    "ngcore" ⟨"6.2-dev"⟩ (by decide) rfl (by decide)

/-! ## Concrete example classes used by counterexamples and witnesses -/

/-- A registered, default-constructible class `Node` holding one
`shared_ptr<Node>` member. -/
def nodeCtx : Ctx :=
  ⟨fun t => if t = "Node" then ⟨true, [.fSh "Node" none], []⟩ else ⟨true, [], []⟩,
   ["Node"]⟩

/-- One `Node` whose `next` member points back to itself (the spec's
self-loop scenario). -/
def nodeHeap : Heap := [⟨"Node", [.fSh "Node" (some (0, 0))]⟩]

/-- An UNREGISTERED default-constructible class `N` with one `int`
member. -/
def flatCtx : Ctx :=
  ⟨fun t => if t = "N" then ⟨true, [.fInt 0], []⟩ else ⟨true, [], []⟩, []⟩

/-- One `N` object with member value `5`. -/
def flatHeap : Heap := [⟨"N", [.fInt 5]⟩]

/-! ## C2: stream shape after a back-reference ID -/

/-- **C2 counterexample.** Writing two raw `N*` references to the same
object (static type = dynamic type, so `needed_downcast`/`downcasted` is
`false`): the tokens after the back-reference ID `0` are the boolean
`false` FOLLOWED BY the dynamic type name `"N"` (token index 4) — the raw
write path (archive.hpp line 376) emits the name unconditionally, while
the claim states the name appears only when the boolean is true. -/
theorem backref_name_always_cex :
    wroots flatCtx flatHeap 5 [.pt "N" (some (0, 0)), .pt "N" (some (0, 0))]
        WSt.init =
      .ok (⟨[], [((0, 0), 0)], 0, 1⟩,
           [.ti (-1), .ti 5, .ti 0, .tb false, .ts "N"]) ∧
    [Tok.ti (-1), .ti 5, .ti 0, .tb false, .ts "N"].get? 3 = some (.tb false) ∧
    [Tok.ti (-1), .ti 5, .ti 0, .tb false, .ts "N"].get? 4 = some (.ts "N") := by
  refine ⟨by decide, by decide, by decide⟩

/-- **C2 amended.** After a back-reference ID the writer emits the boolean
`needed_downcast`, then: for SHARED references the dynamic type name only
when that boolean is true (archive.hpp lines 266-268), but for RAW
references always (line 376).  The readers consume exactly those shapes
(shared: lines 302-307, no name when the flag is false; raw: line 409,
flag and name unconditionally), and in all four cases the referent body is
not re-emitted and the identity state is unchanged. -/
theorem backref_shape (c : Ctx) (H : Heap) (n : Nat) (w : WSt) (sty : String)
    (pv : VPtr) (o : Obj) (ho : H.get? pv.1 = some o) :
    (∀ regp needed id, wnormSh c o.dyn sty pv = .ok (regp, needed) →
      alook w.sharedMap regp = some id →
      wrun c H (n + 1) (.sh sty (some pv)) w =
        .ok (w, [.ti ((id : Int)), .tb needed] ++
                (if needed then [.ts o.dyn] else []))) ∧
    (∀ regp id, wnormPt c o.dyn sty pv = .ok regp →
      alook w.ptrMap regp = some id →
      wrun c H (n + 1) (.pt sty (some pv)) w =
        .ok (w, [.ti ((id : Int)), .tb (decide (regp ≠ pv)), .ts o.dyn])) ∧
    (∀ (r : RSt) (id : Nat) (other : Option VPtr) (rest : List Tok),
      r.nr2shared.get? id = some other →
      r.inp = .ti ((id : Int)) :: .tb false :: rest →
      rrun c (n + 1) (.sh sty) r = .ok ({ r with inp := rest }, other)) ∧
    (∀ (r : RSt) (id : Nat) (q : VPtr) (name : String) (rest : List Tok),
      r.nr2ptr.get? id = some q →
      r.inp = .ti ((id : Int)) :: .tb false :: .ts name :: rest →
      rrun c (n + 1) (.pt sty) r = .ok ({ r with inp := rest }, some q)) := by
  refine ⟨?_, ?_, ?_, ?_⟩
  · intro regp needed id hs hid
    simp only [wrun, ho, hs, hid]
  · intro regp id hp hid
    simp only [wrun, ho, hp, hid]
  · intro r id other rest hid hinp
    have h2 : ¬(((id : Int)) = -2) := by omega
    have h1 : ¬(((id : Int)) = -1) := by omega
    have h0 : ¬(((id : Int)) < 0) := by omega
    simp only [rrun, rdInt, hinp, h2, h1, h0, if_false, Int.toNat_ofNat, hid,
      rdBool, Bool.false_eq_true]
  · intro r id q name rest hid hinp
    have h2 : ¬(((id : Int)) = -2) := by omega
    have h1 : ¬(((id : Int)) = -1) := by omega
    have h3 : ¬(((id : Int)) = -3) := by omega
    have h0 : ¬(((id : Int)) < 0) := by omega
    simp only [rrun, rdInt, hinp, h2, h1, h3, h0, if_false, Int.toNat_ofNat, hid,
      rdBool, rdStr, Bool.false_eq_true]

/-- Closed witness for the amended C2: the raw back-reference of the
counterexample scenario, written and then read back, with the name
consumed although `downcasted` is false. -/
theorem backref_shape_w :
    wrun flatCtx flatHeap 5 (.pt "N" (some (0, 0)))
        ⟨[], [((0, 0), 0)], 0, 1⟩ =
      .ok (⟨[], [((0, 0), 0)], 0, 1⟩, [.ti 0, .tb false, .ts "N"]) ∧
    rrun flatCtx 5 (.pt "N")
        ⟨[⟨"N", [.fInt 5]⟩], [], [(0, 0)], [.ti 0, .tb false, .ts "N"]⟩ =
      .ok (⟨[⟨"N", [.fInt 5]⟩], [], [(0, 0)], []⟩, some (0, 0)) := by
  constructor
  · have h := (backref_shape flatCtx flatHeap 4 ⟨[], [((0, 0), 0)], 0, 1⟩ "N"
      (0, 0) ⟨"N", [.fInt 5]⟩ (by decide)).2.1 (0, 0) 0 (by decide) (by decide)
    simpa using h
  · have h := (backref_shape flatCtx flatHeap 4
      ⟨[], [((0, 0), 0)], 0, 1⟩ "N" (0, 0) ⟨"N", [.fInt 5]⟩ (by decide)).2.2.2
      ⟨[⟨"N", [.fInt 5]⟩], [], [(0, 0)], [.ti 0, .tb false, .ts "N"]⟩
      0 (0, 0) "N" [] (by decide) (by decide)
    simpa using h

/-! ## C4: when is the identity-table entry recorded? -/

/-- **C4 counterexample.** Writing one shared self-loop `Node` (a single
referent): the claim implies any shared reference to the same referent met
while emitting the body finds `reg_p` already in the table, so one
referent gets exactly one fresh shared ID.  Actually
`shared_ptr2nr[reg_ptr] = shared_ptr_count++` runs only AFTER the body
(archive.hpp line 262): the inner aliased `next` misses the table and
emits a second fresh `-1` record (token index 2), and the final state
shows `shared_ptr_count = 2` with the map overwritten to id `1` for the
single referent. -/
theorem shared_record_order_cex :
    wrun nodeCtx nodeHeap 5 (.sh "Node" (some (0, 0))) WSt.init =
      .ok (⟨[((0, 0), 1)], [((0, 0), 0)], 2, 1⟩,
           [.ti (-1), .tb false, .ti (-1), .ti (-1), .tb false, .ti 0,
            .tb false, .ts "Node"]) ∧
    (⟨[((0, 0), 1)], [((0, 0), 0)], 2, 1⟩ : WSt).sharedCount = 2 := by
  exact ⟨by decide, rfl⟩

/-- **C4 amended.** For RAW references the writer does record
`reg_p -> id` with the next fresh ID before emitting the referent body
(archive.hpp line 349 precedes lines 353/368), so any raw reference to the
same referent reached while emitting the body finds it in the table; for
SHARED references the recording happens only after the body has been
emitted (line 262 follows line 258), so an aliased shared reference met
inside the body re-emits a fresh `-1` record (identity is still recovered
through the raw-pointer table, which the shared path writes through). -/
theorem record_order (c : Ctx) (H : Heap) (n : Nat) (w : WSt) (sty : String)
    (pv : VPtr) (o : Obj) (ho : H.get? pv.1 = some o) :
    (∀ regp, wnormPt c o.dyn sty pv = .ok regp →
      alook w.ptrMap regp = none → o.dyn = sty →
      (c.tenv sty).constructible = true →
      wrun c H (n + 1) (.pt sty (some pv)) w =
        match wrun c H n (.body pv.1 0)
            { w with ptrMap := aset w.ptrMap regp w.ptrCount,
                     ptrCount := w.ptrCount + 1 } with
        | .error e => .error e
        | .ok (w2, d) => .ok (w2, .ti (-1) :: d)) ∧
    (∀ regp needed, wnormSh c o.dyn sty pv = .ok (regp, needed) →
      alook w.sharedMap regp = none →
      wrun c H (n + 1) (.sh sty (some pv)) w =
        match wrun c H n (.pt sty (some pv)) w with
        | .error e => .error e
        | .ok (w1, d) =>
          .ok ({ w1 with sharedMap := aset w1.sharedMap regp w1.sharedCount,
                         sharedCount := w1.sharedCount + 1 },
               [.ti (-1), .tb needed] ++ d ++
                 (if needed then [.ts o.dyn] else []))) := by
  constructor
  · intro regp hp hmiss hdyn hcon
    subst hdyn
    simp only [wrun, ho, hp, hmiss, if_pos rfl, hcon, if_true]
  · intro regp needed hs hmiss
    simp only [wrun, ho, hs, hmiss]

/-- Closed witness for the amended C4 at the self-loop `Node`: the shared
write equals the raw write of the same pointer followed by the
post-body record. -/
theorem record_order_w :
    wrun nodeCtx nodeHeap 5 (.sh "Node" (some (0, 0))) WSt.init =
      (match wrun nodeCtx nodeHeap 4 (.pt "Node" (some (0, 0))) WSt.init with
       | .error e => .error e
       | .ok (w1, d) =>
         .ok ({ w1 with sharedMap := aset w1.sharedMap (0, 0) w1.sharedCount,
                        sharedCount := w1.sharedCount + 1 },
              [.ti (-1), .tb false] ++ d ++ [])) :=
  (record_order nodeCtx nodeHeap 4 WSt.init "Node" (0, 0)
      ⟨"Node", [.fSh "Node" (some (0, 0))]⟩ (by decide)).2 (0, 0) false
    (by decide) (by decide)

/-! ## Flat (pointer-free) bodies -/

/-- A field of primitive kind (no reference follows it). -/
def primFld : Fld → Bool
  | .fSh _ _ => false
  | .fPt _ _ => false
  | _ => true

/-- The tokens one primitive field transfers. -/
def fldToks : Fld → List Tok
  | .fInt x => [.ti x]
  | .fStr s => [.ts s]
  | .fVec l => .tn l.length :: l.map Tok.ti
  | .fSh _ _ => []
  | .fPt _ _ => []

theorem list_set_same {α : Type} : ∀ (l : List α) (i : Nat) (x : α),
    l.get? i = some x → l.set i x = l := by
  intro l
  induction l with
  | nil => intro i x h; cases h
  | cons a t ih =>
      intro i x h
      cases i with
      | zero => cases h; rfl
      | succ j => simp only [List.set]; rw [ih j x (by simpa using h)]

theorem take_succ_set {α : Type} (l : List α) (i : Nat) (a : α)
    (h : i < l.length) : (l.set i a).take (i + 1) = l.take i ++ [a] := by
  rw [List.set_eq_take_cons_drop a h]
  have hlen : (l.take i).length = i := by
    rw [List.length_take]; omega
  calc (List.take i l ++ a :: List.drop (i + 1) l).take (i + 1)
      = (List.take i l ++ a :: List.drop (i + 1) l).take ((l.take i).length + 1) := by
        rw [hlen]
    _ = List.take i l ++ (a :: List.drop (i + 1) l).take 1 := List.take_append 1
    _ = List.take i l ++ [a] := by simp

/-- Writing the body of an object with only primitive fields emits the
field tokens in order and leaves the identity state unchanged. -/
theorem wbody_flat (c : Ctx) (H : Heap) (a : Nat) (o : Obj)
    (ha : H.get? a = some o) (hflat : ∀ f ∈ o.flds, primFld f = true) :
    ∀ (n i : Nat) (w : WSt), o.flds.length - i + 1 ≤ n →
    wrun c H n (.body a i) w =
      .ok (w, ((o.flds.drop i).map fldToks).flatten) := by
  intro n
  induction n with
  | zero => intro i w hn; omega
  | succ m ih =>
      intro i w hn
      by_cases hi : i < o.flds.length
      · obtain ⟨f, hf⟩ : ∃ f, o.flds.get? i = some f := by
          rw [List.get?_eq_getElem?]
          exact ⟨o.flds[i], by simp [hi]⟩
        have hfm : f ∈ o.flds := List.get?_mem hf
        have hstep : wrun c H (m + 1) (.body a i) w =
            match (match f with
                   | .fInt x => Except.ok (w, [Tok.ti x])
                   | .fStr s => Except.ok (w, [Tok.ts s])
                   | .fVec l => Except.ok (w, Tok.tn l.length :: l.map Tok.ti)
                   | .fSh sty v => wrun c H m (.sh sty v) w
                   | .fPt sty v => wrun c H m (.pt sty v) w) with
            | .error e => .error e
            | .ok (w1, d) =>
              match wrun c H m (.body a (i + 1)) w1 with
              | .error e => .error e
              | .ok (w2, d2) => .ok (w2, d ++ d2) := by
          simp only [wrun, ha, hf]
        have hgetE : o.flds[i] = f := by
          have hg : o.flds[i]? = some f := by rw [← List.get?_eq_getElem?]; exact hf
          rw [List.getElem?_eq_some] at hg
          exact hg.2
        have hdrop : o.flds.drop i = f :: o.flds.drop (i + 1) := by
          rw [List.drop_eq_getElem_cons hi, hgetE]
        rw [hstep]
        cases f with
        | fInt x => simp [ih (i + 1) w (by omega), hdrop, fldToks]
        | fStr s => simp [ih (i + 1) w (by omega), hdrop, fldToks]
        | fVec l => simp [ih (i + 1) w (by omega), hdrop, fldToks]
        | fSh sty v => exact absurd (hflat _ hfm) (by simp [primFld])
        | fPt sty v => exact absurd (hflat _ hfm) (by simp [primFld])
      · have hnone : o.flds.get? i = none := List.get?_eq_none.mpr (by omega)
        have hdrop : o.flds.drop i = [] := List.drop_eq_nil_of_le (by omega)
        simp only [wrun, ha, hnone, hdrop, List.map_nil, List.flatten_nil]

/-- Reading `n` consecutive `int` tokens (`rdInts`). -/
theorem rdInts_toks (l : List Int) : ∀ (r : RSt) (rest : List Tok),
    r.inp = l.map Tok.ti ++ rest →
    rdInts l.length r = .ok ({ r with inp := rest }, l) := by
  induction l with
  | nil => intro r rest h; simp only [rdInts]; simp at h; simp [← h]
  | cons x t ih =>
      intro r rest h
      simp only [List.length_cons, rdInts, rdInt, h, List.map_cons, List.cons_append]
      rw [ih { r with inp := t.map Tok.ti ++ rest } rest rfl]

/-- Reading the body of an object whose remaining fields are primitive:
the stream tokens of a matching-shape field list `src` overwrite the
fields one by one; the rest of the state is untouched. -/
theorem rbody_flat (c : Ctx) (a : Nat) :
    ∀ (n i : Nat) (r : RSt) (ro : Obj) (src : List Fld) (rest : List Tok),
    r.heap.get? a = some ro →
    ro.flds.map Fld.shape = src.map Fld.shape →
    (∀ f ∈ src, primFld f = true) →
    r.inp = ((src.drop i).map fldToks).flatten ++ rest →
    src.length - i + 1 ≤ n →
    rrun c n (.body a i) r =
      .ok ({ r with heap := r.heap.set a ⟨ro.dyn, ro.flds.take i ++ src.drop i⟩,
                    inp := rest }, none) := by
  intro n
  induction n with
  | zero => intro i r ro src rest _ _ _ _ hn; omega
  | succ m ih =>
      intro i r ro src rest ha hsh hflat hinp hn
      have hlen : ro.flds.length = src.length := by
        have := congrArg List.length hsh
        simpa using this
      by_cases hi : i < src.length
      · obtain ⟨f2, hf2⟩ : ∃ f2, src.get? i = some f2 := by
          rw [List.get?_eq_getElem?]
          exact ⟨src[i], by simp [hi]⟩
        have hilt : i < ro.flds.length := by omega
        obtain ⟨fr, hfr⟩ : ∃ fr, ro.flds.get? i = some fr := by
          rw [List.get?_eq_getElem?]
          exact ⟨ro.flds[i], by simp [hilt]⟩
        have hshape : fr.shape = f2.shape := by
          have h1 : (ro.flds.map Fld.shape).get? i = some fr.shape := by
            rw [List.get?_map, hfr]; rfl
          have h2 : (src.map Fld.shape).get? i = some f2.shape := by
            rw [List.get?_map, hf2]; rfl
          rw [hsh] at h1
          rw [h1] at h2
          exact Option.some.inj h2
        have hfm : f2 ∈ src := List.get?_mem hf2
        have hgetE : src[i] = f2 := by
          have hg : src[i]? = some f2 := by rw [← List.get?_eq_getElem?]; exact hf2
          rw [List.getElem?_eq_some] at hg
          exact hg.2
        have hdrop : src.drop i = f2 :: src.drop (i + 1) := by
          rw [List.drop_eq_getElem_cons hi, hgetE]
        have halen : a < r.heap.length := by
          by_contra hcon
          rw [List.get?_eq_none.mpr (by omega)] at ha
          cases ha
        have hro' : (r.heap.set a ⟨ro.dyn, ro.flds.set i f2⟩).get? a =
            some ⟨ro.dyn, ro.flds.set i f2⟩ := by
          rw [List.get?_eq_getElem?]
          simp [halen]
        have hsh' : (ro.flds.set i f2).map Fld.shape = src.map Fld.shape := by
          rw [List.map_set, hsh]
          have hgm : (src.map Fld.shape).get? i = some f2.shape := by
            rw [List.get?_map, hf2]; rfl
          exact list_set_same _ _ _ hgm
        have htake : (ro.flds.set i f2).take (i + 1) = ro.flds.take i ++ [f2] :=
          take_succ_set _ _ _ (by omega)
        have hfin : (r.heap.set a ⟨ro.dyn, ro.flds.set i f2⟩).set a
              ⟨ro.dyn, (ro.flds.set i f2).take (i + 1) ++ src.drop (i + 1)⟩ =
            r.heap.set a ⟨ro.dyn, ro.flds.take i ++ src.drop i⟩ := by
          rw [List.set_set, htake, hdrop]
          simp
        rw [hdrop] at hinp
        have hrest : ((src.drop (i + 1)).map fldToks).flatten ++ rest =
            ((src.drop (i + 1)).map fldToks).flatten ++ rest := rfl
        cases f2 with
        | fInt x =>
            cases fr with
            | fInt x0 =>
                have hrd : rdInt r =
                    .ok ({ r with
                            inp := ((src.drop (i + 1)).map fldToks).flatten ++ rest },
                         x) := by
                  simp [rdInt, hinp, fldToks]
                have hih := ih (i + 1)
                    { r with heap := r.heap.set a ⟨ro.dyn, ro.flds.set i (.fInt x)⟩,
                             inp := ((src.drop (i + 1)).map fldToks).flatten ++ rest }
                    ⟨ro.dyn, ro.flds.set i (.fInt x)⟩ src rest hro' hsh' hflat rfl
                    (by omega)
                simp only [rrun, ha, hfr, hrd, hset]
                simpa [hfin] using hih
            | fStr _ => exact absurd hshape (by simp [Fld.shape])
            | fVec _ => exact absurd hshape (by simp [Fld.shape])
            | fSh _ _ => exact absurd hshape (by simp [Fld.shape])
            | fPt _ _ => exact absurd hshape (by simp [Fld.shape])
        | fStr s =>
            cases fr with
            | fStr s0 =>
                have hrd : rdStr r =
                    .ok ({ r with
                            inp := ((src.drop (i + 1)).map fldToks).flatten ++ rest },
                         s) := by
                  simp [rdStr, hinp, fldToks]
                have hih := ih (i + 1)
                    { r with heap := r.heap.set a ⟨ro.dyn, ro.flds.set i (.fStr s)⟩,
                             inp := ((src.drop (i + 1)).map fldToks).flatten ++ rest }
                    ⟨ro.dyn, ro.flds.set i (.fStr s)⟩ src rest hro' hsh' hflat rfl
                    (by omega)
                simp only [rrun, ha, hfr, hrd, hset]
                simpa [hfin] using hih
            | fInt _ => exact absurd hshape (by simp [Fld.shape])
            | fVec _ => exact absurd hshape (by simp [Fld.shape])
            | fSh _ _ => exact absurd hshape (by simp [Fld.shape])
            | fPt _ _ => exact absurd hshape (by simp [Fld.shape])
        | fVec l =>
            cases fr with
            | fVec l0 =>
                have hrd : rdNat r =
                    .ok ({ r with
                            inp := l.map Tok.ti ++
                              (((src.drop (i + 1)).map fldToks).flatten ++ rest) },
                         l.length) := by
                  simp [rdNat, hinp, fldToks]
                have hrds := rdInts_toks l
                    { r with inp := l.map Tok.ti ++
                        (((src.drop (i + 1)).map fldToks).flatten ++ rest) }
                    (((src.drop (i + 1)).map fldToks).flatten ++ rest) rfl
                have hih := ih (i + 1)
                    { r with heap := r.heap.set a ⟨ro.dyn, ro.flds.set i (.fVec l)⟩,
                             inp := ((src.drop (i + 1)).map fldToks).flatten ++ rest }
                    ⟨ro.dyn, ro.flds.set i (.fVec l)⟩ src rest hro' hsh' hflat rfl
                    (by omega)
                simp only [rrun, ha, hfr, hrd, hrds, hset]
                simpa [hfin] using hih
            | fInt _ => exact absurd hshape (by simp [Fld.shape])
            | fStr _ => exact absurd hshape (by simp [Fld.shape])
            | fSh _ _ => exact absurd hshape (by simp [Fld.shape])
            | fPt _ _ => exact absurd hshape (by simp [Fld.shape])
        | fSh sty v => exact absurd (hflat _ hfm) (by simp [primFld])
        | fPt sty v => exact absurd (hflat _ hfm) (by simp [primFld])
      · have hnone : (ro.flds).get? i = none := List.get?_eq_none.mpr (by omega)
        have hdropn : src.drop i = [] := List.drop_eq_nil_of_le (by omega)
        have htaken : ro.flds.take i = ro.flds := List.take_of_length_le (by omega)
        rw [show rrun c (m + 1) (.body a i) r = .ok (r, none) from by
              simp only [rrun, ha, hnone]]
        rw [hdropn, htaken]
        have : (⟨ro.dyn, ro.flds ++ []⟩ : Obj) = ro := by simp
        rw [this, list_set_same _ _ _ ha]
        simp [hdropn] at hinp
        rw [← hinp]

/-! ## C6: when is UnregisteredPolymorphic raised? -/

theorem dcast_error (c : Ctx) (d s : String) (p : VPtr) (e : AErr)
    (h : dcast c d s p = .error e) : e = .castFail := by
  unfold dcast at h
  split at h
  · cases h
  · split at h
    · cases h
    · cases h; rfl

/-- The body of an object with only primitive fields never raises
`UnregisteredPolymorphic`, at any fuel. -/
theorem wbody_flat_no_unreg (c : Ctx) (H : Heap) (a : Nat) (o : Obj)
    (ha : H.get? a = some o) (hflat : ∀ f ∈ o.flds, primFld f = true) :
    ∀ (n i : Nat) (w : WSt),
    wrun c H n (.body a i) w ≠ .error .unregistered := by
  intro n
  induction n with
  | zero => intro i w h; simp [wrun] at h
  | succ m ih =>
      intro i w h
      cases hfi : o.flds.get? i with
      | none =>
          rw [show wrun c H (m + 1) (.body a i) w = .ok (w, []) from by
                simp only [wrun, ha, hfi]] at h
          cases h
      | some f =>
          have hfm : f ∈ o.flds := List.get?_mem hfi
          have hcont : ∀ (d : List Tok),
              (match wrun c H m (.body a (i + 1)) w with
               | Except.error e => Except.error e
               | Except.ok (w2, d2) => Except.ok (w2, d ++ d2)) ≠
                (Except.error AErr.unregistered : Except AErr (WSt × List Tok)) := by
            intro d hcon
            cases hrec : wrun c H m (.body a (i + 1)) w with
            | error e =>
                rw [hrec] at hcon
                simp at hcon
                rw [hcon] at hrec
                exact ih (i + 1) w hrec
            | ok p => rw [hrec] at hcon; simp at hcon
          cases f with
          | fInt x =>
              refine hcont [Tok.ti x] ?_
              rw [← h]
              simp only [wrun, ha, hfi]
          | fStr s =>
              refine hcont [Tok.ts s] ?_
              rw [← h]
              simp only [wrun, ha, hfi]
          | fVec l =>
              refine hcont (Tok.tn l.length :: l.map Tok.ti) ?_
              rw [← h]
              simp only [wrun, ha, hfi]
          | fSh sty v => exact absurd (hflat _ hfm) (by simp [primFld])
          | fPt sty v => exact absurd (hflat _ hfm) (by simp [primFld])

/-- Write side of a raw reference to a pointer-free object:
`UnregisteredPolymorphic` is raised exactly when the dynamic type differs
from the static type and is absent from the registry. -/
theorem ptWrite_unreg_iff (c : Ctx) (H : Heap) (n : Nat) (w : WSt)
    (sty : String) (pv : VPtr) (o : Obj) (ho : H.get? pv.1 = some o)
    (hflat : ∀ f ∈ o.flds, primFld f = true) :
    wrun c H (n + 1) (.pt sty (some pv)) w = .error .unregistered ↔
      (sty ≠ o.dyn ∧ o.dyn ∉ c.reg) := by
  simp only [wrun, ho]
  by_cases hdy : sty = o.dyn
  · simp only [hdy, ne_eq, not_true_eq_false, false_and, iff_false]
    intro herr
    rw [show wnormPt c o.dyn o.dyn pv = .ok pv from by simp [wnormPt]] at herr
    simp only at herr
    cases hmw : alook w.ptrMap pv with
    | some id => rw [hmw] at herr; simp at herr
    | none =>
        rw [hmw] at herr
        simp only [if_true] at herr
        by_cases hcon : (c.tenv o.dyn).constructible = true
        · rw [if_pos hcon] at herr
          cases hrec : wrun c H n (.body pv.1 0)
              { w with ptrMap := aset w.ptrMap pv w.ptrCount,
                       ptrCount := w.ptrCount + 1 } with
          | error e =>
              rw [hrec] at herr
              simp at herr
              rw [herr] at hrec
              exact wbody_flat_no_unreg c H pv.1 o ho hflat n 0 _ hrec
          | ok p => rw [hrec] at herr; simp at herr
        · rw [if_neg hcon] at herr; simp at herr
  · by_cases hr : o.dyn ∈ c.reg
    · have hrhs : ¬(sty ≠ o.dyn ∧ o.dyn ∉ c.reg) := by
        intro hc; exact hc.2 hr
      simp only [hrhs, iff_false]
      intro herr
      rw [show wnormPt c o.dyn sty pv = dcast c o.dyn sty pv from by
            simp [wnormPt, hdy, hr]] at herr
      cases hdc : dcast c o.dyn sty pv with
      | error e =>
          rw [hdc] at herr
          simp at herr
          rw [herr] at hdc
          cases dcast_error c o.dyn sty pv _ hdc
      | ok regp =>
          rw [hdc] at herr
          simp only at herr
          cases hmw : alook w.ptrMap regp with
          | some id => rw [hmw] at herr; simp at herr
          | none =>
              rw [hmw] at herr
              simp only at herr
              rw [if_neg (fun hh => hdy hh.symm), if_pos hr] at herr
              cases hrec : wrun c H n (.body pv.1 0)
                  { w with ptrMap := aset w.ptrMap regp w.ptrCount,
                           ptrCount := w.ptrCount + 1 } with
              | error e =>
                  rw [hrec] at herr
                  simp at herr
                  rw [herr] at hrec
                  exact wbody_flat_no_unreg c H pv.1 o ho hflat n 0 _ hrec
              | ok p => rw [hrec] at herr; simp at herr
    · refine iff_of_true ?_ ⟨hdy, hr⟩
      rw [show wnormPt c o.dyn sty pv = .error .unregistered from by
            simp [wnormPt, hdy, hr]]

/-- Write side of a shared reference to a pointer-free object:
`UnregisteredPolymorphic` is raised exactly when the dynamic type differs
from the static type and is absent from the registry. -/
theorem shWrite_unreg_iff (c : Ctx) (H : Heap) (n : Nat) (w : WSt)
    (sty : String) (pv : VPtr) (o : Obj) (ho : H.get? pv.1 = some o)
    (hflat : ∀ f ∈ o.flds, primFld f = true) :
    wrun c H (n + 1) (.sh sty (some pv)) w = .error .unregistered ↔
      (sty ≠ o.dyn ∧ o.dyn ∉ c.reg) := by
  have hptr : (sty = o.dyn ∨ o.dyn ∈ c.reg) → ∀ (w1 : WSt),
      wrun c H n (.pt sty (some pv)) w1 ≠ .error .unregistered := by
    intro hok w1 hcon
    cases n with
    | zero => simp [wrun] at hcon
    | succ m =>
        rcases (ptWrite_unreg_iff c H m w1 sty pv o ho hflat).mp hcon with ⟨h1, h2⟩
        cases hok with
        | inl h => exact h1 h
        | inr h => exact h2 h
  simp only [wrun, ho]
  by_cases hdy : sty = o.dyn
  · simp only [hdy, ne_eq, not_true_eq_false, false_and, iff_false]
    intro herr
    rw [show wnormSh c o.dyn o.dyn pv = .ok (pv, false) from by
          simp [wnormSh]] at herr
    simp only at herr
    cases hmw : alook w.sharedMap pv with
    | some id => rw [hmw] at herr; simp at herr
    | none =>
        rw [hmw] at herr
        simp only at herr
        cases hrec : wrun c H n (.pt o.dyn (some pv)) w with
        | error e =>
            rw [hrec] at herr
            simp at herr
            rw [herr] at hrec
            exact hptr (Or.inl hdy) w (by rw [hdy]; exact hrec)
        | ok p => rw [hrec] at herr; simp at herr
  · by_cases hr : o.dyn ∈ c.reg
    · have hrhs : ¬(sty ≠ o.dyn ∧ o.dyn ∉ c.reg) := by
        intro hc; exact hc.2 hr
      simp only [hrhs, iff_false]
      intro herr
      cases hdc : dcast c o.dyn sty pv with
      | error e =>
          rw [show wnormSh c o.dyn sty pv = .error e from by
                simp [wnormSh, hdy, hr, hdc]] at herr
          simp at herr
          rw [herr] at hdc
          cases dcast_error c o.dyn sty pv _ hdc
      | ok rp =>
          rw [show wnormSh c o.dyn sty pv = .ok (rp, decide (rp ≠ pv)) from by
                simp [wnormSh, hdy, hr, hdc]] at herr
          simp only at herr
          cases hmw : alook w.sharedMap rp with
          | some id => rw [hmw] at herr; simp at herr
          | none =>
              rw [hmw] at herr
              simp only at herr
              cases hrec : wrun c H n (.pt sty (some pv)) w with
              | error e =>
                  rw [hrec] at herr
                  simp at herr
                  rw [herr] at hrec
                  exact hptr (Or.inr hr) w hrec
              | ok p => rw [hrec] at herr; simp at herr
    · refine iff_of_true ?_ ⟨hdy, hr⟩
      rw [show wnormSh c o.dyn sty pv = .error .unregistered from by
            simp [wnormSh, hdy, hr]]

/-- **C6.** `UnregisteredPolymorphic` is raised exactly when a write meets
a referent whose dynamic type differs from the static reference type and
whose (demangled) dynamic type name is absent from the registry — for raw
and shared references alike (parts 1 and 2, stated for pointer-free
referent bodies so that no other reference can interpose its own error);
when the static type equals the dynamic type, saving and loading succeed
without the class being registered (part 3: the full `-1` round trip of an
unregistered exact-type object); and a read that meets a stored dynamic
type name absent from the registry fails with `UnregisteredPolymorphic`
(part 4: the `-3` record). -/
theorem unregistered_exact (c : Ctx) :
    (∀ (H : Heap) (n : Nat) (w : WSt) (sty : String) (pv : VPtr) (o : Obj),
      H.get? pv.1 = some o → (∀ f ∈ o.flds, primFld f = true) →
      (wrun c H (n + 1) (.pt sty (some pv)) w = .error .unregistered ↔
        (sty ≠ o.dyn ∧ o.dyn ∉ c.reg))) ∧
    (∀ (H : Heap) (n : Nat) (w : WSt) (sty : String) (pv : VPtr) (o : Obj),
      H.get? pv.1 = some o → (∀ f ∈ o.flds, primFld f = true) →
      (wrun c H (n + 1) (.sh sty (some pv)) w = .error .unregistered ↔
        (sty ≠ o.dyn ∧ o.dyn ∉ c.reg))) ∧
    (∀ (t : String) (o : Obj) (n : Nat), o.dyn = t → t ∉ c.reg →
      (c.tenv t).constructible = true → (∀ f ∈ o.flds, primFld f = true) →
      ((c.tenv t).defaults).map Fld.shape = o.flds.map Fld.shape →
      o.flds.length + 1 ≤ n →
      wrun c [o] (n + 1) (.pt t (some (0, 0))) WSt.init =
        .ok (⟨[], [((0, 0), 0)], 0, 1⟩,
             .ti (-1) :: (o.flds.map fldToks).flatten) ∧
      (∀ rest, rrun c (n + 1) (.pt t)
          ⟨[], [], [], .ti (-1) :: ((o.flds.map fldToks).flatten ++ rest)⟩ =
        .ok (⟨[⟨t, o.flds⟩], [], [(0, 0)], rest⟩, some (0, 0)))) ∧
    (∀ (n : Nat) (sty : String) (r : RSt) (name : String) (rest : List Tok),
      name ∉ c.reg → r.inp = .ti (-3) :: .ts name :: rest →
      rrun c (n + 1) (.pt sty) r = .error .unregistered) := by
  refine ⟨fun H n w sty pv o ho hflat => ptWrite_unreg_iff c H n w sty pv o ho hflat,
          fun H n w sty pv o ho hflat => shWrite_unreg_iff c H n w sty pv o ho hflat,
          ?_, ?_⟩
  · intro t o n hdt hreg hcon hflat hsh hn
    constructor
    · have hbody := wbody_flat c [o] 0 o rfl hflat n 0
        ⟨[], [((0, 0), 0)], 0, 1⟩ (by omega)
      simp only [wrun]
      rw [show ([o] : Heap).get? (0, 0).1 = some o from rfl]
      simp only
      rw [show wnormPt c o.dyn t (0, 0) = .ok (0, 0) from by
            simp [wnormPt, hdt]]
      simp only
      rw [show alook WSt.init.ptrMap (0, 0) = none from rfl]
      rw [if_pos hdt]
      rw [show (c.tenv t).constructible = true from hcon, if_pos rfl]
      rw [show (aset WSt.init.ptrMap (0, 0) WSt.init.ptrCount) = [((0, 0), 0)]
            from rfl]
      simp only [WSt.init] at hbody ⊢
      rw [hbody]
      simp
    · intro rest
      have hbody := rbody_flat c 0 n 0
          ⟨[⟨t, (c.tenv t).defaults⟩], [], [(0, 0)],
           (o.flds.map fldToks).flatten ++ rest⟩
          ⟨t, (c.tenv t).defaults⟩ o.flds rest rfl hsh hflat rfl (by omega)
      simp only [rrun, rdInt]
      simp only [show ((-1 : Int) = -2) = False from by simp, if_false,
        show ((-1 : Int) = -1) = True from by simp, if_true]
      rw [hcon, if_pos rfl]
      simp only [List.length_nil, List.nil_append]
      simp only at hbody
      rw [hbody]
      simp
  · intro n sty r name rest hname hinp
    simp only [rrun, rdInt, hinp]
    simp only [show ((-3 : Int) = -2) = False from by simp, if_false,
      show ((-3 : Int) = -1) = False from by simp,
      show ((-3 : Int) = -3) = True from by simp, if_true, rdStr]
    rw [if_neg hname]

/-- Closed witness for C6: the unregistered flat class `N` with matching
static type saves and loads successfully (scenario 5 of the spec, first
half), while a `-3` record naming the unregistered `N` fails on read. -/
theorem unregistered_exact_w :
    wrun flatCtx [⟨"N", [.fInt 5]⟩] 3 (.pt "N" (some (0, 0))) WSt.init =
      .ok (⟨[], [((0, 0), 0)], 0, 1⟩, [.ti (-1), .ti 5]) ∧
    rrun flatCtx 3 (.pt "N") ⟨[], [], [], [.ti (-1), .ti 5]⟩ =
      .ok (⟨[⟨"N", [.fInt 5]⟩], [], [(0, 0)], []⟩, some (0, 0)) ∧
    rrun flatCtx 3 (.pt "N") ⟨[], [], [], [.ti (-3), .ts "N", .ti 5]⟩ =
      .error .unregistered := by
  have h := (unregistered_exact flatCtx).2.2.1 "N" ⟨"N", [.fInt 5]⟩ 2 rfl
    (by decide) (by decide) (by decide) (by decide) (by decide)
  have h4 := (unregistered_exact flatCtx).2.2.2 2 "N"
    ⟨[], [], [], [.ti (-3), .ts "N", .ti 5]⟩ "N" [.ti 5] (by decide) rfl
  refine ⟨by simpa using h.1, ?_, by simpa using h4⟩
  have h2 := h.2 []
  simpa using h2

/-! ## C1/C3: the round-trip simulation

The writer walks the heap emitting tokens; the reader replays the same
token stream, allocating its own heap.  We relate them by a growing map
`φ` from writer object ids to reader object ids. -/

/-- Writer-object to reader-object correspondence (first-match
association list). -/
def mget : List (Nat × Nat) → Nat → Option Nat
  | [], _ => none
  | (k, v) :: r, x => if x = k then some v else mget r x

/-- `q` extends `p` as a partial map. -/
def SubM (p q : List (Nat × Nat)) : Prop :=
  ∀ a b, mget p a = some b → mget q a = some b

/-- Transport of a pointer value along `φ` (offset preserved). -/
def mapPtr (phi : List (Nat × Nat)) (p : VPtr) : Option VPtr :=
  (mget phi p.1).map fun b => (b, p.2)

/-- Transport of a possibly null pointer along `φ`. -/
def mapOPtr (phi : List (Nat × Nat)) : Option VPtr → Option (Option VPtr)
  | none => some none
  | some p => (mapPtr phi p).map some

/-- Transport of a field along `φ` (primitives unchanged). -/
def mapFld (phi : List (Nat × Nat)) : Fld → Option Fld
  | .fInt x => some (.fInt x)
  | .fStr s => some (.fStr s)
  | .fVec l => some (.fVec l)
  | .fSh sty v => (mapOPtr phi v).map (.fSh sty)
  | .fPt sty v => (mapOPtr phi v).map (.fPt sty)

theorem subm_refl (p : List (Nat × Nat)) : SubM p p := fun _ _ h => h

theorem subm_trans {p q s : List (Nat × Nat)} (h1 : SubM p q) (h2 : SubM q s) :
    SubM p s := fun a b h => h2 a b (h1 a b h)

theorem mget_append_left {p : List (Nat × Nat)} {a b : Nat}
    (h : mget p a = some b) (q : List (Nat × Nat)) :
    mget (p ++ q) a = some b := by
  induction p with
  | nil => cases h
  | cons e t ih =>
      simp only [mget, List.cons_append] at h ⊢
      by_cases he : a = e.1
      · rw [if_pos he] at h ⊢
        exact h
      · rw [if_neg he] at h ⊢
        exact ih h

theorem subm_append (p q : List (Nat × Nat)) : SubM p (p ++ q) :=
  fun _ _ h => mget_append_left h q

theorem mget_append_fresh {p : List (Nat × Nat)} {a : Nat}
    (h : mget p a = none) (b : Nat) : mget (p ++ [(a, b)]) a = some b := by
  induction p with
  | nil => simp [mget]
  | cons e t ih =>
      by_cases he : a = e.1
      · simp [mget, he] at h
      · simp only [mget, he, if_false] at h
        simp only [List.cons_append, mget, he, if_false]
        exact ih h

theorem mget_mem {p : List (Nat × Nat)} {a b : Nat}
    (h : mget p a = some b) : (a, b) ∈ p := by
  induction p with
  | nil => cases h
  | cons e t ih =>
      simp only [mget] at h
      by_cases he : a = e.1
      · rw [if_pos he] at h
        cases h
        rw [he]
        simp
      · rw [if_neg he] at h
        exact List.mem_cons_of_mem _ (ih h)

/-- The value-Nodup of `φ` makes the induced partial map injective. -/
theorem mget_inj {p : List (Nat × Nat)} (hnd : (p.map Prod.snd).Nodup)
    {a1 a2 b : Nat} (h1 : mget p a1 = some b) (h2 : mget p a2 = some b) :
    a1 = a2 := by
  induction p with
  | nil => cases h1
  | cons e t ih =>
      simp only [List.map_cons, List.nodup_cons] at hnd
      simp only [mget] at h1 h2
      by_cases he1 : a1 = e.1 <;> by_cases he2 : a2 = e.1
      · rw [he1, he2]
      · exfalso
        rw [if_pos he1] at h1
        rw [if_neg he2] at h2
        have hb : e.2 = b := Option.some.inj h1
        exact hnd.1 (List.mem_map.mpr ⟨(a2, b), mget_mem h2, hb.symm⟩)
      · exfalso
        rw [if_pos he2] at h2
        rw [if_neg he1] at h1
        have hb : e.2 = b := Option.some.inj h2
        exact hnd.1 (List.mem_map.mpr ⟨(a1, b), mget_mem h1, hb.symm⟩)
      · rw [if_neg he1] at h1
        rw [if_neg he2] at h2
        exact ih hnd.2 h1 h2

theorem mapPtr_mono {p q : List (Nat × Nat)} (h : SubM p q) {pv rv : VPtr}
    (hm : mapPtr p pv = some rv) : mapPtr q pv = some rv := by
  unfold mapPtr at hm ⊢
  cases hg : mget p pv.1 with
  | none => rw [hg] at hm; cases hm
  | some b => rw [hg] at hm; rw [h _ _ hg]; exact hm

theorem mapOPtr_mono {p q : List (Nat × Nat)} (h : SubM p q) {v : Option VPtr}
    {rv : Option VPtr} (hm : mapOPtr p v = some rv) : mapOPtr q v = some rv := by
  cases v with
  | none => simpa [mapOPtr] using hm
  | some pv =>
      simp only [mapOPtr] at hm ⊢
      cases hmp : mapPtr p pv with
      | none => rw [hmp] at hm; cases hm
      | some rv0 => rw [hmp] at hm; rw [mapPtr_mono h hmp]; exact hm

theorem mapFld_mono {p q : List (Nat × Nat)} (h : SubM p q) {f rf : Fld}
    (hm : mapFld p f = some rf) : mapFld q f = some rf := by
  cases f with
  | fInt x => simpa [mapFld] using hm
  | fStr s => simpa [mapFld] using hm
  | fVec l => simpa [mapFld] using hm
  | fSh sty v =>
      simp only [mapFld] at hm ⊢
      cases hmo : mapOPtr p v with
      | none => rw [hmo] at hm; cases hm
      | some rv => rw [hmo] at hm; rw [mapOPtr_mono h hmo]; exact hm
  | fPt sty v =>
      simp only [mapFld] at hm ⊢
      cases hmo : mapOPtr p v with
      | none => rw [hmo] at hm; cases hm
      | some rv => rw [hmo] at hm; rw [mapOPtr_mono h hmo]; exact hm

theorem mapFld_shape {phi : List (Nat × Nat)} {f rf : Fld}
    (hm : mapFld phi f = some rf) : rf.shape = f.shape := by
  cases f with
  | fInt x => cases hm; rfl
  | fStr s => cases hm; rfl
  | fVec l => cases hm; rfl
  | fSh sty v =>
      simp only [mapFld] at hm
      cases hmo : mapOPtr phi v with
      | none => rw [hmo] at hm; cases hm
      | some rv => rw [hmo] at hm; cases hm; rfl
  | fPt sty v =>
      simp only [mapFld] at hm
      cases hmo : mapOPtr phi v with
      | none => rw [hmo] at hm; cases hm
      | some rv => rw [hmo] at hm; cases hm; rfl

theorem alook_aset_self (m : List (VPtr × Nat)) (k : VPtr) (v : Nat) :
    alook (aset m k v) k = some v := by
  induction m with
  | nil => simp [aset, alook]
  | cons e t ih =>
      by_cases he : k = e.1
      · simp [aset, alook, he]
      · simp [aset, alook, he, ih]

theorem alook_aset_ne (m : List (VPtr × Nat)) (k k2 : VPtr) (v : Nat)
    (h : k2 ≠ k) : alook (aset m k v) k2 = alook m k2 := by
  induction m with
  | nil => simp [aset, alook, h]
  | cons e t ih =>
      by_cases he : k = e.1
      · subst he
        simp [aset, alook, h]
      · by_cases he2 : k2 = e.1
        · simp [aset, alook, he, he2]
        · simp [aset, alook, he, he2, ih]

/-! ### Well-formedness of writer heaps -/

def shapeList (l : List Fld) : List Shp := l.map Fld.shape

/-- A live C++ pointer: it addresses an existing object, at exactly the
offset of the `sty` base subobject inside that object's dynamic type. -/
def PtrOk (c : Ctx) (H : Heap) (sty : String) (pv : VPtr) : Prop :=
  ∃ o2, H.get? pv.1 = some o2 ∧ offsetOf c o2.dyn sty = some pv.2

/-- A possibly null pointer value is well formed. -/
def WFv (c : Ctx) (H : Heap) (sty : String) : Option VPtr → Prop
  | none => True
  | some pv => PtrOk c H sty pv

def WFfld (c : Ctx) (H : Heap) : Fld → Prop
  | .fSh sty v => WFv c H sty v
  | .fPt sty v => WFv c H sty v
  | _ => True

/-- Every object's fields have the shape of its class defaults and hold
live pointers. -/
def WFheap (c : Ctx) (H : Heap) : Prop :=
  ∀ o ∈ H, shapeList o.flds = shapeList ((c.tenv o.dyn).defaults) ∧
    ∀ f ∈ o.flds, WFfld c H f

/-- Every dynamic type occurring in the heap is registered and default
constructible (the claim's premise: the transitive graph contains only
registered — and hence reconstructible — polymorphic types). -/
def WFreg (c : Ctx) (H : Heap) : Prop :=
  ∀ o ∈ H, o.dyn ∈ c.reg ∧ (c.tenv o.dyn).constructible = true

/-! ### The simulation invariant -/

/-- The correspondence between a writer mid-save and a reader mid-load:
`phi` maps writer objects to reader objects (injectively), mapped objects
agree on dynamic type and field shapes, the completed set `comp` is fully
field-mapped, the two identity tables mirror each other entry by entry,
and the id counters equal the reader vector lengths. -/
structure SimInv (c : Ctx) (H : Heap) (phi : List (Nat × Nat))
    (comp : List Nat) (w : WSt) (r : RSt) : Prop where
  valNd : (phi.map Prod.snd).Nodup
  valLt : ∀ p ∈ phi, p.2 < r.heap.length
  dynEq : ∀ p ∈ phi, ∃ o ro, H.get? p.1 = some o ∧ r.heap.get? p.2 = some ro ∧
      ro.dyn = o.dyn ∧ shapeList ro.flds = shapeList o.flds
  domPtr : ∀ a : Nat, (mget phi a).isSome ↔ (alook w.ptrMap (a, 0)).isSome
  compMapped : ∀ a ∈ comp, ∃ b o ro, mget phi a = some b ∧ H.get? a = some o ∧
      r.heap.get? b = some ro ∧
      List.Forall₂ (fun f rf => mapFld phi f = some rf) o.flds ro.flds
  ptrCnt : w.ptrCount = r.nr2ptr.length
  shCnt : w.sharedCount = r.nr2shared.length
  ptrTab : ∀ k id, alook w.ptrMap k = some id → k.2 = 0 ∧
      ∃ b, mget phi k.1 = some b ∧ r.nr2ptr.get? id = some (b, 0)
  shTab : ∀ k id, alook w.sharedMap k = some id → k.2 = 0 ∧
      ∃ b, mget phi k.1 = some b ∧ r.nr2shared.get? id = some (some (b, 0))

/-- Common reader-side postcondition of one simulated transfer. -/
def PostCommon (c : Ctx) (H : Heap) (phi phi2 : List (Nat × Nat))
    (comp comp2 : List Nat) (w2 : WSt) (r r2 : RSt) (rest : List Tok) : Prop :=
  r2.inp = rest ∧ SubM phi phi2 ∧ (∀ x ∈ comp, x ∈ comp2) ∧
  SimInv c H phi2 comp2 w2 r2 ∧
  r.heap.length ≤ r2.heap.length ∧
  (∀ x, (mget phi2 x).isSome → (mget phi x).isSome ∨ x ∈ comp2) ∧
  (∀ x ∈ comp2, x ∈ comp ∨ ∃ bx, mget phi2 x = some bx ∧ r.heap.length ≤ bx)

/-- The simulation goal for a shared-pointer task: the reader succeeds on
the emitted tokens, produces the `phi`-image of the written pointer, and
touches no pre-existing reader object. -/
def ShGoal (c : Ctx) (H : Heap) (n : Nat) : Prop :=
  ∀ (sty : String) (v : Option VPtr) (w w2 : WSt) (d : List Tok) (r : RSt)
    (phi : List (Nat × Nat)) (comp : List Nat) (rest : List Tok),
  wrun c H n (.sh sty v) w = .ok (w2, d) →
  SimInv c H phi comp w r →
  r.inp = d ++ rest →
  WFv c H sty v →
  ∃ phi2 comp2 r2 res,
    rrun c n (.sh sty) r = .ok (r2, res) ∧
    PostCommon c H phi phi2 comp comp2 w2 r r2 rest ∧
    (∀ bb, bb < r.heap.length → r2.heap.get? bb = r.heap.get? bb) ∧
    (v = none → res = none) ∧
    (∀ pv, v = some pv → ∃ b2, mget phi2 pv.1 = some b2 ∧ res = some (b2, pv.2))

/-- The simulation goal for a raw-pointer task. -/
def PtGoal (c : Ctx) (H : Heap) (n : Nat) : Prop :=
  ∀ (sty : String) (v : Option VPtr) (w w2 : WSt) (d : List Tok) (r : RSt)
    (phi : List (Nat × Nat)) (comp : List Nat) (rest : List Tok),
  wrun c H n (.pt sty v) w = .ok (w2, d) →
  SimInv c H phi comp w r →
  r.inp = d ++ rest →
  WFv c H sty v →
  ∃ phi2 comp2 r2 res,
    rrun c n (.pt sty) r = .ok (r2, res) ∧
    PostCommon c H phi phi2 comp comp2 w2 r r2 rest ∧
    (∀ bb, bb < r.heap.length → r2.heap.get? bb = r.heap.get? bb) ∧
    (v = none → res = none) ∧
    (∀ pv, v = some pv → ∃ b2, mget phi2 pv.1 = some b2 ∧ res = some (b2, pv.2))

/-- The simulation goal for a body task: the reader overwrites the image
object's fields with the `phi`-images of the writer's fields. -/
def BodyGoal (c : Ctx) (H : Heap) (n : Nat) : Prop :=
  ∀ (a i b : Nat) (o ro : Obj) (w w2 : WSt) (d : List Tok) (r : RSt)
    (phi : List (Nat × Nat)) (comp : List Nat) (rest : List Tok),
  wrun c H n (.body a i) w = .ok (w2, d) →
  SimInv c H phi comp w r →
  r.inp = d ++ rest →
  mget phi a = some b →
  a ∉ comp →
  H.get? a = some o →
  r.heap.get? b = some ro →
  ro.dyn = o.dyn →
  shapeList ro.flds = shapeList o.flds →
  List.Forall₂ (fun f rf => mapFld phi f = some rf)
    (o.flds.take i) (ro.flds.take i) →
  ∃ phi2 comp2 r2 res,
    rrun c n (.body b i) r = .ok (r2, res) ∧
    PostCommon c H phi phi2 comp comp2 w2 r r2 rest ∧
    (∀ bb, bb < r.heap.length → bb ≠ b → r2.heap.get? bb = r.heap.get? bb) ∧
    (∃ ro2, r2.heap.get? b = some ro2 ∧ ro2.dyn = o.dyn ∧
      List.Forall₂ (fun f rf => mapFld phi2 f = some rf) o.flds ro2.flds)

theorem offsetOf_self (c : Ctx) (d : String) : offsetOf c d d = some 0 := by
  simp [offsetOf]

theorem ptrOk_self {c : Ctx} {H : Heap} {sty : String} {pv : VPtr} {o : Obj}
    (hp : PtrOk c H sty pv) (ho : H.get? pv.1 = some o) (hd : sty = o.dyn) :
    pv.2 = 0 := by
  obtain ⟨o2, ho2, hoff⟩ := hp
  rw [ho] at ho2
  cases ho2
  rw [hd, offsetOf_self] at hoff
  exact (Option.some.inj hoff).symm

theorem offsetOf_base {c : Ctx} {d sty : String} {k : Nat} (hne : sty ≠ d)
    (hoff : offsetOf c d sty = some k) :
    ((c.tenv d).baseOff).lookup sty = some k := by
  rw [offsetOf, if_neg hne] at hoff
  exact hoff

theorem dcast_base {c : Ctx} {d sty : String} {k : Nat} (hne : sty ≠ d)
    (hoff : offsetOf c d sty = some k) (p : VPtr) :
    dcast c d sty p = .ok (p.1, 0) := by
  rw [dcast, if_neg hne, offsetOf_base hne hoff]

theorem ucast_base {c : Ctx} {d sty : String} {k : Nat} (hne : sty ≠ d)
    (hoff : offsetOf c d sty = some k) (p : VPtr) :
    ucast c d sty p = .ok (p.1, k) := by
  rw [ucast, if_neg hne, offsetOf_base hne hoff]

/-- Characterization of the shared-path normalization on a live pointer:
the key is the most-derived address and the flag records a moved
pointer. -/
theorem wnormSh_char {c : Ctx} {H : Heap} {sty : String} {pv : VPtr} {o : Obj}
    (ho : H.get? pv.1 = some o) (hp : PtrOk c H sty pv)
    (hreg : o.dyn ∈ c.reg) :
    wnormSh c o.dyn sty pv = .ok ((pv.1, 0), decide (pv.2 ≠ 0)) := by
  obtain ⟨o2, ho2, hoff⟩ := hp
  rw [ho] at ho2
  cases ho2
  rcases pv with ⟨a, off⟩
  by_cases hd : sty = o.dyn
  · have h0 : off = 0 := by
      rw [hd, offsetOf_self] at hoff
      exact (Option.some.inj hoff).symm
    subst h0
    rw [wnormSh, if_pos hd]
    simp
  · rw [wnormSh, if_neg hd, if_pos hreg, dcast_base hd hoff]
    simp only
    have hdec : (decide (((a, off).1, 0) ≠ (a, off))) = decide ((a, off).2 ≠ 0) := by
      rw [decide_eq_decide]
      simp [Prod.ext_iff, eq_comm]
    rw [hdec]

/-- Characterization of the raw-path normalization on a live pointer. -/
theorem wnormPt_char {c : Ctx} {H : Heap} {sty : String} {pv : VPtr} {o : Obj}
    (ho : H.get? pv.1 = some o) (hp : PtrOk c H sty pv)
    (hreg : o.dyn ∈ c.reg) :
    wnormPt c o.dyn sty pv = .ok (pv.1, 0) := by
  obtain ⟨o2, ho2, hoff⟩ := hp
  rw [ho] at ho2
  cases ho2
  rcases pv with ⟨a, off⟩
  by_cases hd : sty = o.dyn
  · have h0 : off = 0 := by
      rw [hd, offsetOf_self] at hoff
      exact (Option.some.inj hoff).symm
    subst h0
    rw [wnormPt, if_pos hd]
  · rw [wnormPt, if_neg hd, if_pos hreg, dcast_base hd hoff]

/-- `SimInv` ignores the reader's remaining input. -/
theorem SimInv.setInp {c : Ctx} {H : Heap} {phi : List (Nat × Nat)}
    {comp : List Nat} {w : WSt} {r : RSt} (h : SimInv c H phi comp w r)
    (inp2 : List Tok) : SimInv c H phi comp w { r with inp := inp2 } :=
  ⟨h.valNd, h.valLt, h.dynEq, h.domPtr, h.compMapped, h.ptrCnt, h.shCnt,
   h.ptrTab, h.shTab⟩

theorem decide_canon (pv : VPtr) :
    (decide ((pv.1, 0) ≠ pv)) = decide (pv.2 ≠ 0) := by
  rw [decide_eq_decide]
  rcases pv with ⟨a, off⟩
  simp [Prod.ext_iff, eq_comm]

/-- A writer-heap object whose static view type differs from its dynamic
type has a nonzero view offset iff the downcast moved the pointer; and a
matching static type forces offset `0`. -/
theorem ptrOk_ne {c : Ctx} {H : Heap} {sty : String} {pv : VPtr} {o : Obj}
    (ho : H.get? pv.1 = some o) (hp : PtrOk c H sty pv)
    (hz : pv.2 ≠ 0) : sty ≠ o.dyn := by
  intro hd
  exact hz (ptrOk_self hp ho hd)

/-- One simulated step of the shared-pointer transfer, given the
raw-pointer simulation one fuel level below. -/
theorem shStep (c : Ctx) (H : Heap) (hreg : WFreg c H) (m : Nat)
    (ihPt : PtGoal c H m) : ShGoal c H (m + 1) := by
  intro sty v w w2 d r phi comp rest hw hInv hinp hv
  cases v with
  | none =>
      rw [show wrun c H (m + 1) (.sh sty none) w = .ok (w, [.ti (-2)]) from by
            simp [wrun]] at hw
      cases hw
      refine ⟨phi, comp, { r with inp := rest }, none, ?_, ?_, ?_, ?_, ?_⟩
      · simp [rrun, rdInt, hinp]
      · exact ⟨rfl, subm_refl phi, fun x hx => hx, hInv.setInp rest,
          le_refl _, fun x hx => Or.inl hx, fun x hx => Or.inl hx⟩
      · intro bb _; rfl
      · intro _; rfl
      · intro pv hpv; cases hpv
  | some pv =>
      obtain ⟨o, ho, hoff⟩ := hv
      have hPtr : PtrOk c H sty pv := ⟨o, ho, hoff⟩
      have hom : o ∈ H := List.get?_mem ho
      have hdynreg : o.dyn ∈ c.reg := (hreg o hom).1
      have hnorm := wnormSh_char ho hPtr hdynreg
      simp only [wrun, ho, hnorm] at hw
      cases hmw : alook w.sharedMap (pv.1, 0) with
      | some id =>
          simp only [hmw] at hw
          obtain ⟨hk0, bb, hbb, hvec⟩ := hInv.shTab _ _ hmw
          have h2 : ¬((id : Int) = -2) := by omega
          have h1 : ¬((id : Int) = -1) := by omega
          have h0 : ¬((id : Int) < 0) := by omega
          have ht : ((id : Int)).toNat = id := by omega
          by_cases hz : pv.2 = 0
          · have hno : (decide (pv.2 ≠ 0)) = false := by simp [hz]
            rw [hno] at hw
            simp only [Bool.false_eq_true, if_false, List.append_nil] at hw
            cases hw
            refine ⟨phi, comp, { r with inp := rest }, some (bb, 0),
              ?_, ?_, ?_, ?_, ?_⟩
            · simp only [rrun, rdInt, hinp, List.cons_append, List.nil_append,
                h2, if_false, h1, h0, ht, hvec, rdBool, Bool.false_eq_true]
            · exact ⟨rfl, subm_refl phi, fun x hx => hx, hInv.setInp rest,
                le_refl _, fun x hx => Or.inl hx, fun x hx => Or.inl hx⟩
            · intro bb2 _; rfl
            · intro hc; cases hc
            · intro pv2 hpv2
              cases hpv2
              exact ⟨bb, hbb, by rw [hz]⟩
          · have hyes : (decide (pv.2 ≠ 0)) = true := by simp [hz]
            rw [hyes] at hw
            simp only [if_true] at hw
            cases hw
            have hne : sty ≠ o.dyn := ptrOk_ne ho hPtr hz
            have hcast := ucast_base hne hoff (bb, 0)
            refine ⟨phi, comp, { r with inp := rest }, some (bb, pv.2),
              ?_, ?_, ?_, ?_, ?_⟩
            · simp only [rrun, rdInt, hinp, List.cons_append, List.nil_append,
                h2, if_false, h1, h0, ht, hvec, rdBool, if_true, rdStr,
                hdynreg, optCast, hcast]
            · exact ⟨rfl, subm_refl phi, fun x hx => hx, hInv.setInp rest,
                le_refl _, fun x hx => Or.inl hx, fun x hx => Or.inl hx⟩
            · intro bb2 _; rfl
            · intro hc; cases hc
            · intro pv2 hpv2
              cases hpv2
              exact ⟨bb, hbb, rfl⟩
      | none =>
          simp only [hmw] at hw
          cases hwp : wrun c H m (.pt sty (some pv)) w with
          | error e => rw [hwp] at hw; simp at hw
          | ok p =>
            obtain ⟨w1, d1⟩ := p
            simp only [hwp] at hw
            cases hw
            have hinp2 : r.inp = .ti (-1) :: .tb (decide (pv.2 ≠ 0)) ::
                (d1 ++ ((if decide (pv.2 ≠ 0) then [Tok.ts o.dyn] else []) ++
                  rest)) := by
              simpa [List.append_assoc] using hinp
            obtain ⟨phi2, comp2, r2, res, hrrun2, hpost2, hframe2, hresN, hresS⟩ :=
              ihPt sty (some pv) w w1 d1
                { r with inp := d1 ++
                    ((if decide (pv.2 ≠ 0) then [Tok.ts o.dyn] else []) ++ rest) }
                phi comp
                ((if decide (pv.2 ≠ 0) then [Tok.ts o.dyn] else []) ++ rest)
                hwp (hInv.setInp _) rfl ⟨o, ho, hoff⟩
            obtain ⟨b2, hb2, hres⟩ := hresS pv rfl
            obtain ⟨hinp3, hsub2, hcomp2, hInv3, hlen2, hnew2, hnewc2⟩ := hpost2
            by_cases hz : pv.2 = 0
            · -- neededDowncast = false: the reader stores the raw result
              have hno : (decide (pv.2 ≠ 0)) = false := by simp [hz]
              rw [hno] at hinp2 hinp3 hrrun2
              simp only [Bool.false_eq_true, if_false, List.nil_append]
                at hinp2 hinp3 hrrun2
              refine ⟨phi2, comp2,
                { r2 with nr2shared := r2.nr2shared ++ [res] }, res,
                ?_, ?_, ?_, ?_, ?_⟩
              · simp only [rrun, rdInt, hinp2, rdBool, Bool.false_eq_true,
                  if_false, show ((-1 : Int) = -2) = False from by simp,
                  show ((-1 : Int) = -1) = True from by simp, if_true, hrrun2]
              · refine ⟨hinp3, hsub2, hcomp2, ?_, by simpa using hlen2,
                  hnew2, ?_⟩
                · refine ⟨hInv3.valNd, hInv3.valLt, hInv3.dynEq, hInv3.domPtr,
                    hInv3.compMapped, hInv3.ptrCnt, ?_, hInv3.ptrTab, ?_⟩
                  · simp [hInv3.shCnt]
                  · intro k id halk
                    by_cases hk : k = (pv.1, 0)
                    · subst hk
                      rw [alook_aset_self] at halk
                      cases halk
                      refine ⟨rfl, b2, hb2, ?_⟩
                      rw [hInv3.shCnt, List.get?_concat_length, hres, hz]
                    · rw [alook_aset_ne _ _ _ _ hk] at halk
                      obtain ⟨hk0, b3, hb3, hv3⟩ := hInv3.shTab _ _ halk
                      have hlt : id < r2.nr2shared.length := by
                        by_contra hcon
                        rw [List.get?_eq_none.mpr (by omega)] at hv3
                        cases hv3
                      exact ⟨hk0, b3, hb3, by
                        rw [List.get?_append hlt]; exact hv3⟩
                · intro x hx
                  rcases hnewc2 x hx with hc | ⟨bx, hbx, hble⟩
                  · exact Or.inl hc
                  · exact Or.inr ⟨bx, hbx, by simpa using hble⟩
              · intro bb2 hbb2
                exact hframe2 bb2 (by simpa using hbb2)
              · intro hc; cases hc
              · intro pv2 hpv2
                cases hpv2
                exact ⟨b2, hb2, hres⟩
            · -- neededDowncast = true: the reader pushes an aliased
              -- most-derived pointer
              have hyes : (decide (pv.2 ≠ 0)) = true := by simp [hz]
              rw [hyes] at hinp2 hinp3 hrrun2
              simp only [if_true, List.singleton_append] at hinp2 hinp3 hrrun2
              have hne : sty ≠ o.dyn := ptrOk_ne ho hPtr hz
              have hcast := dcast_base hne hoff (b2, pv.2)
              refine ⟨phi2, comp2,
                { r2 with nr2shared := r2.nr2shared ++ [some (b2, 0)],
                          inp := rest }, res,
                ?_, ?_, ?_, ?_, ?_⟩
              · simp only [rrun, rdInt, hinp2, rdBool,
                  show ((-1 : Int) = -2) = False from by simp,
                  show ((-1 : Int) = -1) = True from by simp, if_false, if_true,
                  hrrun2, rdStr, hinp3, List.singleton_append, hdynreg, hres,
                  optCast, hcast]
              · refine ⟨rfl, hsub2, hcomp2, ?_, by simpa using hlen2,
                  hnew2, ?_⟩
                · refine ⟨hInv3.valNd, by simpa using hInv3.valLt,
                    hInv3.dynEq, hInv3.domPtr, ?_, hInv3.ptrCnt, ?_,
                    hInv3.ptrTab, ?_⟩
                  · intro x hx
                    obtain ⟨b3, o3, ro3, hb3, ho3, hro3, hmap3⟩ :=
                      hInv3.compMapped x hx
                    exact ⟨b3, o3, ro3, hb3, ho3, hro3, hmap3⟩
                  · simp [hInv3.shCnt]
                  · intro k id halk
                    by_cases hk : k = (pv.1, 0)
                    · subst hk
                      rw [alook_aset_self] at halk
                      cases halk
                      refine ⟨rfl, b2, hb2, ?_⟩
                      rw [hInv3.shCnt, List.get?_concat_length]
                    · rw [alook_aset_ne _ _ _ _ hk] at halk
                      obtain ⟨hk0, b3, hb3, hv3⟩ := hInv3.shTab _ _ halk
                      have hlt : id < r2.nr2shared.length := by
                        by_contra hcon
                        rw [List.get?_eq_none.mpr (by omega)] at hv3
                        cases hv3
                      exact ⟨hk0, b3, hb3, by
                        rw [List.get?_append hlt]; exact hv3⟩
                · intro x hx
                  rcases hnewc2 x hx with hc | ⟨bx, hbx, hble⟩
                  · exact Or.inl hc
                  · exact Or.inr ⟨bx, hbx, by simpa using hble⟩
              · intro bb2 hbb2
                exact hframe2 bb2 (by simpa using hbb2)
              · intro hc; cases hc
              · intro pv2 hpv2
                cases hpv2
                exact ⟨b2, hb2, hres⟩

theorem mget_append_ne {p : List (Nat × Nat)} {a k : Nat} (h : a ≠ k)
    (v : Nat) : mget (p ++ [(k, v)]) a = mget p a := by
  induction p with
  | nil => simp [mget, h]
  | cons e t ih =>
      simp only [List.cons_append, mget]
      by_cases he : a = e.1
      · rw [if_pos he, if_pos he]
      · rw [if_neg he, if_neg he]
        exact ih

theorem nodup_snoc {l : List Nat} {x : Nat} (hnd : l.Nodup) (hx : x ∉ l) :
    (l ++ [x]).Nodup := by
  rw [List.nodup_append]
  exact ⟨hnd, List.nodup_singleton x, by
    intro y hy hy2
    rw [List.mem_singleton] at hy2
    rw [hy2] at hy
    exact hx hy⟩

/-- One simulated step of the raw-pointer transfer, given the body
simulation one fuel level below. -/
theorem ptStep (c : Ctx) (H : Heap) (hwf : WFheap c H) (hreg : WFreg c H)
    (m : Nat) (ihBody : BodyGoal c H m) : PtGoal c H (m + 1) := by
  intro sty v w w2 d r phi comp rest hw hInv hinp hv
  cases v with
  | none =>
      rw [show wrun c H (m + 1) (.pt sty none) w = .ok (w, [.ti (-2)]) from by
            simp [wrun]] at hw
      cases hw
      refine ⟨phi, comp, { r with inp := rest }, none, ?_, ?_, ?_, ?_, ?_⟩
      · simp [rrun, rdInt, hinp]
      · exact ⟨rfl, subm_refl phi, fun x hx => hx, hInv.setInp rest,
          le_refl _, fun x hx => Or.inl hx, fun x hx => Or.inl hx⟩
      · intro bb _; rfl
      · intro _; rfl
      · intro pv hpv; cases hpv
  | some pv =>
      obtain ⟨o, ho, hoff⟩ := hv
      have hPtr : PtrOk c H sty pv := ⟨o, ho, hoff⟩
      have hom : o ∈ H := List.get?_mem ho
      have hdynreg : o.dyn ∈ c.reg := (hreg o hom).1
      have hdyncon : (c.tenv o.dyn).constructible = true := (hreg o hom).2
      have hnorm := wnormPt_char ho hPtr hdynreg
      simp only [wrun, ho, hnorm] at hw
      cases hmp : alook w.ptrMap (pv.1, 0) with
      | some id =>
          simp only [hmp] at hw
          cases hw
          obtain ⟨hk0, bb, hbb, hvec⟩ := hInv.ptrTab _ _ hmp
          have h2 : ¬((id : Int) = -2) := by omega
          have h1 : ¬((id : Int) = -1) := by omega
          have h3 : ¬((id : Int) = -3) := by omega
          have h0 : ¬((id : Int) < 0) := by omega
          have ht : ((id : Int)).toNat = id := by omega
          by_cases hz : pv.2 = 0
          · have hno : (decide ((pv.1, 0) ≠ pv)) = false := by
              rw [decide_canon]; simp [hz]
            rw [hno] at hinp
            refine ⟨phi, comp, { r with inp := rest }, some (bb, 0),
              ?_, ?_, ?_, ?_, ?_⟩
            · simp only [rrun, rdInt, hinp, List.cons_append, List.nil_append,
                h2, h1, h3, h0, if_false, ht, hvec, rdBool, rdStr,
                Bool.false_eq_true]
            · exact ⟨rfl, subm_refl phi, fun x hx => hx, hInv.setInp rest,
                le_refl _, fun x hx => Or.inl hx, fun x hx => Or.inl hx⟩
            · intro bb2 _; rfl
            · intro hc; cases hc
            · intro pv2 hpv2
              cases hpv2
              exact ⟨bb, hbb, by rw [hz]⟩
          · have hyes : (decide ((pv.1, 0) ≠ pv)) = true := by
              rw [decide_canon]; simp [hz]
            rw [hyes] at hinp
            have hne : sty ≠ o.dyn := ptrOk_ne ho hPtr hz
            have hcast := ucast_base hne hoff (bb, 0)
            refine ⟨phi, comp, { r with inp := rest }, some (bb, pv.2),
              ?_, ?_, ?_, ?_, ?_⟩
            · simp only [rrun, rdInt, hinp, List.cons_append, List.nil_append,
                h2, h1, h3, h0, if_false, ht, hvec, rdBool, rdStr, if_true,
                hdynreg, hcast]
            · exact ⟨rfl, subm_refl phi, fun x hx => hx, hInv.setInp rest,
                le_refl _, fun x hx => Or.inl hx, fun x hx => Or.inl hx⟩
            · intro bb2 _; rfl
            · intro hc; cases hc
            · intro pv2 hpv2
              cases hpv2
              exact ⟨bb, hbb, rfl⟩
      | none =>
          simp only [hmp] at hw
          have hfresh : mget phi pv.1 = none := by
            cases hg : mget phi pv.1 with
            | none => rfl
            | some bb =>
                have hsome := (hInv.domPtr pv.1).mp (by rw [hg]; rfl)
                rw [hmp] at hsome
                cases hsome
          have hnc1 : pv.1 ∉ comp := by
            intro hc
            obtain ⟨b3, o3, ro3, hb3, _, _, _⟩ := hInv.compMapped pv.1 hc
            rw [hfresh] at hb3
            cases hb3
          -- the state after the early recording (archive.hpp line 349)
          by_cases hds : o.dyn = sty
          · -- sentinel -1: exact static type
            rw [if_pos hds] at hw
            have hcon2 : (c.tenv sty).constructible = true := by
              rw [← hds]; exact hdyncon
            rw [hcon2, if_pos rfl] at hw
            cases hwb : wrun c H m (.body pv.1 0)
                { w with ptrMap := aset w.ptrMap (pv.1, 0) w.ptrCount,
                         ptrCount := w.ptrCount + 1 } with
            | error e => rw [hwb] at hw; simp at hw
            | ok p =>
                obtain ⟨wb, db⟩ := p
                simp only [hwb] at hw
                cases hw
                have hz : pv.2 = 0 := ptrOk_self hPtr ho hds.symm
                have hinp2 : r.inp = .ti (-1) :: (db ++ rest) := by
                  simpa using hinp
                have hga : mget (phi ++ [(pv.1, r.heap.length)]) pv.1 =
                    some r.heap.length := mget_append_fresh hfresh _
                have hsub : SubM phi (phi ++ [(pv.1, r.heap.length)]) :=
                  subm_append _ _
                -- the reader state after allocation
                have hInv2 : SimInv c H (phi ++ [(pv.1, r.heap.length)]) comp
                    { w with ptrMap := aset w.ptrMap (pv.1, 0) w.ptrCount,
                             ptrCount := w.ptrCount + 1 }
                    { r with heap := r.heap ++ [⟨sty, (c.tenv sty).defaults⟩],
                             nr2ptr := r.nr2ptr ++ [(r.heap.length, 0)],
                             inp := db ++ rest } := by
                  refine ⟨?_, ?_, ?_, ?_, ?_, ?_, ?_, ?_, ?_⟩
                  · rw [List.map_append]
                    exact nodup_snoc hInv.valNd (by
                      intro hmem
                      obtain ⟨q, hq, hq2⟩ := List.mem_map.mp hmem
                      have := hInv.valLt q hq
                      omega)
                  · intro q hq
                    rcases List.mem_append.mp hq with hq1 | hq2
                    · have := hInv.valLt q hq1
                      simp only [List.length_append, List.length_cons,
                        List.length_nil]
                      omega
                    · rw [List.mem_singleton] at hq2
                      subst hq2
                      simp
                  · intro q hq
                    rcases List.mem_append.mp hq with hq1 | hq2
                    · obtain ⟨o3, ro3, ho3, hro3, hd3, hs3⟩ := hInv.dynEq q hq1
                      exact ⟨o3, ro3, ho3, by
                        rw [List.get?_append (hInv.valLt q hq1)]; exact hro3,
                        hd3, hs3⟩
                    · rw [List.mem_singleton] at hq2
                      subst hq2
                      refine ⟨o, ⟨sty, (c.tenv sty).defaults⟩, ho, ?_, ?_, ?_⟩
                      · rw [List.get?_concat_length]
                      · simp [← hds]
                      · simp only
                        rw [← hds]
                        exact (hwf o hom).1.symm ▸ (hwf o hom).1
                  · intro x
                    by_cases hx : x = pv.1
                    · subst hx
                      rw [hga, alook_aset_self]
                      simp
                    · rw [mget_append_ne hx, alook_aset_ne _ _ _ _ (by
                        intro hc
                        exact hx (by cases hc; rfl))]
                      exact hInv.domPtr x
                  · intro x hx
                    obtain ⟨b3, o3, ro3, hb3, ho3, hro3, hmap3⟩ :=
                      hInv.compMapped x hx
                    refine ⟨b3, o3, ro3, hsub _ _ hb3, ho3, ?_, ?_⟩
                    · rw [List.get?_append (by
                        have := hInv.valLt _ (mget_mem hb3)
                        exact this)]
                      exact hro3
                    · exact List.Forall₂.imp
                        (fun f rf hm => mapFld_mono hsub hm) hmap3
                  · simp only [List.length_append, List.length_cons,
                      List.length_nil]
                    rw [hInv.ptrCnt]
                  · exact hInv.shCnt
                  · intro k id halk
                    by_cases hk : k = (pv.1, 0)
                    · subst hk
                      rw [alook_aset_self] at halk
                      cases halk
                      refine ⟨rfl, r.heap.length, hga, ?_⟩
                      rw [hInv.ptrCnt, List.get?_concat_length]
                    · rw [alook_aset_ne _ _ _ _ hk] at halk
                      obtain ⟨hk0, b3, hb3, hv3⟩ := hInv.ptrTab _ _ halk
                      have hlt : id < r.nr2ptr.length := by
                        by_contra hcon
                        rw [List.get?_eq_none.mpr (by omega)] at hv3
                        cases hv3
                      exact ⟨hk0, b3, hsub _ _ hb3, by
                        rw [List.get?_append hlt]; exact hv3⟩
                  · intro k id halk
                    obtain ⟨hk0, b3, hb3, hv3⟩ := hInv.shTab _ _ halk
                    exact ⟨hk0, b3, hsub _ _ hb3, hv3⟩
                obtain ⟨phi3, comp3, r3, res3, hrun3, hpost3, hframe3, hobj3⟩ :=
                  ihBody pv.1 0 r.heap.length o ⟨sty, (c.tenv sty).defaults⟩
                    { w with ptrMap := aset w.ptrMap (pv.1, 0) w.ptrCount,
                             ptrCount := w.ptrCount + 1 } w2 db
                    { r with heap := r.heap ++ [⟨sty, (c.tenv sty).defaults⟩],
                             nr2ptr := r.nr2ptr ++ [(r.heap.length, 0)],
                             inp := db ++ rest }
                    (phi ++ [(pv.1, r.heap.length)]) comp rest hwb hInv2 rfl
                    hga hnc1 ho (by rw [List.get?_concat_length])
                    (by simp [← hds]) (by
                      simp only
                      rw [← hds]
                      exact ((hwf o hom).1).symm) (by simp)
                obtain ⟨hinp3, hsub3, hcomp3, hInv3, hlen3, hnew3, hnewc3⟩ :=
                  hpost3
                obtain ⟨ro2, hro2, hro2d, hro2m⟩ := hobj3
                refine ⟨phi3, pv.1 :: comp3, r3, some (r.heap.length, 0),
                  ?_, ?_, ?_, ?_, ?_⟩
                · simp only [rrun, rdInt, hinp2,
                    show ((-1 : Int) = -2) = False from by simp,
                    show ((-1 : Int) = -1) = True from by simp, if_false,
                    if_true, hcon2, hrun3]
                · refine ⟨hinp3, subm_trans hsub hsub3, ?_, ?_,
                    by simp at hlen3; omega, ?_, ?_⟩
                  · intro x hx
                    exact List.mem_cons_of_mem _ (hcomp3 x hx)
                  · -- the freshly built object is now complete
                    refine ⟨hInv3.valNd, hInv3.valLt, hInv3.dynEq,
                      hInv3.domPtr, ?_, hInv3.ptrCnt, hInv3.shCnt,
                      hInv3.ptrTab, hInv3.shTab⟩
                    intro x hx
                    rcases List.mem_cons.mp hx with hx1 | hx2
                    · subst hx1
                      exact ⟨r.heap.length, o, ro2, hsub3 _ _ hga, ho, hro2,
                        hro2m⟩
                    · exact hInv3.compMapped x hx2
                  · intro x hx
                    rcases hnew3 x hx with hx1 | hx2
                    · by_cases hxa : x = pv.1
                      · subst hxa
                        exact Or.inr (List.mem_cons_self _ _)
                      · rw [mget_append_ne hxa] at hx1
                        exact Or.inl hx1
                    · exact Or.inr (List.mem_cons_of_mem _ hx2)
                  · intro x hx
                    rcases List.mem_cons.mp hx with hx1 | hx2
                    · subst hx1
                      exact Or.inr ⟨r.heap.length, hsub3 _ _ hga, le_refl _⟩
                    · rcases hnewc3 x hx2 with hc | ⟨bx, hbx, hble⟩
                      · exact Or.inl hc
                      · exact Or.inr ⟨bx, hbx, by simp at hble; omega⟩
                · intro bb2 hbb2
                  rw [hframe3 bb2 (by simp; omega) (by omega)]
                  exact List.get?_append hbb2
                · intro hc; cases hc
                · intro pv2 hpv2
                  cases hpv2
                  exact ⟨r.heap.length, hsub3 _ _ hga, by rw [hz]⟩
          · -- sentinel -3: polymorphic reconstruction through the registry
            rw [if_neg hds, if_pos hdynreg] at hw
            cases hwb : wrun c H m (.body pv.1 0)
                { w with ptrMap := aset w.ptrMap (pv.1, 0) w.ptrCount,
                         ptrCount := w.ptrCount + 1 } with
            | error e => rw [hwb] at hw; simp at hw
            | ok p =>
                obtain ⟨wb, db⟩ := p
                simp only [hwb] at hw
                cases hw
                have hne : sty ≠ o.dyn := fun hc => hds hc.symm
                have hinp2 : r.inp = .ti (-3) :: .ts o.dyn :: (db ++ rest) := by
                  simpa using hinp
                have hga : mget (phi ++ [(pv.1, r.heap.length)]) pv.1 =
                    some r.heap.length := mget_append_fresh hfresh _
                have hsub : SubM phi (phi ++ [(pv.1, r.heap.length)]) :=
                  subm_append _ _
                have hucast := ucast_base hne hoff ((r.heap.length, 0) : VPtr)
                have hdcast := dcast_base hne hoff
                  ((r.heap.length, pv.2) : VPtr)
                have hInv2 : SimInv c H (phi ++ [(pv.1, r.heap.length)]) comp
                    { w with ptrMap := aset w.ptrMap (pv.1, 0) w.ptrCount,
                             ptrCount := w.ptrCount + 1 }
                    { r with heap := r.heap ++
                        [⟨o.dyn, (c.tenv o.dyn).defaults⟩],
                             nr2ptr := r.nr2ptr ++ [(r.heap.length, 0)],
                             inp := db ++ rest } := by
                  refine ⟨?_, ?_, ?_, ?_, ?_, ?_, ?_, ?_, ?_⟩
                  · rw [List.map_append]
                    exact nodup_snoc hInv.valNd (by
                      intro hmem
                      obtain ⟨q, hq, hq2⟩ := List.mem_map.mp hmem
                      have := hInv.valLt q hq
                      omega)
                  · intro q hq
                    rcases List.mem_append.mp hq with hq1 | hq2
                    · have := hInv.valLt q hq1
                      simp only [List.length_append, List.length_cons,
                        List.length_nil]
                      omega
                    · rw [List.mem_singleton] at hq2
                      subst hq2
                      simp
                  · intro q hq
                    rcases List.mem_append.mp hq with hq1 | hq2
                    · obtain ⟨o3, ro3, ho3, hro3, hd3, hs3⟩ := hInv.dynEq q hq1
                      exact ⟨o3, ro3, ho3, by
                        rw [List.get?_append (hInv.valLt q hq1)]; exact hro3,
                        hd3, hs3⟩
                    · rw [List.mem_singleton] at hq2
                      subst hq2
                      refine ⟨o, ⟨o.dyn, (c.tenv o.dyn).defaults⟩, ho, ?_,
                        rfl, ?_⟩
                      · rw [List.get?_concat_length]
                      · exact ((hwf o hom).1).symm
                  · intro x
                    by_cases hx : x = pv.1
                    · subst hx
                      rw [hga, alook_aset_self]
                      simp
                    · rw [mget_append_ne hx, alook_aset_ne _ _ _ _ (by
                        intro hc
                        exact hx (by cases hc; rfl))]
                      exact hInv.domPtr x
                  · intro x hx
                    obtain ⟨b3, o3, ro3, hb3, ho3, hro3, hmap3⟩ :=
                      hInv.compMapped x hx
                    refine ⟨b3, o3, ro3, hsub _ _ hb3, ho3, ?_, ?_⟩
                    · rw [List.get?_append (hInv.valLt _ (mget_mem hb3))]
                      exact hro3
                    · exact List.Forall₂.imp
                        (fun f rf hm => mapFld_mono hsub hm) hmap3
                  · simp only [List.length_append, List.length_cons,
                      List.length_nil]
                    rw [hInv.ptrCnt]
                  · exact hInv.shCnt
                  · intro k id halk
                    by_cases hk : k = (pv.1, 0)
                    · subst hk
                      rw [alook_aset_self] at halk
                      cases halk
                      refine ⟨rfl, r.heap.length, hga, ?_⟩
                      rw [hInv.ptrCnt, List.get?_concat_length]
                    · rw [alook_aset_ne _ _ _ _ hk] at halk
                      obtain ⟨hk0, b3, hb3, hv3⟩ := hInv.ptrTab _ _ halk
                      have hlt : id < r.nr2ptr.length := by
                        by_contra hcon
                        rw [List.get?_eq_none.mpr (by omega)] at hv3
                        cases hv3
                      exact ⟨hk0, b3, hsub _ _ hb3, by
                        rw [List.get?_append hlt]; exact hv3⟩
                  · intro k id halk
                    obtain ⟨hk0, b3, hb3, hv3⟩ := hInv.shTab _ _ halk
                    exact ⟨hk0, b3, hsub _ _ hb3, hv3⟩
                obtain ⟨phi3, comp3, r3, res3, hrun3, hpost3, hframe3, hobj3⟩ :=
                  ihBody pv.1 0 r.heap.length o ⟨o.dyn, (c.tenv o.dyn).defaults⟩
                    { w with ptrMap := aset w.ptrMap (pv.1, 0) w.ptrCount,
                             ptrCount := w.ptrCount + 1 } w2 db
                    { r with heap := r.heap ++
                        [⟨o.dyn, (c.tenv o.dyn).defaults⟩],
                             nr2ptr := r.nr2ptr ++ [(r.heap.length, 0)],
                             inp := db ++ rest }
                    (phi ++ [(pv.1, r.heap.length)]) comp rest hwb hInv2 rfl
                    hga hnc1 ho (by rw [List.get?_concat_length]) rfl
                    (((hwf o hom).1).symm) (by simp)
                obtain ⟨hinp3, hsub3, hcomp3, hInv3, hlen3, hnew3, hnewc3⟩ :=
                  hpost3
                obtain ⟨ro2, hro2, hro2d, hro2m⟩ := hobj3
                refine ⟨phi3, pv.1 :: comp3, r3, some (r.heap.length, pv.2),
                  ?_, ?_, ?_, ?_, ?_⟩
                · simp only [rrun, rdInt, hinp2,
                    show ((-3 : Int) = -2) = False from by simp,
                    show ((-3 : Int) = -1) = False from by simp,
                    show ((-3 : Int) = -3) = True from by simp, if_false,
                    if_true, rdStr, hdynreg, hdyncon, hucast, hdcast, hrun3]
                · refine ⟨hinp3, subm_trans hsub hsub3, ?_, ?_,
                    by simp at hlen3; omega, ?_, ?_⟩
                  · intro x hx
                    exact List.mem_cons_of_mem _ (hcomp3 x hx)
                  · refine ⟨hInv3.valNd, hInv3.valLt, hInv3.dynEq,
                      hInv3.domPtr, ?_, hInv3.ptrCnt, hInv3.shCnt,
                      hInv3.ptrTab, hInv3.shTab⟩
                    intro x hx
                    rcases List.mem_cons.mp hx with hx1 | hx2
                    · subst hx1
                      exact ⟨r.heap.length, o, ro2, hsub3 _ _ hga, ho, hro2,
                        hro2m⟩
                    · exact hInv3.compMapped x hx2
                  · intro x hx
                    rcases hnew3 x hx with hx1 | hx2
                    · by_cases hxa : x = pv.1
                      · subst hxa
                        exact Or.inr (List.mem_cons_self _ _)
                      · rw [mget_append_ne hxa] at hx1
                        exact Or.inl hx1
                    · exact Or.inr (List.mem_cons_of_mem _ hx2)
                  · intro x hx
                    rcases List.mem_cons.mp hx with hx1 | hx2
                    · subst hx1
                      exact Or.inr ⟨r.heap.length, hsub3 _ _ hga, le_refl _⟩
                    · rcases hnewc3 x hx2 with hc | ⟨bx, hbx, hble⟩
                      · exact Or.inl hc
                      · exact Or.inr ⟨bx, hbx, by simp at hble; omega⟩
                · intro bb2 hbb2
                  rw [hframe3 bb2 (by simp; omega) (by omega)]
                  exact List.get?_append hbb2
                · intro hc; cases hc
                · intro pv2 hpv2
                  cases hpv2
                  exact ⟨r.heap.length, hsub3 _ _ hga, rfl⟩

theorem forall2_snoc {α β : Type} {R : α → β → Prop} :
    ∀ {l1 : List α} {l2 : List β} {x : α} {y : β},
    List.Forall₂ R l1 l2 → R x y → List.Forall₂ R (l1 ++ [x]) (l2 ++ [y]) := by
  intro l1
  induction l1 with
  | nil =>
      intro l2 x y h hxy
      rw [List.forall₂_nil_left_iff.mp h]
      simpa using List.Forall₂.cons hxy List.Forall₂.nil
  | cons e t ih =>
      intro l2 x y h hxy
      cases h with
      | cons he ht => exact List.Forall₂.cons he (ih ht hxy)

theorem snd_nodup_unique {p : List (Nat × Nat)}
    (h : (p.map Prod.snd).Nodup) {q1 q2 : Nat × Nat} (h1 : q1 ∈ p)
    (h2 : q2 ∈ p) (he : q1.2 = q2.2) : q1 = q2 := by
  induction p with
  | nil => cases h1
  | cons e t ih =>
      simp only [List.map_cons, List.nodup_cons] at h
      rcases List.mem_cons.mp h1 with hq1 | hq1 <;>
        rcases List.mem_cons.mp h2 with hq2 | hq2
      · rw [hq1, hq2]
      · subst hq1
        exact absurd (List.mem_map.mpr ⟨q2, hq2, he.symm⟩) h.1
      · subst hq2
        exact absurd (List.mem_map.mpr ⟨q1, hq1, he⟩) h.1
      · exact ih h.2 hq1 hq2

theorem shape_set {l : List Fld} {i : Nat} {fr fnew : Fld}
    (hg : l.get? i = some fr) (hs : fnew.shape = fr.shape) :
    shapeList (l.set i fnew) = shapeList l := by
  unfold shapeList
  rw [List.map_set, hs]
  exact list_set_same _ _ _ (by rw [List.get?_map, hg]; rfl)

theorem get?_set_self {α : Type} {l : List α} {i : Nat} {x0 : α}
    (h : l.get? i = some x0) (x : α) : (l.set i x).get? i = some x := by
  rw [List.get?_set_eq, h]
  rfl

/-- Storing one freshly read field into the in-progress image object
preserves the simulation invariant: the object keeps its dynamic type and
shape, and no completed object is touched. -/
theorem SimInv.setFldInv {c : Ctx} {H : Heap} {phi : List (Nat × Nat)}
    {comp : List Nat} {w : WSt} {r : RSt} (hInv : SimInv c H phi comp w r)
    {a b : Nat} {o ro : Obj} (hb : mget phi a = some b) (hnc : a ∉ comp)
    (ho : H.get? a = some o) (hro : r.heap.get? b = some ro)
    (hdyn : ro.dyn = o.dyn) (hsh : shapeList ro.flds = shapeList o.flds)
    {i : Nat} {fr : Fld} (hfr : ro.flds.get? i = some fr) (fnew : Fld)
    (hshape : fnew.shape = fr.shape) (inp2 : List Tok) :
    SimInv c H phi comp w
      { r with heap := r.heap.set b ⟨ro.dyn, ro.flds.set i fnew⟩,
               inp := inp2 } := by
  refine ⟨hInv.valNd, ?_, ?_, hInv.domPtr, ?_, hInv.ptrCnt, hInv.shCnt,
    hInv.ptrTab, hInv.shTab⟩
  · intro q hq
    simp only [List.length_set]
    exact hInv.valLt q hq
  · intro q hq
    by_cases hqb : q.2 = b
    · have hqe : q = (a, b) :=
        snd_nodup_unique hInv.valNd hq (mget_mem hb) (by rw [hqb])
      subst hqe
      refine ⟨o, ⟨ro.dyn, ro.flds.set i fnew⟩, ho, ?_, ?_, ?_⟩
      · exact get?_set_self hro _
      · exact hdyn
      · rw [shape_set hfr hshape]
        exact hsh
    · obtain ⟨o3, ro3, ho3, hro3, hd3, hs3⟩ := hInv.dynEq q hq
      refine ⟨o3, ro3, ho3, ?_, hd3, hs3⟩
      simp only
      rw [List.get?_set_ne _ _ (fun hc => hqb hc.symm)]
      exact hro3
  · intro x hx
    obtain ⟨b3, o3, ro3, hb3, ho3, hro3, hmap3⟩ := hInv.compMapped x hx
    have hbne : b3 ≠ b := by
      intro hc
      subst hc
      refine hnc ?_
      have hxa : x = a := mget_inj hInv.valNd hb3 hb
      rw [← hxa]
      exact hx
    refine ⟨b3, o3, ro3, hb3, ho3, ?_, hmap3⟩
    simp only
    rw [List.get?_set_ne _ _ (fun hc => hbne hc.symm)]
    exact hro3

/-- One simulated step of the body transfer, given all three simulations
one fuel level below. -/
theorem bodyStep (c : Ctx) (H : Heap) (hwf : WFheap c H) (hreg : WFreg c H)
    (m : Nat) (ihSh : ShGoal c H m) (ihPt : PtGoal c H m)
    (ihBody : BodyGoal c H m) : BodyGoal c H (m + 1) := by
  intro a i b o ro w w2 d r phi comp rest hw hInv hinp hb hnc ho hro hdyn hsh hpre
  have hom : o ∈ H := List.get?_mem ho
  have hblt : b < r.heap.length := hInv.valLt _ (mget_mem hb)
  have hlenf : ro.flds.length = o.flds.length := by
    have h := congrArg List.length hsh
    simpa [shapeList] using h
  simp only [wrun, ho] at hw
  cases hfi : o.flds.get? i with
  | none =>
      simp only [hfi] at hw
      cases hw
      have hige : o.flds.length ≤ i := List.get?_eq_none.mp hfi
      have hfin : ro.flds.get? i = none := List.get?_eq_none.mpr (by omega)
      have hful : List.Forall₂ (fun fw rf => mapFld phi fw = some rf)
          o.flds ro.flds := by
        have h1 : o.flds.take i = o.flds := List.take_of_length_le hige
        have h2 : ro.flds.take i = ro.flds := List.take_of_length_le (by omega)
        rw [h1, h2] at hpre
        exact hpre
      refine ⟨phi, comp, r, none, ?_, ?_, ?_, ?_⟩
      · simp only [rrun, hro, hfin]
      · exact ⟨by simpa using hinp, subm_refl phi, fun x hx => hx, hInv,
          le_refl _, fun x hx => Or.inl hx, fun x hx => Or.inl hx⟩
      · intro bb _ _; rfl
      · exact ⟨ro, hro, hdyn, hful⟩
  | some f =>
      simp only [hfi] at hw
      have hilt : i < o.flds.length := by
        by_contra hcon
        have hn := List.get?_eq_none.mpr (Nat.le_of_not_lt hcon)
        rw [hn] at hfi
        cases hfi
      have hilt2 : i < ro.flds.length := by omega
      obtain ⟨fr, hfr⟩ : ∃ fr, ro.flds.get? i = some fr := by
        cases hg : ro.flds.get? i with
        | none =>
            rw [List.get?_eq_none] at hg
            omega
        | some fr => exact ⟨fr, rfl⟩
      have hshape : fr.shape = f.shape := by
        have h1 : (ro.flds.map Fld.shape).get? i = some fr.shape := by
          rw [List.get?_map, hfr]; rfl
        have h2 : (o.flds.map Fld.shape).get? i = some f.shape := by
          rw [List.get?_map, hfi]; rfl
        unfold shapeList at hsh
        rw [hsh, h2] at h1
        exact (Option.some.inj h1).symm
      have hfmem : f ∈ o.flds := List.get?_mem hfi
      have htko : o.flds.take (i + 1) = o.flds.take i ++ [f] := by
        rw [List.take_succ]
        have hg : o.flds[i]? = some f := by
          rw [← List.get?_eq_getElem?]
          exact hfi
        rw [hg]
        rfl
      cases f with
      | fInt x =>
          simp only at hw
          cases hwr : wrun c H m (.body a (i + 1)) w with
          | error e => rw [hwr] at hw; simp at hw
          | ok p =>
              obtain ⟨wb, db⟩ := p
              simp only [hwr] at hw
              cases hw
              cases fr with
              | fInt x0 =>
                  have hinp2 : r.inp = .ti x :: (db ++ rest) := by
                    simpa using hinp
                  have hInv1 :=
                    hInv.setFldInv hb hnc ho hro hdyn hsh hfr (.fInt x) rfl
                      (db ++ rest)
                  obtain ⟨phi3, comp3, r3, res3, hrun3, hpost3, hframe3, hobj3⟩ :=
                    ihBody a (i + 1) b o ⟨ro.dyn, ro.flds.set i (.fInt x)⟩ w w2 db
                      { r with heap := r.heap.set b ⟨ro.dyn, ro.flds.set i (.fInt x)⟩,
                               inp := db ++ rest }
                      phi comp rest hwr hInv1 rfl hb hnc ho
                      (get?_set_self hro _) hdyn
                      (by
                        show shapeList (ro.flds.set i (Fld.fInt x)) =
                          shapeList o.flds
                        rw [shape_set hfr
                          (rfl : (Fld.fInt x).shape = (Fld.fInt x0).shape)]
                        exact hsh)
                      (by
                        show List.Forall₂ _ (o.flds.take (i + 1))
                          ((ro.flds.set i (Fld.fInt x)).take (i + 1))
                        rw [htko, take_succ_set _ _ _ hilt2]
                        exact forall2_snoc hpre rfl)
                  obtain ⟨hinp3, hsub3, hcomp3, hInv3, hlen3, hnew3, hnewc3⟩ := hpost3
                  refine ⟨phi3, comp3, r3, res3, ?_, ?_, ?_, ?_⟩
                  · simp only [rrun, hro, hfr, rdInt, hinp2, hset, hrun3]
                  · refine ⟨hinp3, hsub3, hcomp3, hInv3, by simpa using hlen3,
                      hnew3, ?_⟩
                    intro x2 hx2
                    rcases hnewc3 x2 hx2 with hc | ⟨bx, hbx, hble⟩
                    · exact Or.inl hc
                    · exact Or.inr ⟨bx, hbx, by simpa using hble⟩
                  · intro bb hbb hbne
                    have h1 := hframe3 bb (by simpa using hbb) hbne
                    have h2 : (r.heap.set b
                        (⟨ro.dyn, ro.flds.set i (.fInt x)⟩ : Obj)).get? bb =
                        r.heap.get? bb :=
                      List.get?_set_ne _ _ (fun hc => hbne hc.symm)
                    exact h1.trans h2
                  · exact hobj3
              | fStr s0 => simp [Fld.shape] at hshape
              | fVec l0 => simp [Fld.shape] at hshape
              | fSh st0 v0 => simp [Fld.shape] at hshape
              | fPt st0 v0 => simp [Fld.shape] at hshape
      | fStr s =>
          simp only at hw
          cases hwr : wrun c H m (.body a (i + 1)) w with
          | error e => rw [hwr] at hw; simp at hw
          | ok p =>
              obtain ⟨wb, db⟩ := p
              simp only [hwr] at hw
              cases hw
              cases fr with
              | fStr s0 =>
                  have hinp2 : r.inp = .ts s :: (db ++ rest) := by
                    simpa using hinp
                  have hInv1 :=
                    hInv.setFldInv hb hnc ho hro hdyn hsh hfr (.fStr s) rfl
                      (db ++ rest)
                  obtain ⟨phi3, comp3, r3, res3, hrun3, hpost3, hframe3, hobj3⟩ :=
                    ihBody a (i + 1) b o ⟨ro.dyn, ro.flds.set i (.fStr s)⟩ w w2 db
                      { r with heap := r.heap.set b ⟨ro.dyn, ro.flds.set i (.fStr s)⟩,
                               inp := db ++ rest }
                      phi comp rest hwr hInv1 rfl hb hnc ho
                      (get?_set_self hro _) hdyn
                      (by
                        show shapeList (ro.flds.set i (Fld.fStr s)) =
                          shapeList o.flds
                        rw [shape_set hfr
                          (rfl : (Fld.fStr s).shape = (Fld.fStr s0).shape)]
                        exact hsh)
                      (by
                        show List.Forall₂ _ (o.flds.take (i + 1))
                          ((ro.flds.set i (Fld.fStr s)).take (i + 1))
                        rw [htko, take_succ_set _ _ _ hilt2]
                        exact forall2_snoc hpre rfl)
                  obtain ⟨hinp3, hsub3, hcomp3, hInv3, hlen3, hnew3, hnewc3⟩ := hpost3
                  refine ⟨phi3, comp3, r3, res3, ?_, ?_, ?_, ?_⟩
                  · simp only [rrun, hro, hfr, rdStr, hinp2, hset, hrun3]
                  · refine ⟨hinp3, hsub3, hcomp3, hInv3, by simpa using hlen3,
                      hnew3, ?_⟩
                    intro x2 hx2
                    rcases hnewc3 x2 hx2 with hc | ⟨bx, hbx, hble⟩
                    · exact Or.inl hc
                    · exact Or.inr ⟨bx, hbx, by simpa using hble⟩
                  · intro bb hbb hbne
                    have h1 := hframe3 bb (by simpa using hbb) hbne
                    have h2 : (r.heap.set b
                        (⟨ro.dyn, ro.flds.set i (.fStr s)⟩ : Obj)).get? bb =
                        r.heap.get? bb :=
                      List.get?_set_ne _ _ (fun hc => hbne hc.symm)
                    exact h1.trans h2
                  · exact hobj3
              | fInt x0 => simp [Fld.shape] at hshape
              | fVec l0 => simp [Fld.shape] at hshape
              | fSh st0 v0 => simp [Fld.shape] at hshape
              | fPt st0 v0 => simp [Fld.shape] at hshape
      | fVec l =>
          simp only at hw
          cases hwr : wrun c H m (.body a (i + 1)) w with
          | error e => rw [hwr] at hw; simp at hw
          | ok p =>
              obtain ⟨wb, db⟩ := p
              simp only [hwr] at hw
              cases hw
              cases fr with
              | fVec l0 =>
                  have hinp2 : r.inp =
                      .tn l.length :: (l.map Tok.ti ++ (db ++ rest)) := by
                    simpa using hinp
                  have hrds := rdInts_toks l
                      { r with inp := l.map Tok.ti ++ (db ++ rest) }
                      (db ++ rest) rfl
                  have hInv1 :=
                    hInv.setFldInv hb hnc ho hro hdyn hsh hfr (.fVec l) rfl
                      (db ++ rest)
                  obtain ⟨phi3, comp3, r3, res3, hrun3, hpost3, hframe3, hobj3⟩ :=
                    ihBody a (i + 1) b o ⟨ro.dyn, ro.flds.set i (.fVec l)⟩ w w2 db
                      { r with heap := r.heap.set b ⟨ro.dyn, ro.flds.set i (.fVec l)⟩,
                               inp := db ++ rest }
                      phi comp rest hwr hInv1 rfl hb hnc ho
                      (get?_set_self hro _) hdyn
                      (by
                        show shapeList (ro.flds.set i (Fld.fVec l)) =
                          shapeList o.flds
                        rw [shape_set hfr
                          (rfl : (Fld.fVec l).shape = (Fld.fVec l0).shape)]
                        exact hsh)
                      (by
                        show List.Forall₂ _ (o.flds.take (i + 1))
                          ((ro.flds.set i (Fld.fVec l)).take (i + 1))
                        rw [htko, take_succ_set _ _ _ hilt2]
                        exact forall2_snoc hpre rfl)
                  obtain ⟨hinp3, hsub3, hcomp3, hInv3, hlen3, hnew3, hnewc3⟩ := hpost3
                  refine ⟨phi3, comp3, r3, res3, ?_, ?_, ?_, ?_⟩
                  · simp only [rrun, hro, hfr, rdNat, hinp2, hrds, hset, hrun3]
                  · refine ⟨hinp3, hsub3, hcomp3, hInv3, by simpa using hlen3,
                      hnew3, ?_⟩
                    intro x2 hx2
                    rcases hnewc3 x2 hx2 with hc | ⟨bx, hbx, hble⟩
                    · exact Or.inl hc
                    · exact Or.inr ⟨bx, hbx, by simpa using hble⟩
                  · intro bb hbb hbne
                    have h1 := hframe3 bb (by simpa using hbb) hbne
                    have h2 : (r.heap.set b
                        (⟨ro.dyn, ro.flds.set i (.fVec l)⟩ : Obj)).get? bb =
                        r.heap.get? bb :=
                      List.get?_set_ne _ _ (fun hc => hbne hc.symm)
                    exact h1.trans h2
                  · exact hobj3
              | fInt x0 => simp [Fld.shape] at hshape
              | fStr s0 => simp [Fld.shape] at hshape
              | fSh st0 v0 => simp [Fld.shape] at hshape
              | fPt st0 v0 => simp [Fld.shape] at hshape
      | fSh sty2 v2 =>
          simp only at hw
          cases hws : wrun c H m (.sh sty2 v2) w with
          | error e => rw [hws] at hw; simp at hw
          | ok p1 =>
              obtain ⟨w1, d1⟩ := p1
              simp only [hws] at hw
              cases hwr : wrun c H m (.body a (i + 1)) w1 with
              | error e => rw [hwr] at hw; simp at hw
              | ok p2 =>
                  obtain ⟨wb, db⟩ := p2
                  simp only [hwr] at hw
                  cases hw
                  cases fr with
                  | fSh st0 v0 =>
                      have hst : sty2 = st0 := by
                        simpa [Fld.shape] using hshape.symm
                      subst hst
                      have hinp1 : r.inp = d1 ++ (db ++ rest) := by
                        simpa [List.append_assoc] using hinp
                      have hwfv : WFv c H sty2 v2 := (hwf o hom).2 _ hfmem
                      obtain ⟨phi2, comp2, r2, res, hrun2, hpost2, hframe2,
                        hresn, hress⟩ :=
                        ihSh sty2 v2 w w1 d1 r phi comp (db ++ rest) hws hInv
                          hinp1 hwfv
                      obtain ⟨hinp2', hsub2, hcomp2, hInv2, hlen2, hnew2,
                        hnewc2⟩ := hpost2
                      have hb2 : mget phi2 a = some b := hsub2 _ _ hb
                      have hnc2 : a ∉ comp2 := by
                        intro hc
                        rcases hnewc2 a hc with hc1 | ⟨bx, hbx, hxle⟩
                        · exact hnc hc1
                        · rw [hb2] at hbx
                          cases hbx
                          omega
                      have hro2 : r2.heap.get? b = some ro := by
                        rw [hframe2 b hblt]
                        exact hro
                      have hmapF : mapFld phi2 (Fld.fSh sty2 v2) =
                          some (Fld.fSh sty2 res) := by
                        cases v2 with
                        | none =>
                            rw [hresn rfl]
                            rfl
                        | some pv =>
                            obtain ⟨b2, hb2v, hres⟩ := hress pv rfl
                            rw [hres]
                            simp [mapFld, mapOPtr, mapPtr, hb2v]
                      have hInv1 :=
                        hInv2.setFldInv hb2 hnc2 ho hro2 hdyn hsh hfr
                          (.fSh sty2 res) rfl r2.inp
                      obtain ⟨phi3, comp3, r3, res3, hrun3, hpost3, hframe3,
                        hobj3⟩ :=
                        ihBody a (i + 1) b o
                          ⟨ro.dyn, ro.flds.set i (.fSh sty2 res)⟩ w1 w2 db
                          { r2 with
                              heap := r2.heap.set b
                                ⟨ro.dyn, ro.flds.set i (.fSh sty2 res)⟩,
                              inp := r2.inp }
                          phi2 comp2 rest hwr hInv1 hinp2' hb2 hnc2 ho
                          (get?_set_self hro2 _) hdyn
                          (by
                            show shapeList (ro.flds.set i (Fld.fSh sty2 res)) =
                              shapeList o.flds
                            rw [shape_set hfr
                              (rfl : (Fld.fSh sty2 res).shape =
                                (Fld.fSh sty2 v0).shape)]
                            exact hsh)
                          (by
                            show List.Forall₂ _ (o.flds.take (i + 1))
                              ((ro.flds.set i (Fld.fSh sty2 res)).take (i + 1))
                            rw [htko, take_succ_set _ _ _ hilt2]
                            exact forall2_snoc
                              (List.Forall₂.imp
                                (fun fw rf hm => mapFld_mono hsub2 hm) hpre)
                              hmapF)
                      obtain ⟨hinp3, hsub3, hcomp3, hInv3, hlen3, hnew3,
                        hnewc3⟩ := hpost3
                      refine ⟨phi3, comp3, r3, res3, ?_, ?_, ?_, ?_⟩
                      · simp only [rrun, hro, hfr, hrun2, hset, hro2, hrun3]
                      · refine ⟨hinp3, subm_trans hsub2 hsub3,
                          fun x2 hx2 => hcomp3 x2 (hcomp2 x2 hx2), hInv3,
                          ?_, ?_, ?_⟩
                        · have h3 : r2.heap.length ≤ r3.heap.length := by
                            simpa using hlen3
                          omega
                        · intro x2 hx2
                          rcases hnew3 x2 hx2 with h1 | h2
                          · rcases hnew2 x2 h1 with h1a | h1b
                            · exact Or.inl h1a
                            · exact Or.inr (hcomp3 x2 h1b)
                          · exact Or.inr h2
                        · intro x2 hx2
                          rcases hnewc3 x2 hx2 with h1 | ⟨bx, hbx, hxle⟩
                          · rcases hnewc2 x2 h1 with h2 | ⟨bx, hbx, hxle⟩
                            · exact Or.inl h2
                            · exact Or.inr ⟨bx, hsub3 _ _ hbx, hxle⟩
                          · refine Or.inr ⟨bx, hbx, ?_⟩
                            have h4 : r2.heap.length ≤ bx := by simpa using hxle
                            omega
                      · intro bb hbb hbne
                        have h1 := hframe3 bb (by
                            have h0 : bb < r2.heap.length := by omega
                            simpa using h0) hbne
                        have h2 : (r2.heap.set b
                            (⟨ro.dyn, ro.flds.set i (.fSh sty2 res)⟩ : Obj)).get? bb =
                            r2.heap.get? bb :=
                          List.get?_set_ne _ _ (fun hc => hbne hc.symm)
                        exact h1.trans (h2.trans (hframe2 bb hbb))
                      · exact hobj3
                  | fInt x0 => simp [Fld.shape] at hshape
                  | fStr s0 => simp [Fld.shape] at hshape
                  | fVec l0 => simp [Fld.shape] at hshape
                  | fPt st0 v0 => simp [Fld.shape] at hshape
      | fPt sty2 v2 =>
          simp only at hw
          cases hws : wrun c H m (.pt sty2 v2) w with
          | error e => rw [hws] at hw; simp at hw
          | ok p1 =>
              obtain ⟨w1, d1⟩ := p1
              simp only [hws] at hw
              cases hwr : wrun c H m (.body a (i + 1)) w1 with
              | error e => rw [hwr] at hw; simp at hw
              | ok p2 =>
                  obtain ⟨wb, db⟩ := p2
                  simp only [hwr] at hw
                  cases hw
                  cases fr with
                  | fPt st0 v0 =>
                      have hst : sty2 = st0 := by
                        simpa [Fld.shape] using hshape.symm
                      subst hst
                      have hinp1 : r.inp = d1 ++ (db ++ rest) := by
                        simpa [List.append_assoc] using hinp
                      have hwfv : WFv c H sty2 v2 := (hwf o hom).2 _ hfmem
                      obtain ⟨phi2, comp2, r2, res, hrun2, hpost2, hframe2,
                        hresn, hress⟩ :=
                        ihPt sty2 v2 w w1 d1 r phi comp (db ++ rest) hws hInv
                          hinp1 hwfv
                      obtain ⟨hinp2', hsub2, hcomp2, hInv2, hlen2, hnew2,
                        hnewc2⟩ := hpost2
                      have hb2 : mget phi2 a = some b := hsub2 _ _ hb
                      have hnc2 : a ∉ comp2 := by
                        intro hc
                        rcases hnewc2 a hc with hc1 | ⟨bx, hbx, hxle⟩
                        · exact hnc hc1
                        · rw [hb2] at hbx
                          cases hbx
                          omega
                      have hro2 : r2.heap.get? b = some ro := by
                        rw [hframe2 b hblt]
                        exact hro
                      have hmapF : mapFld phi2 (Fld.fPt sty2 v2) =
                          some (Fld.fPt sty2 res) := by
                        cases v2 with
                        | none =>
                            rw [hresn rfl]
                            rfl
                        | some pv =>
                            obtain ⟨b2, hb2v, hres⟩ := hress pv rfl
                            rw [hres]
                            simp [mapFld, mapOPtr, mapPtr, hb2v]
                      have hInv1 :=
                        hInv2.setFldInv hb2 hnc2 ho hro2 hdyn hsh hfr
                          (.fPt sty2 res) rfl r2.inp
                      obtain ⟨phi3, comp3, r3, res3, hrun3, hpost3, hframe3,
                        hobj3⟩ :=
                        ihBody a (i + 1) b o
                          ⟨ro.dyn, ro.flds.set i (.fPt sty2 res)⟩ w1 w2 db
                          { r2 with
                              heap := r2.heap.set b
                                ⟨ro.dyn, ro.flds.set i (.fPt sty2 res)⟩,
                              inp := r2.inp }
                          phi2 comp2 rest hwr hInv1 hinp2' hb2 hnc2 ho
                          (get?_set_self hro2 _) hdyn
                          (by
                            show shapeList (ro.flds.set i (Fld.fPt sty2 res)) =
                              shapeList o.flds
                            rw [shape_set hfr
                              (rfl : (Fld.fPt sty2 res).shape =
                                (Fld.fPt sty2 v0).shape)]
                            exact hsh)
                          (by
                            show List.Forall₂ _ (o.flds.take (i + 1))
                              ((ro.flds.set i (Fld.fPt sty2 res)).take (i + 1))
                            rw [htko, take_succ_set _ _ _ hilt2]
                            exact forall2_snoc
                              (List.Forall₂.imp
                                (fun fw rf hm => mapFld_mono hsub2 hm) hpre)
                              hmapF)
                      obtain ⟨hinp3, hsub3, hcomp3, hInv3, hlen3, hnew3,
                        hnewc3⟩ := hpost3
                      refine ⟨phi3, comp3, r3, res3, ?_, ?_, ?_, ?_⟩
                      · simp only [rrun, hro, hfr, hrun2, hset, hro2, hrun3]
                      · refine ⟨hinp3, subm_trans hsub2 hsub3,
                          fun x2 hx2 => hcomp3 x2 (hcomp2 x2 hx2), hInv3,
                          ?_, ?_, ?_⟩
                        · have h3 : r2.heap.length ≤ r3.heap.length := by
                            simpa using hlen3
                          omega
                        · intro x2 hx2
                          rcases hnew3 x2 hx2 with h1 | h2
                          · rcases hnew2 x2 h1 with h1a | h1b
                            · exact Or.inl h1a
                            · exact Or.inr (hcomp3 x2 h1b)
                          · exact Or.inr h2
                        · intro x2 hx2
                          rcases hnewc3 x2 hx2 with h1 | ⟨bx, hbx, hxle⟩
                          · rcases hnewc2 x2 h1 with h2 | ⟨bx, hbx, hxle⟩
                            · exact Or.inl h2
                            · exact Or.inr ⟨bx, hsub3 _ _ hbx, hxle⟩
                          · refine Or.inr ⟨bx, hbx, ?_⟩
                            have h4 : r2.heap.length ≤ bx := by simpa using hxle
                            omega
                      · intro bb hbb hbne
                        have h1 := hframe3 bb (by
                            have h0 : bb < r2.heap.length := by omega
                            simpa using h0) hbne
                        have h2 : (r2.heap.set b
                            (⟨ro.dyn, ro.flds.set i (.fPt sty2 res)⟩ : Obj)).get? bb =
                            r2.heap.get? bb :=
                          List.get?_set_ne _ _ (fun hc => hbne hc.symm)
                        exact h1.trans (h2.trans (hframe2 bb hbb))
                      · exact hobj3
                  | fInt x0 => simp [Fld.shape] at hshape
                  | fStr s0 => simp [Fld.shape] at hshape
                  | fVec l0 => simp [Fld.shape] at hshape
                  | fSh st0 v0 => simp [Fld.shape] at hshape

/-- The full forward simulation: whatever the writer emits at fuel `n`,
the reader at the same fuel parses exactly those tokens and reconstructs
the `phi`-image, for all three task kinds. -/
theorem simMain (c : Ctx) (H : Heap) (hwf : WFheap c H) (hreg : WFreg c H) :
    ∀ n : Nat, ShGoal c H n ∧ PtGoal c H n ∧ BodyGoal c H n := by
  intro n
  induction n with
  | zero =>
      refine ⟨?_, ?_, ?_⟩
      · intro sty v w w2 d r phi comp rest hw
        simp [wrun] at hw
      · intro sty v w w2 d r phi comp rest hw
        simp [wrun] at hw
      · intro a i b o ro w w2 d r phi comp rest hw
        simp [wrun] at hw
  | succ m ih =>
      exact ⟨shStep c H hreg m ih.2.1,
             ptStep c H hwf hreg m ih.2.2,
             bodyStep c H hwf hreg m ih.1 ih.2.1 ih.2.2⟩

/-! ## Whole-archive round trip -/

/-- The input-side transfer matching a given output-side root (the reader
calls the same `operator&` overloads in the same order on the
destination value). -/
def rtaskOf : WTask → RTask
  | .sh sty _ => .sh sty
  | .pt sty _ => .pt sty
  | .body a i => .body a i

/-- A legal user root: a shared or raw pointer transfer over a live
pointer (a `DoArchive` body is never a root on its own). -/
def rootOk (c : Ctx) (H : Heap) : WTask → Prop
  | .sh sty v => WFv c H sty v
  | .pt sty v => WFv c H sty v
  | .body _ _ => False

/-- The value the reader must store for a root, as the `φ`-transport of
the value the writer saved. -/
def rootVal (phi : List (Nat × Nat)) : WTask → Option (Option VPtr)
  | .sh _ v => mapOPtr phi v
  | .pt _ v => mapOPtr phi v
  | .body _ _ => none

/-- The empty correspondence: a fresh output archive against a fresh
input archive. -/
theorem SimInv.initial (c : Ctx) (H : Heap) (inp : List Tok) :
    SimInv c H [] [] WSt.init ⟨[], [], [], inp⟩ := by
  refine ⟨by simp, ?_, ?_, ?_, ?_, rfl, rfl, ?_, ?_⟩
  · intro p hp
    exact absurd hp (List.not_mem_nil p)
  · intro p hp
    exact absurd hp (List.not_mem_nil p)
  · intro a
    exact Iff.rfl
  · intro x hx
    exact absurd hx (List.not_mem_nil x)
  · intro k id h
    simp [WSt.init, alook] at h
  · intro k id h
    simp [WSt.init, alook] at h

/-- The root-list simulation: the reader replays a whole list of root
transfers over exactly the emitted tokens, producing the `φ`-transports
of the written root values. -/
theorem rootsSim (c : Ctx) (H : Heap) (hwf : WFheap c H) (hreg : WFreg c H)
    (n : Nat) :
    ∀ (ts : List WTask) (w w2 : WSt) (d : List Tok) (r : RSt)
      (phi : List (Nat × Nat)) (comp : List Nat) (rest : List Tok),
    wroots c H n ts w = .ok (w2, d) →
    SimInv c H phi comp w r →
    r.inp = d ++ rest →
    (∀ t ∈ ts, rootOk c H t) →
    ∃ phi2 comp2 r2 vs,
      rroots c n (ts.map rtaskOf) r = .ok (r2, vs) ∧
      PostCommon c H phi phi2 comp comp2 w2 r r2 rest ∧
      List.Forall₂ (fun t v => rootVal phi2 t = some v) ts vs := by
  intro ts
  induction ts with
  | nil =>
      intro w w2 d r phi comp rest hw hInv hinp hts
      simp only [wroots] at hw
      cases hw
      refine ⟨phi, comp, r, [], by simp [rroots], ?_, List.Forall₂.nil⟩
      exact ⟨by simpa using hinp, subm_refl phi, fun x hx => hx, hInv,
        le_refl _, fun x hx => Or.inl hx, fun x hx => Or.inl hx⟩
  | cons t ts ih =>
      intro w w2 d r phi comp rest hw hInv hinp hts
      simp only [wroots] at hw
      cases hwt : wrun c H n t w with
      | error e => rw [hwt] at hw; simp at hw
      | ok p1 =>
          obtain ⟨w1, d1⟩ := p1
          simp only [hwt] at hw
          cases hwts : wroots c H n ts w1 with
          | error e => rw [hwts] at hw; simp at hw
          | ok p2 =>
              obtain ⟨w2', d2⟩ := p2
              simp only [hwts] at hw
              cases hw
              have hok := hts t (List.mem_cons_self _ _)
              have hinp1 : r.inp = d1 ++ (d2 ++ rest) := by
                simpa [List.append_assoc] using hinp
              have hrest : ∀ t2 ∈ ts, rootOk c H t2 :=
                fun t2 ht2 => hts t2 (List.mem_cons_of_mem _ ht2)
              cases t with
              | body a i => exact absurd hok (by simp [rootOk])
              | sh sty v =>
                  obtain ⟨phi2, comp2, r2, res, hrun2, hpost2, hframe2,
                    hresn, hress⟩ :=
                    (simMain c H hwf hreg n).1 sty v w w1 d1 r phi comp
                      (d2 ++ rest) hwt hInv hinp1 hok
                  obtain ⟨hinp2', hsub2, hcomp2, hInv2, hlen2, hnew2,
                    hnewc2⟩ := hpost2
                  obtain ⟨phi3, comp3, r3, vs, hrunts, hpost3, hfor⟩ :=
                    ih w1 w2 d2 r2 phi2 comp2 rest hwts hInv2 hinp2' hrest
                  obtain ⟨hinp3, hsub3, hcomp3, hInv3, hlen3, hnew3,
                    hnewc3⟩ := hpost3
                  have hval : rootVal phi3 (.sh sty v) = some res := by
                    show mapOPtr phi3 v = some res
                    refine mapOPtr_mono hsub3 ?_
                    cases v with
                    | none =>
                        rw [hresn rfl]
                        rfl
                    | some pv =>
                        obtain ⟨b2, hb2v, hres⟩ := hress pv rfl
                        rw [hres]
                        simp [mapOPtr, mapPtr, hb2v]
                  refine ⟨phi3, comp3, r3, res :: vs, ?_, ?_,
                    List.Forall₂.cons hval hfor⟩
                  · simp only [List.map_cons, rtaskOf, rroots, hrun2, hrunts]
                  · refine ⟨hinp3, subm_trans hsub2 hsub3,
                      fun x hx => hcomp3 x (hcomp2 x hx), hInv3,
                      le_trans hlen2 hlen3, ?_, ?_⟩
                    · intro x hx
                      rcases hnew3 x hx with h1 | h2
                      · rcases hnew2 x h1 with h1a | h1b
                        · exact Or.inl h1a
                        · exact Or.inr (hcomp3 x h1b)
                      · exact Or.inr h2
                    · intro x hx
                      rcases hnewc3 x hx with h1 | ⟨bx, hbx, hxle⟩
                      · rcases hnewc2 x h1 with h2 | ⟨bx, hbx, hxle⟩
                        · exact Or.inl h2
                        · exact Or.inr ⟨bx, hsub3 _ _ hbx, hxle⟩
                      · exact Or.inr ⟨bx, hbx, le_trans hlen2 hxle⟩
              | pt sty v =>
                  obtain ⟨phi2, comp2, r2, res, hrun2, hpost2, hframe2,
                    hresn, hress⟩ :=
                    (simMain c H hwf hreg n).2.1 sty v w w1 d1 r phi comp
                      (d2 ++ rest) hwt hInv hinp1 hok
                  obtain ⟨hinp2', hsub2, hcomp2, hInv2, hlen2, hnew2,
                    hnewc2⟩ := hpost2
                  obtain ⟨phi3, comp3, r3, vs, hrunts, hpost3, hfor⟩ :=
                    ih w1 w2 d2 r2 phi2 comp2 rest hwts hInv2 hinp2' hrest
                  obtain ⟨hinp3, hsub3, hcomp3, hInv3, hlen3, hnew3,
                    hnewc3⟩ := hpost3
                  have hval : rootVal phi3 (.pt sty v) = some res := by
                    show mapOPtr phi3 v = some res
                    refine mapOPtr_mono hsub3 ?_
                    cases v with
                    | none =>
                        rw [hresn rfl]
                        rfl
                    | some pv =>
                        obtain ⟨b2, hb2v, hres⟩ := hress pv rfl
                        rw [hres]
                        simp [mapOPtr, mapPtr, hb2v]
                  refine ⟨phi3, comp3, r3, res :: vs, ?_, ?_,
                    List.Forall₂.cons hval hfor⟩
                  · simp only [List.map_cons, rtaskOf, rroots, hrun2, hrunts]
                  · refine ⟨hinp3, subm_trans hsub2 hsub3,
                      fun x hx => hcomp3 x (hcomp2 x hx), hInv3,
                      le_trans hlen2 hlen3, ?_, ?_⟩
                    · intro x hx
                      rcases hnew3 x hx with h1 | h2
                      · rcases hnew2 x h1 with h1a | h1b
                        · exact Or.inl h1a
                        · exact Or.inr (hcomp3 x h1b)
                      · exact Or.inr h2
                    · intro x hx
                      rcases hnewc3 x hx with h1 | ⟨bx, hbx, hxle⟩
                      · rcases hnewc2 x h1 with h2 | ⟨bx, hbx, hxle⟩
                        · exact Or.inl h2
                        · exact Or.inr ⟨bx, hsub3 _ _ hbx, hxle⟩
                      · exact Or.inr ⟨bx, hbx, le_trans hlen2 hxle⟩

/-- **C1.** For every value whose transitive reference graph contains only
registered (and hence reconstructible) polymorphic types — a heap `H`
well formed over `c` — writing its roots with an output archive and
reading them back with the matching input archive over the same token
stream yields an isomorphic value: the load succeeds and consumes the
stream, and there is an object correspondence `phi` under which (1) every
loaded root is the transport of the saved root, so references equal
before saving are equal after loading, (2) `phi` is injective, so
references distinct before saving stay distinct, and (3) every saved
object's image has the same dynamic type, equal primitive and container
members, and `phi`-transported references. -/
theorem roundtrip_iso (c : Ctx) (H : Heap)
    (table : List (String × VersionInfo)) (n : Nat) (roots : List WTask)
    (stream : List Tok)
    (hwf : WFheap c H) (hreg : WFreg c H)
    (hnd : (table.map Prod.fst).Nodup)
    (hroots : ∀ t ∈ roots, rootOk c H t)
    (hsave : saveAll c H table n roots = .ok stream) :
    ∃ (r2 : RSt) (vs : List (Option VPtr)) (phi : List (Nat × Nat)),
      loadAll c n (roots.map rtaskOf) stream = .ok (r2, table, vs) ∧
      List.Forall₂ (fun t v => rootVal phi t = some v) roots vs ∧
      (∀ a1 a2 bv, mget phi a1 = some bv → mget phi a2 = some bv →
        a1 = a2) ∧
      (∀ a bv, mget phi a = some bv → ∃ o ro, H.get? a = some o ∧
        r2.heap.get? bv = some ro ∧ ro.dyn = o.dyn ∧
        List.Forall₂ (fun f rf => mapFld phi f = some rf) o.flds ro.flds) := by
  unfold saveAll at hsave
  cases hwr : wroots c H n roots WSt.init with
  | error e => rw [hwr] at hsave; cases hsave
  | ok p =>
      obtain ⟨wf, d⟩ := p
      rw [hwr] at hsave
      cases hsave
      have hver : rdVerMap (⟨[], [], [], serVerMap table ++ d⟩ : RSt) =
          .ok (⟨[], [], [], d⟩, table) := by
        unfold rdVerMap
        rw [show rdNat (⟨[], [], [], serVerMap table ++ d⟩ : RSt) =
              .ok (⟨[], [], [], entryToks table ++ d⟩, table.length) by
            simp [rdNat, serVerMap, entryToks]]
        have h := rdVerEntries_ser table []
          (⟨[], [], [], entryToks table ++ d⟩ : RSt) d rfl (by simpa using hnd)
        simpa using h
      obtain ⟨phi2, comp2, r2, vs, hrunts, hpost, hfor⟩ :=
        rootsSim c H hwf hreg n roots WSt.init wf d
          (⟨[], [], [], d⟩ : RSt) [] [] [] hwr
          (SimInv.initial c H d) (by simp) hroots
      obtain ⟨hinp2, hsub2, hcomp2, hInv2, hlen2, hnew2, hnewc2⟩ := hpost
      refine ⟨r2, vs, phi2, ?_, hfor, ?_, ?_⟩
      · unfold loadAll
        rw [hver]
        simp only [hrunts]
      · intro a1 a2 bv h1 h2
        exact mget_inj hInv2.valNd h1 h2
      · intro a bv hab
        have hacomp : a ∈ comp2 := by
          rcases hnew2 a (by rw [hab]; rfl) with h1 | h2
          · simp [mget] at h1
          · exact h2
        obtain ⟨b3, o, ro, hb3, ho, hro, hmap⟩ := hInv2.compMapped a hacomp
        rw [hab] at hb3
        cases hb3
        obtain ⟨o2, ro2, ho2, hro2, hd2, hs2⟩ :=
          hInv2.dynEq (a, bv) (mget_mem hab)
        have ho2' : H.get? a = some o2 := ho2
        have hro2' : r2.heap.get? bv = some ro2 := hro2
        rw [ho] at ho2'
        cases ho2'
        rw [hro] at hro2'
        cases hro2'
        exact ⟨o, ro, ho, hro, hd2, hmap⟩

/-- Witness for the round-trip isomorphism: saving the registered
self-referential `Node` through a `shared_ptr` root succeeds at fuel 5,
and the theorem then yields the loaded image with all the isomorphism
conclusions. -/
theorem roundtrip_iso_w :
    saveAll nodeCtx nodeHeap [("netgen", ⟨"6.2"⟩)] 5
        [.sh "Node" (some (0, 0))] =
      .ok [.tn 1, .ts "netgen", .ts "6.2", .ti (-1), .tb false, .ti (-1),
           .ti (-1), .tb false, .ti 0, .tb false, .ts "Node"] ∧
    ∃ (r2 : RSt) (vs : List (Option VPtr)) (phi : List (Nat × Nat)),
      loadAll nodeCtx 5 ([WTask.sh "Node" (some (0, 0))].map rtaskOf)
          [.tn 1, .ts "netgen", .ts "6.2", .ti (-1), .tb false, .ti (-1),
           .ti (-1), .tb false, .ti 0, .tb false, .ts "Node"] =
        .ok (r2, [("netgen", ⟨"6.2"⟩)], vs) ∧
      List.Forall₂ (fun t v => rootVal phi t = some v)
        [WTask.sh "Node" (some (0, 0))] vs ∧
      (∀ a1 a2 bv, mget phi a1 = some bv → mget phi a2 = some bv →
        a1 = a2) ∧
      (∀ a bv, mget phi a = some bv → ∃ o ro, nodeHeap.get? a = some o ∧
        r2.heap.get? bv = some ro ∧ ro.dyn = o.dyn ∧
        List.Forall₂ (fun f rf => mapFld phi f = some rf) o.flds ro.flds) :=
  ⟨by decide,
   roundtrip_iso nodeCtx nodeHeap [("netgen", ⟨"6.2"⟩)] 5
     [.sh "Node" (some (0, 0))]
     [.tn 1, .ts "netgen", .ts "6.2", .ti (-1), .tb false, .ti (-1),
      .ti (-1), .tb false, .ti 0, .tb false, .ts "Node"]
     (by
       intro o ho
       simp only [nodeHeap, List.mem_singleton] at ho
       subst ho
       refine ⟨rfl, ?_⟩
       intro f hf
       simp only [List.mem_singleton] at hf
       subst hf
       exact ⟨⟨"Node", [.fSh "Node" (some (0, 0))]⟩, rfl, rfl⟩)
     (by
       intro o ho
       simp only [nodeHeap, List.mem_singleton] at ho
       subst ho
       exact ⟨by decide, rfl⟩)
     (by decide)
     (by
       intro t ht
       simp only [List.mem_singleton] at ht
       subst ht
       exact ⟨⟨"Node", [.fSh "Node" (some (0, 0))]⟩, rfl, rfl⟩)
     (by decide)⟩

/-! ## Termination of the writer

The recursion of `operator&` on pointers bottoms out because every
recursive descent into a referent body first records the referent in
`ptr2nr` (archive.hpp line 349), so the number of still-unrecorded heap
objects strictly decreases; within one body the remaining field count
decreases.  We express this as: some fuel suffices. -/

/-- Success of the fuel-indexed writer is monotone in the fuel. -/
theorem wrun_mono (c : Ctx) (H : Heap) :
    ∀ n : Nat, ∀ t w res, wrun c H n t w = .ok res →
    ∀ n2, n ≤ n2 → wrun c H n2 t w = .ok res := by
  intro n
  induction n with
  | zero =>
      intro t w res hw
      simp [wrun] at hw
  | succ m ih =>
      intro t w res hw n2 hn2
      obtain ⟨m2, rfl⟩ : ∃ m2, n2 = m2 + 1 := ⟨n2 - 1, by omega⟩
      have hm : m ≤ m2 := by omega
      cases t with
      | sh sty v =>
          cases v with
          | none =>
              simp only [wrun] at hw ⊢
              exact hw
          | some pv =>
              simp only [wrun] at hw ⊢
              cases hH : H.get? pv.1 with
              | none => simp only [hH] at hw; cases hw
              | some o =>
                  simp only [hH] at hw ⊢
                  cases hn : wnormSh c o.dyn sty pv with
                  | error e => simp only [hn] at hw; cases hw
                  | ok pr =>
                      obtain ⟨regp, needed⟩ := pr
                      simp only [hn] at hw ⊢
                      cases hl : alook w.sharedMap regp with
                      | some id =>
                          simp only [hl] at hw ⊢
                          exact hw
                      | none =>
                          simp only [hl] at hw ⊢
                          cases hp : wrun c H m (.pt sty (some pv)) w with
                          | error e => simp only [hp] at hw; cases hw
                          | ok p1 =>
                              simp only [hp] at hw
                              simp only [ih _ _ _ hp m2 hm]
                              exact hw
      | pt sty v =>
          cases v with
          | none =>
              simp only [wrun] at hw ⊢
              exact hw
          | some pv =>
              simp only [wrun] at hw ⊢
              cases hH : H.get? pv.1 with
              | none => simp only [hH] at hw; cases hw
              | some o =>
                  simp only [hH] at hw ⊢
                  cases hn : wnormPt c o.dyn sty pv with
                  | error e => simp only [hn] at hw; cases hw
                  | ok regp =>
                      simp only [hn] at hw ⊢
                      cases hl : alook w.ptrMap regp with
                      | some id =>
                          simp only [hl] at hw ⊢
                          exact hw
                      | none =>
                          simp only [hl] at hw ⊢
                          by_cases hd : o.dyn = sty
                          · rw [if_pos hd] at hw ⊢
                            cases hc : (c.tenv sty).constructible with
                            | false =>
                                rw [hc] at hw
                                simp only [Bool.false_eq_true, if_false] at hw
                                cases hw
                            | true =>
                                rw [hc, if_pos rfl] at hw
                                rw [if_pos rfl]
                                cases hb : wrun c H m (.body pv.1 0)
                                    { w with
                                        ptrMap := aset w.ptrMap regp w.ptrCount,
                                        ptrCount := w.ptrCount + 1 } with
                                | error e => simp only [hb] at hw; cases hw
                                | ok p1 =>
                                    simp only [hb] at hw
                                    simp only [ih _ _ _ hb m2 hm]
                                    exact hw
                          · rw [if_neg hd] at hw ⊢
                            by_cases hr : o.dyn ∈ c.reg
                            · rw [if_pos hr] at hw ⊢
                              cases hb : wrun c H m (.body pv.1 0)
                                  { w with
                                      ptrMap := aset w.ptrMap regp w.ptrCount,
                                      ptrCount := w.ptrCount + 1 } with
                              | error e => simp only [hb] at hw; cases hw
                              | ok p1 =>
                                  simp only [hb] at hw
                                  simp only [ih _ _ _ hb m2 hm]
                                  exact hw
                            · rw [if_neg hr] at hw
                              cases hw
      | body a i =>
          simp only [wrun] at hw ⊢
          cases hH : H.get? a with
          | none => simp only [hH] at hw; cases hw
          | some o =>
              simp only [hH] at hw ⊢
              cases hf : o.flds.get? i with
              | none =>
                  simp only [hf] at hw ⊢
                  exact hw
              | some f =>
                  simp only [hf] at hw ⊢
                  cases f with
                  | fInt x =>
                      cases hb : wrun c H m (.body a (i + 1)) w with
                      | error e => simp only [hb] at hw; cases hw
                      | ok p1 =>
                          simp only [hb] at hw
                          simp only [ih _ _ _ hb m2 hm]
                          exact hw
                  | fStr s =>
                      cases hb : wrun c H m (.body a (i + 1)) w with
                      | error e => simp only [hb] at hw; cases hw
                      | ok p1 =>
                          simp only [hb] at hw
                          simp only [ih _ _ _ hb m2 hm]
                          exact hw
                  | fVec l =>
                      cases hb : wrun c H m (.body a (i + 1)) w with
                      | error e => simp only [hb] at hw; cases hw
                      | ok p1 =>
                          simp only [hb] at hw
                          simp only [ih _ _ _ hb m2 hm]
                          exact hw
                  | fSh sty2 v2 =>
                      cases hs : wrun c H m (.sh sty2 v2) w with
                      | error e => simp only [hs] at hw; cases hw
                      | ok p1 =>
                          obtain ⟨w1, d1⟩ := p1
                          simp only [hs] at hw
                          simp only [ih _ _ _ hs m2 hm]
                          cases hb : wrun c H m (.body a (i + 1)) w1 with
                          | error e => simp only [hb] at hw; cases hw
                          | ok p2 =>
                              simp only [hb] at hw
                              simp only [ih _ _ _ hb m2 hm]
                              exact hw
                  | fPt sty2 v2 =>
                      cases hs : wrun c H m (.pt sty2 v2) w with
                      | error e => simp only [hs] at hw; cases hw
                      | ok p1 =>
                          obtain ⟨w1, d1⟩ := p1
                          simp only [hs] at hw
                          simp only [ih _ _ _ hs m2 hm]
                          cases hb : wrun c H m (.body a (i + 1)) w1 with
                          | error e => simp only [hb] at hw; cases hw
                          | ok p2 =>
                              simp only [hb] at hw
                              simp only [ih _ _ _ hb m2 hm]
                              exact hw

/-- `pm2` extends `pm` as `ptr2nr` tables. -/
def PSub (pm pm2 : List (VPtr × Nat)) : Prop :=
  ∀ k id, alook pm k = some id → alook pm2 k = some id

theorem psub_refl (pm : List (VPtr × Nat)) : PSub pm pm := fun _ _ h => h

theorem psub_trans {p1 p2 p3 : List (VPtr × Nat)} (h1 : PSub p1 p2)
    (h2 : PSub p2 p3) : PSub p1 p3 := fun k id h => h2 k id (h1 k id h)

theorem psub_aset {pm : List (VPtr × Nat)} {k : VPtr}
    (hk : alook pm k = none) (id : Nat) : PSub pm (aset pm k id) := by
  intro k2 id2 h
  by_cases hne : k2 = k
  · rw [hne, hk] at h
    cases h
  · rw [alook_aset_ne _ _ _ _ hne]
    exact h

/-- The number of heap objects not yet recorded in the raw-pointer
table. -/
def unrec (H : Heap) (pm : List (VPtr × Nat)) : Nat :=
  (List.range H.length).countP fun a => decide (alook pm (a, 0) = none)

/-- A strict count decrease: one element of the list flips from counted
to uncounted while the predicate shrinks pointwise. -/
theorem countP_flip_lt {α : Type} (p q : α → Bool) :
    ∀ (l : List α) (a : α), a ∈ l → p a = true → q a = false →
    (∀ x, q x = true → p x = true) →
    l.countP q < l.countP p := by
  intro l
  induction l with
  | nil => intro a ha; cases ha
  | cons b t ih =>
      intro a ha hpa hqa himp
      rw [List.countP_cons, List.countP_cons]
      rcases List.mem_cons.mp ha with hb | hat
      · subst hb
        have hle : t.countP q ≤ t.countP p :=
          List.countP_mono_left (fun x _ hx => himp x hx)
        simp only [hpa, hqa]
        simp
        omega
      · have hq : t.countP q < t.countP p := ih a hat hpa hqa himp
        have h1 : (if q b = true then 1 else 0) ≤
            (if p b = true then 1 else 0) := by
          by_cases hqb : q b = true
          · rw [if_pos hqb, if_pos (himp b hqb)]
          · rw [if_neg hqb]
            exact Nat.zero_le _
        omega

theorem unrec_mono {H : Heap} {pm pm2 : List (VPtr × Nat)}
    (h : PSub pm pm2) : unrec H pm2 ≤ unrec H pm := by
  apply List.countP_mono_left
  intro a _ ha
  simp only [decide_eq_true_eq] at ha ⊢
  cases hl : alook pm (a, 0) with
  | none => rfl
  | some id =>
      rw [h _ _ hl] at ha
      cases ha

theorem unrec_record {H : Heap} {pm : List (VPtr × Nat)} {a : Nat}
    (hlt : a < H.length) (hnone : alook pm (a, 0) = none) (id : Nat) :
    unrec H (aset pm (a, 0) id) < unrec H pm := by
  apply countP_flip_lt _ _ _ a (List.mem_range.mpr hlt)
  · simp [hnone]
  · simp [alook_aset_self]
  · intro x hx
    simp only [decide_eq_true_eq] at hx ⊢
    by_cases hxk : ((x, 0) : VPtr) = (a, 0)
    · rw [hxk, alook_aset_self] at hx
      cases hx
    · rw [alook_aset_ne _ _ _ _ hxk] at hx
      exact hx

/-- Raw-pointer writes terminate, given that bodies of freshly recorded
referents terminate with one fewer unrecorded object (archive.hpp line
349 records before descending). -/
theorem ptTotal (c : Ctx) (H : Heap) (hreg : WFreg c H) (u : Nat)
    (Bp : ∀ (w : WSt) (a i : Nat) (o : Obj), H.get? a = some o →
      unrec H w.ptrMap + 1 ≤ u →
      ∃ n w2 d, wrun c H n (.body a i) w = .ok (w2, d) ∧
        PSub w.ptrMap w2.ptrMap) :
    ∀ (w : WSt) (sty : String) (v : Option VPtr), WFv c H sty v →
      unrec H w.ptrMap ≤ u →
      ∃ n w2 d, wrun c H n (.pt sty v) w = .ok (w2, d) ∧
        PSub w.ptrMap w2.ptrMap := by
  intro w sty v hv hu
  cases v with
  | none => exact ⟨1, w, [.ti (-2)], by simp only [wrun], psub_refl _⟩
  | some pv =>
      obtain ⟨o, ho, hoff⟩ := hv
      have hom : o ∈ H := List.get?_mem ho
      have hdynreg : o.dyn ∈ c.reg := (hreg o hom).1
      have hdyncon : (c.tenv o.dyn).constructible = true := (hreg o hom).2
      have hnorm := wnormPt_char ho ⟨o, ho, hoff⟩ hdynreg
      cases hl : alook w.ptrMap (pv.1, 0) with
      | some id =>
          exact ⟨1, w,
            [.ti ((id : Int)), .tb (decide ((pv.1, 0) ≠ pv)), .ts o.dyn],
            by simp only [wrun, ho, hnorm, hl], psub_refl _⟩
      | none =>
          have hlt : pv.1 < H.length := by
            by_contra hc
            rw [List.get?_eq_none.mpr (by omega)] at ho
            cases ho
          have hps0 : PSub w.ptrMap (aset w.ptrMap (pv.1, 0) w.ptrCount) :=
            psub_aset hl _
          have hdec := unrec_record hlt hl w.ptrCount
          have hu1 : unrec H (aset w.ptrMap (pv.1, 0) w.ptrCount) + 1 ≤ u := by
            omega
          obtain ⟨n, w2, d, hb, hps⟩ :=
            Bp { w with ptrMap := aset w.ptrMap (pv.1, 0) w.ptrCount,
                        ptrCount := w.ptrCount + 1 } pv.1 0 o ho hu1
          by_cases hd : o.dyn = sty
          · refine ⟨n + 1, w2, .ti (-1) :: d, ?_, psub_trans hps0 hps⟩
            have hcon : (c.tenv sty).constructible = true := by
              rw [← hd]
              exact hdyncon
            simp only [wrun, ho, hnorm, hl]
            rw [if_pos hd, hcon, if_pos rfl]
            simp only [hb]
          · refine ⟨n + 1, w2, .ti (-3) :: .ts o.dyn :: d, ?_,
              psub_trans hps0 hps⟩
            simp only [wrun, ho, hnorm, hl]
            rw [if_neg hd, if_pos hdynreg]
            simp only [hb]

/-- Shared-pointer writes terminate, given raw-pointer totality at the
same bound (the shared path delegates the body to the raw path). -/
theorem shTotal (c : Ctx) (H : Heap) (hreg : WFreg c H) (u : Nat)
    (P : ∀ (w : WSt) (sty : String) (v : Option VPtr), WFv c H sty v →
      unrec H w.ptrMap ≤ u →
      ∃ n w2 d, wrun c H n (.pt sty v) w = .ok (w2, d) ∧
        PSub w.ptrMap w2.ptrMap) :
    ∀ (w : WSt) (sty : String) (v : Option VPtr), WFv c H sty v →
      unrec H w.ptrMap ≤ u →
      ∃ n w2 d, wrun c H n (.sh sty v) w = .ok (w2, d) ∧
        PSub w.ptrMap w2.ptrMap := by
  intro w sty v hv hu
  cases v with
  | none => exact ⟨1, w, [.ti (-2)], by simp only [wrun], psub_refl _⟩
  | some pv =>
      obtain ⟨o, ho, hoff⟩ := hv
      have hom : o ∈ H := List.get?_mem ho
      have hdynreg : o.dyn ∈ c.reg := (hreg o hom).1
      have hnorm := wnormSh_char ho ⟨o, ho, hoff⟩ hdynreg
      cases hl : alook w.sharedMap (pv.1, 0) with
      | some id =>
          exact ⟨1, w,
            [.ti ((id : Int)), .tb (decide (pv.2 ≠ 0))] ++
              (if decide (pv.2 ≠ 0) then [.ts o.dyn] else []),
            by simp only [wrun, ho, hnorm, hl], psub_refl _⟩
      | none =>
          obtain ⟨n, w1, d, hp, hps⟩ := P w sty (some pv) ⟨o, ho, hoff⟩ hu
          refine ⟨n + 1,
            { w1 with sharedMap := aset w1.sharedMap (pv.1, 0) w1.sharedCount,
                      sharedCount := w1.sharedCount + 1 },
            [.ti (-1), .tb (decide (pv.2 ≠ 0))] ++ d ++
              (if decide (pv.2 ≠ 0) then [.ts o.dyn] else []),
            ?_, hps⟩
          simp only [wrun, ho, hnorm, hl, hp]

/-- Body writes terminate, given pointer totality at the same bound: the
field index increases toward the field count. -/
theorem bodyTotal (c : Ctx) (H : Heap) (hwf : WFheap c H) (u : Nat)
    (P : ∀ (w : WSt) (sty : String) (v : Option VPtr), WFv c H sty v →
      unrec H w.ptrMap ≤ u →
      ∃ n w2 d, wrun c H n (.pt sty v) w = .ok (w2, d) ∧
        PSub w.ptrMap w2.ptrMap)
    (S : ∀ (w : WSt) (sty : String) (v : Option VPtr), WFv c H sty v →
      unrec H w.ptrMap ≤ u →
      ∃ n w2 d, wrun c H n (.sh sty v) w = .ok (w2, d) ∧
        PSub w.ptrMap w2.ptrMap) :
    ∀ (k : Nat) (w : WSt) (a i : Nat) (o : Obj), H.get? a = some o →
      o.flds.length ≤ i + k → unrec H w.ptrMap ≤ u →
      ∃ n w2 d, wrun c H n (.body a i) w = .ok (w2, d) ∧
        PSub w.ptrMap w2.ptrMap := by
  intro k
  induction k with
  | zero =>
      intro w a i o ho hk hu
      have hf : o.flds.get? i = none := List.get?_eq_none.mpr (by omega)
      exact ⟨1, w, [], by simp only [wrun, ho, hf], psub_refl _⟩
  | succ k ihk =>
      intro w a i o ho hk hu
      cases hf : o.flds.get? i with
      | none => exact ⟨1, w, [], by simp only [wrun, ho, hf], psub_refl _⟩
      | some f =>
          have hfmem : f ∈ o.flds := List.get?_mem hf
          have hflen : i < o.flds.length := by
            by_contra hc
            rw [List.get?_eq_none.mpr (by omega)] at hf
            cases hf
          cases f with
          | fInt x =>
              obtain ⟨n, w2, d, hb, hps⟩ := ihk w a (i + 1) o ho (by omega) hu
              exact ⟨n + 1, w2, [.ti x] ++ d,
                by simp only [wrun, ho, hf, hb], hps⟩
          | fStr s =>
              obtain ⟨n, w2, d, hb, hps⟩ := ihk w a (i + 1) o ho (by omega) hu
              exact ⟨n + 1, w2, [.ts s] ++ d,
                by simp only [wrun, ho, hf, hb], hps⟩
          | fVec l =>
              obtain ⟨n, w2, d, hb, hps⟩ := ihk w a (i + 1) o ho (by omega) hu
              exact ⟨n + 1, w2, (.tn l.length :: l.map Tok.ti) ++ d,
                by simp only [wrun, ho, hf, hb], hps⟩
          | fSh sty2 v2 =>
              have hwfv : WFv c H sty2 v2 :=
                (hwf o (List.get?_mem ho)).2 _ hfmem
              obtain ⟨n1, w1, d1, hs, hps1⟩ := S w sty2 v2 hwfv hu
              have hu1 : unrec H w1.ptrMap ≤ u :=
                le_trans (unrec_mono hps1) hu
              obtain ⟨n2, w2, d2, hb, hps2⟩ :=
                ihk w1 a (i + 1) o ho (by omega) hu1
              refine ⟨max n1 n2 + 1, w2, d1 ++ d2, ?_,
                psub_trans hps1 hps2⟩
              have hs' := wrun_mono c H n1 _ _ _ hs (max n1 n2)
                (le_max_left _ _)
              have hb' := wrun_mono c H n2 _ _ _ hb (max n1 n2)
                (le_max_right _ _)
              simp only [wrun, ho, hf, hs', hb']
          | fPt sty2 v2 =>
              have hwfv : WFv c H sty2 v2 :=
                (hwf o (List.get?_mem ho)).2 _ hfmem
              obtain ⟨n1, w1, d1, hs, hps1⟩ := P w sty2 v2 hwfv hu
              have hu1 : unrec H w1.ptrMap ≤ u :=
                le_trans (unrec_mono hps1) hu
              obtain ⟨n2, w2, d2, hb, hps2⟩ :=
                ihk w1 a (i + 1) o ho (by omega) hu1
              refine ⟨max n1 n2 + 1, w2, d1 ++ d2, ?_,
                psub_trans hps1 hps2⟩
              have hs' := wrun_mono c H n1 _ _ _ hs (max n1 n2)
                (le_max_left _ _)
              have hb' := wrun_mono c H n2 _ _ _ hb (max n1 n2)
                (le_max_right _ _)
              simp only [wrun, ho, hf, hs', hb']

/-- Totality of the writer: over a well-formed fully registered heap,
every pointer or body transfer succeeds at some fuel, and the raw-pointer
table only grows.  The induction is on the number of unrecorded heap
objects. -/
theorem wtotal (c : Ctx) (H : Heap) (hwf : WFheap c H) (hreg : WFreg c H) :
    ∀ u : Nat,
    (∀ (w : WSt) (sty : String) (v : Option VPtr), WFv c H sty v →
      unrec H w.ptrMap ≤ u →
      ∃ n w2 d, wrun c H n (.pt sty v) w = .ok (w2, d) ∧
        PSub w.ptrMap w2.ptrMap) ∧
    (∀ (w : WSt) (sty : String) (v : Option VPtr), WFv c H sty v →
      unrec H w.ptrMap ≤ u →
      ∃ n w2 d, wrun c H n (.sh sty v) w = .ok (w2, d) ∧
        PSub w.ptrMap w2.ptrMap) ∧
    (∀ (w : WSt) (a i : Nat) (o : Obj), H.get? a = some o →
      unrec H w.ptrMap ≤ u →
      ∃ n w2 d, wrun c H n (.body a i) w = .ok (w2, d) ∧
        PSub w.ptrMap w2.ptrMap) := by
  intro u
  induction u with
  | zero =>
      have P0 := ptTotal c H hreg 0 (by
        intro w a i o ho hu
        exfalso
        omega)
      have S0 := shTotal c H hreg 0 P0
      exact ⟨P0, S0, fun w a i o ho hu =>
        bodyTotal c H hwf 0 P0 S0 o.flds.length w a i o ho (by omega) hu⟩
  | succ u ihu =>
      have Pn := ptTotal c H hreg (u + 1) (fun w a i o ho hu1 =>
        ihu.2.2 w a i o ho (by omega))
      have Sn := shTotal c H hreg (u + 1) Pn
      exact ⟨Pn, Sn, fun w a i o ho hu =>
        bodyTotal c H hwf (u + 1) Pn Sn o.flds.length w a i o ho
          (by omega) hu⟩

/-- Success of the fuel-indexed root-list writer is monotone in the
fuel. -/
theorem wroots_mono (c : Ctx) (H : Heap) :
    ∀ (ts : List WTask) (n : Nat) (w : WSt) (res : WSt × List Tok),
    wroots c H n ts w = .ok res →
    ∀ n2, n ≤ n2 → wroots c H n2 ts w = .ok res := by
  intro ts
  induction ts with
  | nil =>
      intro n w res hw n2 hn2
      simp only [wroots] at hw ⊢
      exact hw
  | cons t ts ih =>
      intro n w res hw n2 hn2
      simp only [wroots] at hw ⊢
      cases h1 : wrun c H n t w with
      | error e => simp only [h1] at hw; cases hw
      | ok p1 =>
          obtain ⟨w1, d1⟩ := p1
          simp only [h1] at hw
          simp only [wrun_mono c H n _ _ _ h1 n2 hn2]
          cases h2 : wroots c H n ts w1 with
          | error e => simp only [h2] at hw; cases hw
          | ok p2 =>
              simp only [h2] at hw
              simp only [ih n w1 _ h2 n2 hn2]
              exact hw

/-- Totality of a whole save: some fuel makes every root list of live
pointers succeed. -/
theorem wrootsTotal (c : Ctx) (H : Heap) (hwf : WFheap c H)
    (hreg : WFreg c H) :
    ∀ (ts : List WTask) (w : WSt), (∀ t ∈ ts, rootOk c H t) →
    ∃ n w2 d, wroots c H n ts w = .ok (w2, d) := by
  intro ts
  induction ts with
  | nil =>
      intro w _
      exact ⟨1, w, [], rfl⟩
  | cons t ts ih =>
      intro w hts
      have hok := hts t (List.mem_cons_self _ _)
      have hone : ∃ n w1 d1, wrun c H n t w = .ok (w1, d1) := by
        cases t with
        | body a i => exact absurd hok (by simp [rootOk])
        | sh sty v =>
            obtain ⟨n, w1, d1, h, _⟩ :=
              (wtotal c H hwf hreg (unrec H w.ptrMap)).2.1 w sty v hok
                (le_refl _)
            exact ⟨n, w1, d1, h⟩
        | pt sty v =>
            obtain ⟨n, w1, d1, h, _⟩ :=
              (wtotal c H hwf hreg (unrec H w.ptrMap)).1 w sty v hok
                (le_refl _)
            exact ⟨n, w1, d1, h⟩
      obtain ⟨n1, w1, d1, h1⟩ := hone
      obtain ⟨n2, w2, d2, h2⟩ :=
        ih w1 (fun t2 ht2 => hts t2 (List.mem_cons_of_mem _ ht2))
      refine ⟨max n1 n2, w2, d1 ++ d2, ?_⟩
      have h1' := wrun_mono c H n1 _ _ _ h1 (max n1 n2) (le_max_left _ _)
      have h2' := wroots_mono c H ts n2 w1 _ h2 (max n1 n2)
        (le_max_right _ _)
      simp only [wroots, h1', h2']

/-- Indexwise access through a `Forall₂`. -/
theorem forall2_get {α β : Type} {R : α → β → Prop} :
    ∀ {l1 : List α} {l2 : List β}, List.Forall₂ R l1 l2 →
    ∀ {j : Nat} {x : α}, l1.get? j = some x →
    ∃ y, l2.get? j = some y ∧ R x y := by
  intro l1
  induction l1 with
  | nil =>
      intro l2 h j x hx
      cases hx
  | cons a t ih =>
      intro l2 h j x hx
      cases h with
      | cons hab ht =>
          cases j with
          | zero =>
              rw [List.get?_cons_zero] at hx
              cases hx
              exact ⟨_, rfl, hab⟩
          | succ j =>
              rw [List.get?_cons_succ] at hx
              exact ih ht hx

/-- **C3.** Over a fully registered well-formed heap — in particular any
cyclic object graph reachable through shared references — saving a
shared root terminates (some fuel suffices, because the writer records
each referent in the identity table before recursing into its body, so
the cycle is cut into a back-reference), loading the produced stream
terminates, and the loaded graph has the same cycle structure: every
shared edge is transported along the object correspondence `phi`, so a
node whose successor shared pointer pointed back at itself loads as a
node whose successor is the loaded node itself. -/
theorem cyclic_roundtrip (c : Ctx) (H : Heap)
    (table : List (String × VersionInfo))
    (hwf : WFheap c H) (hreg : WFreg c H)
    (hnd : (table.map Prod.fst).Nodup)
    (sty : String) (pv : VPtr) (hv : PtrOk c H sty pv) :
    ∃ (n : Nat) (stream : List Tok) (r2 : RSt) (vs : List (Option VPtr))
      (phi : List (Nat × Nat)) (b : Nat),
      saveAll c H table n [.sh sty (some pv)] = .ok stream ∧
      loadAll c n [.sh sty] stream = .ok (r2, table, vs) ∧
      mget phi pv.1 = some b ∧ vs = [some (b, pv.2)] ∧
      (∀ a b2, mget phi a = some b2 →
        ∃ o ro, H.get? a = some o ∧ r2.heap.get? b2 = some ro ∧
          ro.dyn = o.dyn ∧
          (∀ j sty2 a2 k2,
            o.flds.get? j = some (.fSh sty2 (some (a2, k2))) →
            ∃ b3, mget phi a2 = some b3 ∧
              ro.flds.get? j = some (.fSh sty2 (some (b3, k2))))) := by
  obtain ⟨n, wf, d, hwr⟩ := wrootsTotal c H hwf hreg
    [.sh sty (some pv)] WSt.init (by
      intro t ht
      simp only [List.mem_singleton] at ht
      subst ht
      exact hv)
  have hver : rdVerMap (⟨[], [], [], serVerMap table ++ d⟩ : RSt) =
      .ok (⟨[], [], [], d⟩, table) := by
    unfold rdVerMap
    rw [show rdNat (⟨[], [], [], serVerMap table ++ d⟩ : RSt) =
          .ok (⟨[], [], [], entryToks table ++ d⟩, table.length) by
        simp [rdNat, serVerMap, entryToks]]
    have h := rdVerEntries_ser table []
      (⟨[], [], [], entryToks table ++ d⟩ : RSt) d rfl (by simpa using hnd)
    simpa using h
  obtain ⟨phi2, comp2, r2, vs, hrunts, hpost, hfor⟩ :=
    rootsSim c H hwf hreg n [.sh sty (some pv)] WSt.init wf d
      (⟨[], [], [], d⟩ : RSt) [] [] [] hwr
      (SimInv.initial c H d) (by simp) (by
        intro t ht
        simp only [List.mem_singleton] at ht
        subst ht
        exact hv)
  obtain ⟨hinp2, hsub2, hcomp2, hInv2, hlen2, hnew2, hnewc2⟩ := hpost
  cases hfor with
  | cons hval hnilf =>
      rename_i v0 vs0
      have hvs0 : vs0 = [] := List.forall₂_nil_left_iff.mp hnilf
      subst hvs0
      have hval2 : mapOPtr phi2 (some pv) = some v0 := hval
      cases hg : mget phi2 pv.1 with
      | none =>
          rw [show mapOPtr phi2 (some pv) = none by
              simp [mapOPtr, mapPtr, hg]] at hval2
          cases hval2
      | some b =>
          have hv0 : v0 = some (b, pv.2) := by
            rw [show mapOPtr phi2 (some pv) = some (some (b, pv.2)) by
                simp [mapOPtr, mapPtr, hg]] at hval2
            exact (Option.some.inj hval2).symm
          subst hv0
          refine ⟨n, serVerMap table ++ d, r2, [some (b, pv.2)], phi2, b,
            ?_, ?_, hg, rfl, ?_⟩
          · unfold saveAll
            rw [hwr]
          · unfold loadAll
            rw [hver]
            have hrunts2 : rroots c n [RTask.sh sty]
                (⟨[], [], [], d⟩ : RSt) = .ok (r2, [some (b, pv.2)]) := by
              simpa [rtaskOf] using hrunts
            simp only [hrunts2]
          · intro a b2 hab
            have hacomp : a ∈ comp2 := by
              rcases hnew2 a (by rw [hab]; rfl) with h1 | h2
              · simp [mget] at h1
              · exact h2
            obtain ⟨b3, o, ro, hb3, ho, hro, hmap⟩ :=
              hInv2.compMapped a hacomp
            rw [hab] at hb3
            cases hb3
            obtain ⟨o2, ro2, ho2, hro2, hd2, hs2⟩ :=
              hInv2.dynEq (a, b2) (mget_mem hab)
            have ho2' : H.get? a = some o2 := ho2
            have hro2' : r2.heap.get? b2 = some ro2 := hro2
            rw [ho] at ho2'
            cases ho2'
            rw [hro] at hro2'
            cases hro2'
            refine ⟨o, ro, ho, hro, hd2, ?_⟩
            intro j sty2 a2 k2 hj
            obtain ⟨rf, hrf, hmapf⟩ := forall2_get hmap hj
            cases hga : mget phi2 a2 with
            | none =>
                rw [show mapFld phi2 (Fld.fSh sty2 (some (a2, k2))) =
                    none by simp [mapFld, mapOPtr, mapPtr, hga]] at hmapf
                cases hmapf
            | some b4 =>
                refine ⟨b4, rfl, ?_⟩
                rw [show mapFld phi2 (Fld.fSh sty2 (some (a2, k2))) =
                    some (.fSh sty2 (some (b4, k2))) by
                  simp [mapFld, mapOPtr, mapPtr, hga]] at hmapf
                rw [hrf, ← Option.some.inj hmapf]

/-- Witness for the cyclic round trip: the registered self-loop `Node`
(`p = new Node{next = p}`) saves at some fuel, loads, and the loaded
node's successor is the loaded node itself (the edge `0 → 0` maps to
`b → b`). -/
theorem cyclic_roundtrip_w :
    PtrOk nodeCtx nodeHeap "Node" (0, 0) ∧
    (∃ (n : Nat) (stream : List Tok) (r2 : RSt) (vs : List (Option VPtr))
      (phi : List (Nat × Nat)) (b : Nat),
      saveAll nodeCtx nodeHeap [("netgen", ⟨"6.2"⟩)] n
          [.sh "Node" (some (0, 0))] = .ok stream ∧
      loadAll nodeCtx n [.sh "Node"] stream =
        .ok (r2, [("netgen", ⟨"6.2"⟩)], vs) ∧
      mget phi 0 = some b ∧ vs = [some (b, 0)] ∧
      (∀ a b2, mget phi a = some b2 →
        ∃ o ro, nodeHeap.get? a = some o ∧ r2.heap.get? b2 = some ro ∧
          ro.dyn = o.dyn ∧
          (∀ j sty2 a2 k2,
            o.flds.get? j = some (.fSh sty2 (some (a2, k2))) →
            ∃ b3, mget phi a2 = some b3 ∧
              ro.flds.get? j = some (.fSh sty2 (some (b3, k2)))))) :=
  ⟨⟨⟨"Node", [.fSh "Node" (some (0, 0))]⟩, rfl, rfl⟩,
   cyclic_roundtrip nodeCtx nodeHeap [("netgen", ⟨"6.2"⟩)]
     (by
       intro o ho
       simp only [nodeHeap, List.mem_singleton] at ho
       subst ho
       refine ⟨rfl, ?_⟩
       intro f hf
       simp only [List.mem_singleton] at hf
       subst hf
       exact ⟨⟨"Node", [.fSh "Node" (some (0, 0))]⟩, rfl, rfl⟩)
     (by
       intro o ho
       simp only [nodeHeap, List.mem_singleton] at ho
       subst ho
       exact ⟨by decide, rfl⟩)
     (by decide) "Node" (0, 0)
     ⟨⟨"Node", [.fSh "Node" (some (0, 0))]⟩, rfl, rfl⟩⟩

end NgArchive
